import Mathlib

/-!
GemmRewriter pass of CINN (cinn/frontend/pass/gemm_rewriter.cc).

A shallow embedding of `GemmRewriterPass` and of the part of the graph model it
touches, followed by theorems about the pass.

Objects that the C++ code handles through shared pointers (`Variable`,
`Instruction`) are records that carry the address of the object in the field
`ptr`; the pointer-keyed containers of the pass are keyed by that address.
`std::unordered_map` / `std::unordered_set` are association lists / lists, a
fatal `CHECK` (or a throwing accessor) is an `Except.error`. The counters of
`var_used_count_` are natural numbers (a C++ `int` does not wrap below 2^31 uses).

Logging, shapes and element types are left out: `CreateInput`, `CustomInstr` and
`Build` of the builder, which are not part of the pass, always succeed here. The
theorems speak about a call of `ApplyImpl` on a newly constructed pass object
(`GemmRewriterPass.fresh`).

The namespace `cinn.poly` holds a model of `TransIdentityExtentToContextId`
(cinn/poly/ast_gen.h), of which the sources hold the declaration and its comment
only; integer sets are given by named dimensions, parameters and constraints.
-/

namespace cinn
namespace frontend

/-! ## Graph model -/

/-- Modelled from the spec: the tagged attribute value (boolean, integer, float,
string, or a list of one of these); the payload of a float is kept as its bit
pattern, no arithmetic is done on it. -/
inductive AttrType where
  | bool (b : Bool)
  | float (bits : Nat)
  | int (i : Int)
  | str (s : String)
  | bools (l : List Bool)
  | floats (l : List Nat)
  | ints (l : List Int)
  | strs (l : List String)
deriving DecidableEq, Repr

/-- Modelled from the spec: a Variable, the object address `ptr` (what
`var.get()` returns) and the string `id` (shape and element type play no role in
the pass). -/
structure Variable where
  ptr : Nat
  id : String
deriving DecidableEq, Repr

/-- Modelled from the spec: an Instruction, the object address `ptr` (what
`instr.get()` returns), the op-type tag, the ordered inputs and outputs and the
attribute mapping. -/
structure Instruction where
  ptr : Nat
  op_type : String
  inputs : List Variable
  outputs : List Variable
  attrs : List (String × AttrType)
deriving DecidableEq, Repr

/-- Modelled from the spec: a Program, the ordered Instructions and the
designated input Variables. -/
structure Program where
  instrs : List Instruction
  inputs : List Variable
deriving DecidableEq, Repr

/-- Modelled from the spec: the architecture tag of `common::Target`. -/
inductive Arch where
  | Unk
  | X86
  | ARM
  | NVGPU
deriving DecidableEq, Repr

/-- Modelled from the spec: the target information handed to a pass. -/
structure Target where
  arch : Arch
deriving DecidableEq, Repr

/-- Number of Instructions, `prog->size()`. -/
def Program.size (prog : Program) : Nat := prog.instrs.length

/-- Every address that occurs in a Program: Instruction objects, and the Variable
objects among the Program inputs and the inputs and outputs of Instructions. -/
def Program.addrs (prog : Program) : List Nat :=
  prog.instrs.map (fun i => i.ptr) ++ prog.inputs.map (fun v => v.ptr)
    ++ prog.instrs.flatMap (fun i => i.inputs.map (fun v => v.ptr))
    ++ prog.instrs.flatMap (fun i => i.outputs.map (fun v => v.ptr))

/-- An address above every address of the Program; objects allocated during the
pass get addresses from here on, so they differ from every existing object. -/
def Program.heapTop (prog : Program) : Nat := prog.addrs.foldr max 0 + 1

/-! ## Containers -/

/-- The call `m.emplace(k, v)`: inserts only when the key is absent. -/
def emplace {β : Type} (k : Nat) (v : β) (m : List (Nat × β)) : List (Nat × β) :=
  if (m.lookup k).isSome then m else (k, v) :: m

/-- The statement `m[k]++` on a map of counters: an absent key starts from 0; the
new entry shadows the old one. -/
def increment (k : Nat) (m : List (Nat × Nat)) : List (Nat × Nat) :=
  (k, (m.lookup k).getD 0 + 1) :: m

/-! ## Builder -/

/-- Modelled from the spec: the builder that receives the emitted Instructions;
`instrs_` in emission order, `inputs_` the declared inputs, `next_obj` the address
of the next object it allocates. -/
structure CinnBuilder where
  name : String
  instrs_ : List Instruction
  inputs_ : List Variable
  next_obj : Nat
deriving DecidableEq, Repr

/-- Modelled from the spec: `builder.CreateInput(var)` declares an input. -/
def CinnBuilder.CreateInput (b : CinnBuilder) (var : Variable) : CinnBuilder :=
  { b with inputs_ := b.inputs_ ++ [var] }

/-- Modelled from the spec: `builder.AppendInstruction(instr)` emits an Instruction. -/
def CinnBuilder.AppendInstruction (b : CinnBuilder) (instr : Instruction) : CinnBuilder :=
  { b with instrs_ := b.instrs_ ++ [instr] }

/-- Modelled from the spec: `builder->CustomInstr(type, inputs, attrs)` emits a new
Instruction of the given op type with the given inputs and attributes and one
freshly allocated output Variable, and returns its outputs. Instruction addresses
and Variable addresses are only compared among themselves, so both new objects take
the address `next_obj`. -/
def CinnBuilder.CustomInstr (b : CinnBuilder) (type : String) (inputs : List Variable)
    (attrs : List (String × AttrType)) : CinnBuilder × List Variable :=
  let out : Variable := { ptr := b.next_obj, id := "var_" ++ toString b.next_obj }
  let instr : Instruction :=
    { ptr := b.next_obj, op_type := type, inputs := inputs, outputs := [out], attrs := attrs }
  ({ b with instrs_ := b.instrs_ ++ [instr], next_obj := b.next_obj + 1 }, [out])

/-- The assignment `var->id = s` on the Variable object at address `p`: every
output slot held by the builder that refers to this object shows the new id. -/
def CinnBuilder.SetVarId (b : CinnBuilder) (p : Nat) (s : String) : CinnBuilder :=
  { b with instrs_ := b.instrs_.map (fun i =>
      { i with outputs := i.outputs.map (fun v => if v.ptr = p then { v with id := s } else v) }) }

/-- Modelled from the spec: `builder.Build(true)` yields the Program of the emitted
Instructions in reverse emission order, with the declared inputs. -/
def CinnBuilder.Build (b : CinnBuilder) (in_reverse : Bool) : Program :=
  { instrs := if in_reverse then b.instrs_.reverse else b.instrs_, inputs := b.inputs_ }

/-! ## The pass -/

/-- The fatal outcomes of the pass. -/
inductive Fatal where
  /-- The check `CHECK_EQ(instr->inputs.size(), 2)` fails. -/
  | elementwise_arity
  /-- The check `CHECK_GT(var_used_count_.count(var.get()), 0)` fails. -/
  | used_count_missing
  /-- The call `absl::get<bool>` on an attribute that holds no boolean. -/
  | bad_variant_access
  /-- The check `CHECK_EQ(inputs.size(), 0)` fails. -/
  | gemm_arity
  /-- The access `instr.GetOutputs()[0]` on an Instruction without outputs. -/
  | no_output
deriving DecidableEq, Repr

/-- The data members of `GemmRewriterPass`. -/
structure GemmRewriterPass where
  removed_instrs_ : List Nat
  origin2new_ : List (Nat × Variable)
  output2instr_ : List (Nat × Instruction)
  var_used_count_ : List (Nat × Nat)
deriving DecidableEq, Repr

/-- A newly constructed pass object: all containers empty. -/
def GemmRewriterPass.fresh : GemmRewriterPass :=
  { removed_instrs_ := [], origin2new_ := [], output2instr_ := [], var_used_count_ := [] }

/-- The body of the loop of `CollectInfo` for one Instruction. -/
def GemmRewriterPass.CollectInfo.visit (self : GemmRewriterPass) (instr : Instruction) :
    GemmRewriterPass :=
  let s1 := instr.outputs.foldl
    (fun s var => { s with output2instr_ := emplace var.ptr instr s.output2instr_ }) self
  instr.inputs.foldl
    (fun s var => { s with var_used_count_ := increment var.ptr s.var_used_count_ }) s1

/-- The method `CollectInfo(prog)`: one forward scan filling `output2instr_` and
`var_used_count_`. -/
def GemmRewriterPass.CollectInfo (self : GemmRewriterPass) (prog : Program) : GemmRewriterPass :=
  prog.instrs.foldl GemmRewriterPass.CollectInfo.visit self

/-- The call `absl::get<bool>(attr)`. -/
def AttrType.getBool : AttrType → Except Fatal Bool
  | AttrType.bool b => Except.ok b
  | _ => Except.error Fatal.bad_variant_access

/-- The locals `inputs`, `trans_a`, `trans_b` of `DoGemmFusion`. -/
structure FusionLocals where
  inputs : List Variable
  trans_a : Bool
  trans_b : Bool
deriving DecidableEq, Repr

/-- The loop `for (auto& var : instr->inputs)` of `DoGemmFusion`, run on the inputs
still to visit; `in0`, `in1` are `instr->inputs[0]`, `instr->inputs[1]`. A visited
input that is rejected falls through to the next one (`continue`), the first
accepted one ends the loop (`break`). -/
def GemmRewriterPass.DoGemmFusion.forInputs (self : GemmRewriterPass) (instr : Instruction)
    (fetch_ids : List String) (in0 in1 : Variable) (loc : FusionLocals) :
    List Variable → Except Fatal (GemmRewriterPass × FusionLocals)
  | [] => Except.ok (self, loc)
  | var :: rest =>
    match self.output2instr_.lookup var.ptr with
    | some matmul_instr =>
      if matmul_instr.op_type = "matmul" then
        match self.var_used_count_.lookup var.ptr with
        | none => Except.error Fatal.used_count_missing
        | some used =>
          if used > 1 ∨ var.id ∈ fetch_ids then
            GemmRewriterPass.DoGemmFusion.forInputs self instr fetch_ids in0 in1 loc rest
          else
            let bias := if in0.ptr = var.ptr then in1 else in0
            let inputs := matmul_instr.inputs ++ [bias]
            match (match matmul_instr.attrs.lookup "trans_a" with
                   | some a => a.getBool
                   | none => Except.ok loc.trans_a) with
            | Except.error e => Except.error e
            | Except.ok trans_a =>
              match (match matmul_instr.attrs.lookup "trans_b" with
                     | some a => a.getBool
                     | none => Except.ok loc.trans_b) with
              | Except.error e => Except.error e
              | Except.ok trans_b =>
                Except.ok
                  ({ self with
                      removed_instrs_ := instr.ptr :: matmul_instr.ptr :: self.removed_instrs_ },
                   { inputs := inputs, trans_a := trans_a, trans_b := trans_b })
      else GemmRewriterPass.DoGemmFusion.forInputs self instr fetch_ids in0 in1 loc rest
    | none => GemmRewriterPass.DoGemmFusion.forInputs self instr fetch_ids in0 in1 loc rest

/-- The method `DoGemmFusion(builder, instr, fetch_ids)`; returns the flag together
with the updated pass object and builder. -/
def GemmRewriterPass.DoGemmFusion (self : GemmRewriterPass) (builder : CinnBuilder)
    (instr : Instruction) (fetch_ids : List String) :
    Except Fatal (Bool × GemmRewriterPass × CinnBuilder) :=
  match instr.inputs with
  | [in0, in1] =>
    match GemmRewriterPass.DoGemmFusion.forInputs self instr fetch_ids in0 in1
        { inputs := [], trans_a := false, trans_b := false } [in0, in1] with
    | Except.error e => Except.error e
    | Except.ok (self1, loc) =>
      if loc.inputs.length = 3 then
        let r := builder.CustomInstr "cublas_gemm" loc.inputs
          [("trans_a", AttrType.bool loc.trans_a), ("trans_b", AttrType.bool loc.trans_b)]
        match r.2, instr.outputs with
        | new_out :: _, old_out :: _ =>
          let builder2 := r.1.SetVarId new_out.ptr old_out.id
          let new_out2 : Variable := { new_out with id := old_out.id }
          Except.ok (true,
            { self1 with origin2new_ := emplace old_out.ptr new_out2 self1.origin2new_ },
            builder2)
        | _, _ => Except.error Fatal.no_output
      else if loc.inputs.length = 0 then Except.ok (false, self1, builder)
      else Except.error Fatal.gemm_arity
  | _ => Except.error Fatal.elementwise_arity

/-- The body of the reverse loop of `ApplyImpl` for one Instruction. -/
def GemmRewriterPass.ApplyImpl.visit (fetch_ids : List String)
    (st : GemmRewriterPass × CinnBuilder) (instr : Instruction) :
    Except Fatal (GemmRewriterPass × CinnBuilder) :=
  let emit (st : GemmRewriterPass × CinnBuilder) : GemmRewriterPass × CinnBuilder :=
    if instr.ptr ∈ st.1.removed_instrs_ then st else (st.1, st.2.AppendInstruction instr)
  if instr.op_type = "elementwise_add" then
    match st.1.DoGemmFusion st.2 instr fetch_ids with
    | Except.error e => Except.error e
    | Except.ok (fused, self1, builder1) =>
      if fused then Except.ok (self1, builder1) else Except.ok (emit (self1, builder1))
  else Except.ok (emit st)

/-- The loop `for (int i = prog->size() - 1; i >= 0; i--)` of `ApplyImpl`, run on
the Instructions in visiting order (last Instruction first). -/
def GemmRewriterPass.ApplyImpl.loop (fetch_ids : List String) :
    List Instruction → GemmRewriterPass × CinnBuilder →
    Except Fatal (GemmRewriterPass × CinnBuilder)
  | [], st => Except.ok st
  | instr :: rest, st =>
    match GemmRewriterPass.ApplyImpl.visit fetch_ids st instr with
    | Except.error e => Except.error e
    | Except.ok st1 => GemmRewriterPass.ApplyImpl.loop fetch_ids rest st1

/-- The relinking of one input slot: `inputs[j] = origin2new_.at(inputs[j].get())`
when the key is present. -/
def GemmRewriterPass.relink (self : GemmRewriterPass) (v : Variable) : Variable :=
  match self.origin2new_.lookup v.ptr with
  | some n => n
  | none => v

/-- The method `ApplyImpl(prog, fetch_ids, target)`; returns the rewritten Program
together with the pass object as the call leaves it. -/
def GemmRewriterPass.ApplyImpl (self : GemmRewriterPass) (prog : Program)
    (fetch_ids : List String) (target : Target) : Except Fatal (Program × GemmRewriterPass) :=
  if target.arch ≠ Arch.NVGPU ∨ prog.size = 0 then Except.ok (prog, self)
  else
    let self1 := self.CollectInfo prog
    let builder0 : CinnBuilder :=
      { name := "gemm_rewriter_builder", instrs_ := [], inputs_ := [],
        next_obj := prog.heapTop }
    let builder := prog.inputs.foldl CinnBuilder.CreateInput builder0
    match GemmRewriterPass.ApplyImpl.loop fetch_ids prog.instrs.reverse (self1, builder) with
    | Except.error e => Except.error e
    | Except.ok (self2, builder2) =>
      let built := builder2.Build true
      Except.ok
        ({ built with instrs := built.instrs.map (fun i =>
            { i with inputs := i.inputs.map self2.relink }) }, self2)

/-! ## Closed form of the pass

The decisions of `DoGemmFusion` depend on the two tables of `CollectInfo` and on the
fetch ids only; the definitions below restate the reverse loop of `ApplyImpl` as
functions of the Program in program order. -/

/-- Number of input slots of the Instructions of a list that hold the object `p`. -/
def useCount (l : List Instruction) (p : Nat) : Nat :=
  (l.flatMap (fun i => i.inputs.map (fun v => v.ptr))).count p

/-- The first Instruction of a list that has the object `p` among its outputs. -/
def producerOf (l : List Instruction) (p : Nat) : Option Instruction :=
  l.find? (fun i => decide (p ∈ i.outputs.map (fun v => v.ptr)))

/-- What the input loop of `DoGemmFusion` settles when it accepts an input: the
accepted input `var`, its producer `matmul`, the other input `bias` and the two
transpose flags. -/
structure Candidate where
  matmul : Instruction
  var : Variable
  bias : Variable
  trans_a : Bool
  trans_b : Bool
deriving DecidableEq, Repr

/-- The decision taken by the input loop of `DoGemmFusion`, as a function of the two
tables and the fetch ids alone. -/
def pickCandidate (o2i : List (Nat × Instruction)) (cnt : List (Nat × Nat))
    (fetch_ids : List String) (in0 in1 : Variable) :
    List Variable → Except Fatal (Option Candidate)
  | [] => Except.ok none
  | var :: rest =>
    match o2i.lookup var.ptr with
    | some matmul_instr =>
      if matmul_instr.op_type = "matmul" then
        match cnt.lookup var.ptr with
        | none => Except.error Fatal.used_count_missing
        | some used =>
          if used > 1 ∨ var.id ∈ fetch_ids then pickCandidate o2i cnt fetch_ids in0 in1 rest
          else
            match (match matmul_instr.attrs.lookup "trans_a" with
                   | some a => a.getBool
                   | none => Except.ok false) with
            | Except.error e => Except.error e
            | Except.ok trans_a =>
              match (match matmul_instr.attrs.lookup "trans_b" with
                     | some a => a.getBool
                     | none => Except.ok false) with
              | Except.error e => Except.error e
              | Except.ok trans_b =>
                Except.ok (some
                  { matmul := matmul_instr, var := var,
                    bias := if in0.ptr = var.ptr then in1 else in0,
                    trans_a := trans_a, trans_b := trans_b })
      else pickCandidate o2i cnt fetch_ids in0 in1 rest
    | none => pickCandidate o2i cnt fetch_ids in0 in1 rest

/-- The outcome of `DoGemmFusion` for an Instruction as a function of the two tables
and the fetch ids: a fatal error, no match, or the accepted candidate together with
the old output `instr.GetOutputs()[0]`. -/
def planOf (o2i : List (Nat × Instruction)) (cnt : List (Nat × Nat))
    (fetch_ids : List String) (instr : Instruction) :
    Except Fatal (Option (Candidate × Variable)) :=
  match instr.inputs with
  | [in0, in1] =>
    match pickCandidate o2i cnt fetch_ids in0 in1 [in0, in1] with
    | Except.error e => Except.error e
    | Except.ok none => Except.ok none
    | Except.ok (some c) =>
      if (c.matmul.inputs ++ [c.bias]).length = 3 then
        match instr.outputs with
        | old_out :: _ => Except.ok (some (c, old_out))
        | [] => Except.error Fatal.no_output
      else Except.error Fatal.gemm_arity
  | _ => Except.error Fatal.elementwise_arity

/-- The fused Instruction emitted for a candidate, allocated at address `n`. -/
def gemmInstr (n : Nat) (c : Candidate) (old_out : Variable) : Instruction :=
  { ptr := n, op_type := "cublas_gemm", inputs := c.matmul.inputs ++ [c.bias],
    outputs := [{ ptr := n, id := old_out.id }],
    attrs := [("trans_a", AttrType.bool c.trans_a), ("trans_b", AttrType.bool c.trans_b)] }

/-- The outcome of the visit of one Instruction by the reverse loop of `ApplyImpl`:
`DoGemmFusion` is consulted for an `elementwise_add` only. -/
def fusionOf (T : GemmRewriterPass) (fetch_ids : List String) (instr : Instruction) :
    Except Fatal (Option (Candidate × Variable)) :=
  if instr.op_type = "elementwise_add" then
    planOf T.output2instr_ T.var_used_count_ fetch_ids instr
  else Except.ok none

/-- Number of Instructions of a list that are fused. -/
def numFused (T : GemmRewriterPass) (F : List String) : List Instruction → Nat
  | [] => 0
  | i :: rest =>
    match fusionOf T F i with
    | Except.ok (some _) => numFused T F rest + 1
    | _ => numFused T F rest

/-- The addresses marked removed by the fusions of a list of Instructions (given in
program order, visited last to first). -/
def removedOf (T : GemmRewriterPass) (F : List String) : List Instruction → List Nat
  | [] => []
  | i :: rest =>
    match fusionOf T F i with
    | Except.ok (some (c, _)) => i.ptr :: c.matmul.ptr :: removedOf T F rest
    | _ => removedOf T F rest

/-- The substitution table filled by the fusions of a list of Instructions (program
order, visited last to first), starting from `base`; `n0` is the first free
address. -/
def originOf (T : GemmRewriterPass) (F : List String) (n0 : Nat) (base : List (Nat × Variable)) :
    List Instruction → List (Nat × Variable)
  | [] => base
  | i :: rest =>
    match fusionOf T F i with
    | Except.ok (some (_, old_out)) =>
      emplace old_out.ptr { ptr := n0 + numFused T F rest, id := old_out.id }
        (originOf T F n0 base rest)
    | _ => originOf T F n0 base rest

/-- The Instructions emitted for a list of Instructions, in program order: a fused
`elementwise_add` gives its `cublas_gemm`, an Instruction marked removed by the time
it is visited gives nothing, any other Instruction gives itself. `r0` are the
addresses marked removed before the list is visited. -/
def emittedOf (T : GemmRewriterPass) (F : List String) (n0 : Nat) (r0 : List Nat) :
    List Instruction → List Instruction
  | [] => []
  | i :: rest =>
    match fusionOf T F i with
    | Except.ok (some (c, old_out)) =>
      gemmInstr (n0 + numFused T F rest) c old_out :: emittedOf T F n0 r0 rest
    | _ =>
      if i.ptr ∈ removedOf T F rest ++ r0 then emittedOf T F n0 r0 rest
      else i :: emittedOf T F n0 r0 rest

/-- Every output held by the builder lies below the next address it allocates. -/
def BuilderFresh (b : CinnBuilder) : Prop :=
  ∀ i ∈ b.instrs_, ∀ o ∈ i.outputs, o.ptr < b.next_obj

/-- The pass object as the reverse loop leaves it, for a Program scanned with the
tables `T`. -/
def finalPass (T : GemmRewriterPass) (F : List String) (prog : Program) : GemmRewriterPass :=
  { T with
    removed_instrs_ := removedOf T F prog.instrs ++ T.removed_instrs_,
    origin2new_ := originOf T F prog.heapTop T.origin2new_ prog.instrs }

/-- The relinking loop applied to one Instruction. -/
def relinkInstr (P : GemmRewriterPass) (i : Instruction) : Instruction :=
  { i with inputs := i.inputs.map P.relink }

/-- The Program that `ApplyImpl` leaves when no check fails, in closed form. -/
def rewritten (F : List String) (prog : Program) : Program :=
  let T := GemmRewriterPass.fresh.CollectInfo prog
  { instrs := (emittedOf T F prog.heapTop [] prog.instrs).map (relinkInstr (finalPass T F prog)),
    inputs := prog.inputs }

/-- The test of the input loop of `DoGemmFusion` on one input, read off the two
tables: `v` is recorded as an output of the matmul `m`, its use counter does not
exceed 1 and its id is no fetch id. -/
def Accepted (o2i : List (Nat × Instruction)) (cnt : List (Nat × Nat)) (F : List String)
    (v : Variable) (m : Instruction) : Prop :=
  o2i.lookup v.ptr = some m ∧ m.op_type = "matmul" ∧
    (∃ used, cnt.lookup v.ptr = some used ∧ ¬ used > 1) ∧ v.id ∉ F

/-- The transpose flag `b` inherited from the attribute `key` of `m`: the boolean
stored under `key`, or false when the attribute is absent. -/
def TransOf (m : Instruction) (key : String) (b : Bool) : Prop :=
  m.attrs.lookup key = some (AttrType.bool b) ∨ (m.attrs.lookup key = none ∧ b = false)

/-! ## Well-formedness of Programs -/

/-- The Variable records of a Program: its inputs and the inputs and outputs of its
Instructions. -/
def Program.vars (prog : Program) : List Variable :=
  prog.inputs ++ prog.instrs.flatMap (fun i => i.inputs ++ i.outputs)

/-- Records that describe the same object agree: two Instruction records with the
same address are equal, two Variable records with the same address carry the same
id. -/
def Program.Coherent (prog : Program) : Prop :=
  (∀ i ∈ prog.instrs, ∀ j ∈ prog.instrs, i.ptr = j.ptr → i = j) ∧
  (∀ x ∈ prog.vars, ∀ y ∈ prog.vars, x.ptr = y.ptr → x.id = y.id)

/-- The ops the pass handles have one output: every `matmul` and every
`elementwise_add` Instruction has exactly one output Variable. -/
def Program.SingleOutput (prog : Program) : Prop :=
  ∀ i ∈ prog.instrs, (i.op_type = "matmul" ∨ i.op_type = "elementwise_add") →
    i.outputs.length = 1

/-- Single assignment: no Variable object is an output twice (of one Instruction or
of two), and no Program input is the output of an Instruction. -/
def Program.SSA (prog : Program) : Prop :=
  (prog.instrs.flatMap (fun i => i.outputs.map (fun v => v.ptr))).Nodup ∧
  ∀ i ∈ prog.instrs, ∀ o ∈ i.outputs, o.ptr ∉ prog.inputs.map (fun v => v.ptr)

/-- Topological order of a list of Instructions over the objects `known` so far:
every input of an Instruction is known when the Instruction is reached, and its
outputs are known afterwards. -/
def TopoList : List Nat → List Instruction → Prop
  | _, [] => True
  | known, i :: rest =>
    (∀ x ∈ i.inputs, x.ptr ∈ known) ∧ TopoList (known ++ i.outputs.map (fun v => v.ptr)) rest

/-- Topological validity: the inputs of every Instruction are Program inputs or
outputs of a strictly earlier Instruction. -/
def Program.Topological (prog : Program) : Prop :=
  TopoList (prog.inputs.map (fun v => v.ptr)) prog.instrs

/-- A valid Program: every Instruction object occurs once, records are coherent,
single assignment, topological order, and one output per `matmul` and
`elementwise_add`. -/
def Program.Valid (prog : Program) : Prop :=
  (prog.instrs.map (fun i => i.ptr)).Nodup ∧ prog.Coherent ∧ prog.SSA ∧
    prog.Topological ∧ prog.SingleOutput

instance (prog : Program) : Decidable prog.Coherent := by
  unfold Program.Coherent; infer_instance

instance (prog : Program) : Decidable prog.SingleOutput := by
  unfold Program.SingleOutput; infer_instance

instance (prog : Program) : Decidable prog.SSA := by
  unfold Program.SSA; infer_instance

instance decTopoList : (known : List Nat) → (l : List Instruction) → Decidable (TopoList known l)
  | _, [] => isTrue trivial
  | known, i :: rest =>
    @instDecidableAnd _ _ inferInstance (decTopoList (known ++ i.outputs.map (fun v => v.ptr)) rest)

instance (prog : Program) : Decidable prog.Topological := by
  unfold Program.Topological; infer_instance

instance (prog : Program) : Decidable prog.Valid := by
  unfold Program.Valid; infer_instance

/-- The Program-level reading of the test of `DoGemmFusion` on the input `v` of an
`elementwise_add`: `v` is produced by the matmul `m`, occupies exactly one input
slot of the Program and its id is no fetch id. -/
def Eligible (prog : Program) (F : List String) (v : Variable) (m : Instruction) : Prop :=
  m ∈ prog.instrs ∧ m.op_type = "matmul" ∧ v.ptr ∈ m.outputs.map (fun o => o.ptr) ∧
    useCount prog.instrs v.ptr = 1 ∧ v.id ∉ F

instance (prog : Program) (F : List String) (v : Variable) (m : Instruction) :
    Decidable (Eligible prog F v m) := by
  unfold Eligible; infer_instance

/-- Number of Instructions of a list that read the object `p`. -/
def readers (l : List Instruction) (p : Nat) : Nat :=
  (l.filter (fun i => decide (p ∈ i.inputs.map (fun v => v.ptr)))).length

/-! ## Example Programs -/

namespace Example

def A : Variable := { ptr := 1, id := "A" }
def B : Variable := { ptr := 2, id := "B" }
def bias : Variable := { ptr := 3, id := "bias" }
def V : Variable := { ptr := 4, id := "V" }
def Out : Variable := { ptr := 5, id := "Out" }
def R : Variable := { ptr := 6, id := "R" }
def W : Variable := { ptr := 7, id := "W" }

/-- The Instruction `matmul(A, B) -> V` with a transposed first operand. -/
def matmulV : Instruction :=
  { ptr := 10, op_type := "matmul", inputs := [A, B], outputs := [V],
    attrs := [("trans_a", AttrType.bool true)] }

/-- The Instruction `elementwise_add(V, bias) -> Out`. -/
def addOut : Instruction :=
  { ptr := 11, op_type := "elementwise_add", inputs := [V, bias], outputs := [Out], attrs := [] }

/-- The Instruction `relu(Out) -> R`. -/
def reluOut : Instruction :=
  { ptr := 12, op_type := "relu", inputs := [Out], outputs := [R], attrs := [] }

/-- The Instruction `relu(V) -> R`. -/
def reluV : Instruction :=
  { ptr := 13, op_type := "relu", inputs := [V], outputs := [R], attrs := [] }

/-- An `elementwise_add` with three inputs. -/
def addThree : Instruction :=
  { ptr := 14, op_type := "elementwise_add", inputs := [A, B, bias], outputs := [W], attrs := [] }

/-- Scenario A followed by a reader of the sum. -/
def scenarioA : Program := { instrs := [matmulV, addOut, reluOut], inputs := [A, B, bias] }

/-- Scenario B: the matmul output is read by the add and by a third Instruction. -/
def scenarioB : Program := { instrs := [matmulV, addOut, reluV], inputs := [A, B, bias] }

/-- A fusable pair followed by a malformed `elementwise_add`. -/
def withMalformed : Program := { instrs := [matmulV, addOut, addThree], inputs := [A, B, bias] }

/-- A malformed `elementwise_add` alone: no input is produced by a matmul. -/
def onlyMalformed : Program := { instrs := [addThree], inputs := [A, B, bias] }

def nvgpu : Target := { arch := Arch.NVGPU }
def x86 : Target := { arch := Arch.X86 }

end Example

/-- The visit of the Instruction `a` by `ApplyImpl` on `prog` fuses it: `DoGemmFusion`
accepts the candidate `c` and replaces the old output `old`. -/
def Fused (prog : Program) (F : List String) (a : Instruction) (c : Candidate)
    (old : Variable) : Prop :=
  fusionOf (GemmRewriterPass.fresh.CollectInfo prog) F a = Except.ok (some (c, old))

namespace Example

def C : Variable := { ptr := 21, id := "C" }
def L : Variable := { ptr := 22, id := "L" }
def Y : Variable := { ptr := 23, id := "Y" }
def A2 : Variable := { ptr := 24, id := "A2" }
def D : Variable := { ptr := 25, id := "D" }
def Q : Variable := { ptr := 26, id := "Q" }
def P : Variable := { ptr := 27, id := "P" }
def Mv : Variable := { ptr := 28, id := "M" }
def Nv : Variable := { ptr := 29, id := "N" }
def OutT : Variable := { ptr := 30, id := "out" }

/-- The Instruction `d = Matmul(c, b)` of the test `GemmRwriter.Basic`. -/
def matmulD : Instruction :=
  { ptr := 40, op_type := "matmul", inputs := [C, B], outputs := [D], attrs := [] }

/-- The Instruction `q = Matmul(l, y)`. -/
def matmulQ : Instruction :=
  { ptr := 41, op_type := "matmul", inputs := [L, Y], outputs := [Q], attrs := [] }

/-- The Instruction `p = Mul(c, a)`. -/
def mulP : Instruction :=
  { ptr := 42, op_type := "elementwise_mul", inputs := [C, A2], outputs := [P], attrs := [] }

/-- The Instruction `m = Sub(d, p)`. -/
def subM : Instruction :=
  { ptr := 43, op_type := "substract", inputs := [D, P], outputs := [Mv], attrs := [] }

/-- The Instruction `n = Add(d, q)`. -/
def addN : Instruction :=
  { ptr := 44, op_type := "elementwise_add", inputs := [D, Q], outputs := [Nv], attrs := [] }

/-- The Instruction `out = Add(m, n)`. -/
def addOutT : Instruction :=
  { ptr := 45, op_type := "elementwise_add", inputs := [Mv, Nv], outputs := [OutT], attrs := [] }

/-- The dataflow of the test `GemmRwriter.Basic`: the matmul output `d` is read by
the add `n` and by the subtraction `m`, the matmul output `q` by the add `n` only. -/
def testBasic : Program :=
  { instrs := [matmulD, matmulQ, mulP, subM, addN, addOutT], inputs := [C, B, L, Y, A2] }

end Example

/-- An attribute slot that `absl::get<bool>` can read: absent, or a boolean. -/
def BoolOrAbsent : Option AttrType → Prop
  | none => True
  | some (AttrType.bool _) => True
  | some _ => False

instance : (o : Option AttrType) → Decidable (BoolOrAbsent o)
  | none => isTrue trivial
  | some (AttrType.bool _) => isTrue trivial
  | some (AttrType.float _) => isFalse (fun h => h)
  | some (AttrType.int _) => isFalse (fun h => h)
  | some (AttrType.str _) => isFalse (fun h => h)
  | some (AttrType.bools _) => isFalse (fun h => h)
  | some (AttrType.floats _) => isFalse (fun h => h)
  | some (AttrType.ints _) => isFalse (fun h => h)
  | some (AttrType.strs _) => isFalse (fun h => h)

/-- The op signatures the pass relies on: an `elementwise_add` has two inputs, a
`matmul` has two inputs and its attributes `trans_a`, `trans_b` are booleans when
present. -/
def Program.WellTyped (prog : Program) : Prop :=
  ∀ i ∈ prog.instrs,
    (i.op_type = "elementwise_add" → i.inputs.length = 2) ∧
    (i.op_type = "matmul" → i.inputs.length = 2 ∧ BoolOrAbsent (i.attrs.lookup "trans_a") ∧
      BoolOrAbsent (i.attrs.lookup "trans_b"))

instance (prog : Program) : Decidable prog.WellTyped := by
  unfold Program.WellTyped; infer_instance

namespace Example

def V2 : Variable := { ptr := 31, id := "V2" }
def Sum : Variable := { ptr := 32, id := "Sum" }

/-- The Instruction `matmul(C, L) -> V2`. -/
def matmulV2 : Instruction :=
  { ptr := 46, op_type := "matmul", inputs := [C, L], outputs := [V2], attrs := [] }

/-- The Instruction `elementwise_add(V, V2) -> Sum`: both inputs are matmul outputs. -/
def addBoth : Instruction :=
  { ptr := 47, op_type := "elementwise_add", inputs := [V, V2], outputs := [Sum], attrs := [] }

/-- Two matmuls feeding one elementwise_add, each matmul output read by the add only. -/
def twoMatmuls : Program :=
  { instrs := [matmulV, matmulV2, addBoth], inputs := [A, B, C, L] }

end Example

/-- The object `p` is the accepted input of a fused `elementwise_add` of the Program,
so its producer is absorbed. -/
def Dead (prog : Program) (F : List String) (p : Nat) : Prop :=
  ∃ a ∈ prog.instrs, ∃ c old, Fused prog F a c old ∧ c.var.ptr = p

/-- The objects known after the Instructions `pre` of the Program: a Variable that is
a Program input or an output of an Instruction of `pre`, and is not dead, is found
after relinking in `known`. -/
def KnownAfter (prog : Program) (F : List String) (pre : List Instruction)
    (known : List Nat) : Prop :=
  ∀ x : Variable,
    (x.ptr ∈ prog.inputs.map (fun v => v.ptr) ∨
      ∃ k ∈ pre, x.ptr ∈ k.outputs.map (fun v => v.ptr)) →
    ¬ Dead prog F x.ptr →
    ((finalPass (GemmRewriterPass.fresh.CollectInfo prog) F prog).relink x).ptr ∈ known

namespace Example

def Z : Variable := { ptr := 33, id := "Z" }

/-- The Instruction `elementwise_add(V, V) -> Z`: one Instruction that holds the same
Variable in both input slots. -/
def addTwice : Instruction :=
  { ptr := 48, op_type := "elementwise_add", inputs := [V, V], outputs := [Z], attrs := [] }

/-- A matmul whose output is read by one Instruction only, in both of its input
slots. -/
def sameInputTwice : Program := { instrs := [matmulV, addTwice], inputs := [A, B] }

end Example

namespace Example

def V3 : Variable := { ptr := 34, id := "V3" }

def Out3 : Variable := { ptr := 35, id := "Out3" }

/-- A `matmul` Instruction with a single input, `matmul(A) -> V3`. -/
def matmulOne : Instruction :=
  { ptr := 49, op_type := "matmul", inputs := [A], outputs := [V3], attrs := [] }

/-- The Instruction `elementwise_add(V3, bias) -> Out3`. -/
def addOut3 : Instruction :=
  { ptr := 50, op_type := "elementwise_add", inputs := [V3, bias], outputs := [Out3],
    attrs := [] }

/-- An elementwise_add whose first input is the output, read by nothing else, of a
matmul that has one input instead of two. -/
def unaryMatmul : Program := { instrs := [matmulOne, addOut3], inputs := [A, bias] }

end Example

/-- The sequence that results from a list of Instructions (program order) when every
Instruction whose address is in `R` is deleted and every fused `elementwise_add` is
replaced, where it stands, by its `cublas_gemm`; `n0` is the first free address. Unlike
`emittedOf`, which looks at the marks set by the time an Instruction is visited, the
deletion is decided by the fixed set `R`. -/
def replacedInPlace (T : GemmRewriterPass) (F : List String) (n0 : Nat) (R : List Nat) :
    List Instruction → List Instruction
  | [] => []
  | i :: rest =>
    match fusionOf T F i with
    | Except.ok (some (c, old_out)) =>
      gemmInstr (n0 + numFused T F rest) c old_out :: replacedInPlace T F n0 R rest
    | _ =>
      if i.ptr ∈ R then replacedInPlace T F n0 R rest
      else i :: replacedInPlace T F n0 R rest

/-- The matmul Instructions absorbed by the fusions of a list of Instructions, in the
order of the fused adds. -/
def matmulsOf (T : GemmRewriterPass) (F : List String) : List Instruction → List Instruction
  | [] => []
  | i :: rest =>
    match fusionOf T F i with
    | Except.ok (some (c, _)) => c.matmul :: matmulsOf T F rest
    | _ => matmulsOf T F rest

end frontend

namespace poly

/-- The constant `kIslParamConstPrefix` of cinn/poly/ast_gen.h. -/
def kIslParamConstPrefix : String := "_const_"

/-- Modelled from the spec: a term of a constraint of an integer set, an integer
constant or the name of a dimension or of a parameter (the isl library is not part of
the sources). -/
inductive Term where
  | num (c : Int)
  | name (s : String)
deriving DecidableEq, Repr

/-- Modelled from the spec: a constraint `a <= b`, `a < b` or `a = b` of an integer
set. -/
inductive Constraint where
  | le (a b : Term)
  | lt (a b : Term)
  | eq (a b : Term)
deriving DecidableEq, Repr

/-- Modelled from the spec: an `isl::set`, `[params] -> { tuple[dims] : conds }`, with
`conds` the conjunction of its constraints; a dimension written with its value, as in
`s[i=0,j]`, is the constraint `i = 0`. -/
structure IslSet where
  params : List String
  tuple : String
  dims : List String
  conds : List Constraint
deriving DecidableEq, Repr

/-- The value of a term under an assignment of integers to dimension and parameter
names. -/
def Term.eval (env : String → Int) : Term → Int
  | Term.num c => c
  | Term.name s => env s

/-- Whether a constraint holds under an assignment. -/
def Constraint.holds (env : String → Int) : Constraint → Bool
  | Constraint.le a b => decide (a.eval env ≤ b.eval env)
  | Constraint.lt a b => decide (a.eval env < b.eval env)
  | Constraint.eq a b => decide (a.eval env = b.eval env)

/-- Whether the assignment `env` (a point together with values of the parameters) lies
in the set: every constraint holds. -/
def IslSet.contains (S : IslSet) (env : String → Int) : Bool :=
  S.conds.all (fun c => c.holds env)

/-- The constant lower bound that a constraint puts on the name `i`, if it is of that
form: `a <= i`, `a < i` (bound `a + 1`), `i = a` or `a = i`. -/
def Constraint.lowerBound (i : String) : Constraint → Option Int
  | Constraint.le (Term.num a) (Term.name x) => if x = i then some a else none
  | Constraint.lt (Term.num a) (Term.name x) => if x = i then some (a + 1) else none
  | Constraint.eq (Term.name x) (Term.num a) => if x = i then some a else none
  | Constraint.eq (Term.num a) (Term.name x) => if x = i then some a else none
  | _ => none

/-- The constant upper bound that a constraint puts on the name `i`, if it is of that
form: `i <= a`, `i < a` (bound `a - 1`), `i = a` or `a = i`. -/
def Constraint.upperBound (i : String) : Constraint → Option Int
  | Constraint.le (Term.name x) (Term.num a) => if x = i then some a else none
  | Constraint.lt (Term.name x) (Term.num a) => if x = i then some (a - 1) else none
  | Constraint.eq (Term.name x) (Term.num a) => if x = i then some a else none
  | Constraint.eq (Term.num a) (Term.name x) => if x = i then some a else none
  | _ => none

/-- Whether a constraint is a constant bound of the name `i`. -/
def Constraint.isBoundOf (i : String) (c : Constraint) : Bool :=
  (c.lowerBound i).isSome || (c.upperBound i).isSome

/-- Whether a term is the name `i`. -/
def Term.mentions (i : String) : Term → Bool
  | Term.num _ => false
  | Term.name x => decide (x = i)

/-- Whether the name `i` occurs in a constraint. -/
def Constraint.mentions (i : String) : Constraint → Bool
  | Constraint.le a b => a.mentions i || b.mentions i
  | Constraint.lt a b => a.mentions i || b.mentions i
  | Constraint.eq a b => a.mentions i || b.mentions i

/-- The constant lower bounds of the dimension `i` in a set. -/
def IslSet.lowers (S : IslSet) (i : String) : List Int :=
  S.conds.filterMap (Constraint.lowerBound i)

/-- The constant upper bounds of the dimension `i` in a set. -/
def IslSet.uppers (S : IslSet) (i : String) : List Int :=
  S.conds.filterMap (Constraint.upperBound i)

/-- Modelled from the spec: the single value a set fixes the dimension `i` to, which is
the value `v` when the largest constant lower bound and the smallest constant upper
bound of `i` are both `v`; a dimension without such bounds is not fixed. -/
def IslSet.fixedValue (S : IslSet) (i : String) : Option Int :=
  (S.lowers i).find? (fun v =>
    decide (v ∈ S.uppers i) && (S.lowers i).all (fun a => decide (a ≤ v)) &&
      (S.uppers i).all (fun b => decide (v ≤ b)))

/-- The dimensions of a set that are fixed to a single value, with that value. -/
def IslSet.fixedDims (S : IslSet) : List (String × Int) :=
  S.dims.filterMap (fun i => (S.fixedValue i).map (fun v => (i, v)))

/-- The name of the parameter introduced for a dimension fixed to `v`: the prefix
followed by the value, `_const_0` for the value 0. -/
def constParamName (v : Int) : String := kIslParamConstPrefix ++ toString v

/-- The constraints that replace the fixed value `v` of the dimension `i`, in the
spec's words `0 <= i <= K` and `K < 1` for the value 0: `v <= i <= K` and `K < v + 1`. -/
def rangeConds (d : String × Int) : List Constraint :=
  [Constraint.le (Term.num d.2) (Term.name d.1),
   Constraint.le (Term.name d.1) (Term.name (constParamName d.2)),
   Constraint.lt (Term.name (constParamName d.2)) (Term.num (d.2 + 1))]

/-- Modelled from the spec: `TransIdentityExtentToContextId(isl::set)`, whose body is
not among the sources (cinn/poly/ast_gen.h holds its declaration). Following the
spec, a domain that fixes a dimension to a single value is rewritten by introducing
an additional bound parameter: the constant bounds of every fixed dimension are
replaced by the range constraints of `rangeConds`, its parameter is added, and the
other constraints are kept. The comment at the declaration writes the constraint on
the parameter of its example as `_const_0 < 0+2`. -/
def TransIdentityExtentToContextId (set : IslSet) : IslSet :=
  { params := set.params ++ set.fixedDims.map (fun d => constParamName d.2),
    tuple := set.tuple,
    dims := set.dims,
    conds := set.fixedDims.flatMap rangeConds ++
      set.conds.filter (fun c => !(set.fixedDims.any (fun d => c.isBoundOf d.1))) }

namespace Example

/-- The set `{ s[i=0,j] : 0 <= j and j <= 9 }`. -/
def fixedI : IslSet :=
  { params := [], tuple := "s", dims := ["i", "j"],
    conds := [Constraint.eq (Term.name "i") (Term.num 0),
              Constraint.le (Term.num 0) (Term.name "j"),
              Constraint.le (Term.name "j") (Term.num 9)] }

/-- The same set with the dimension `i` fixed by two bounds,
`{ s[i,j] : 0 <= i and i <= 0 and 0 <= j and j <= 9 }`. -/
def zeroRange : IslSet :=
  { params := [], tuple := "s", dims := ["i", "j"],
    conds := [Constraint.le (Term.num 0) (Term.name "i"),
              Constraint.le (Term.name "i") (Term.num 0),
              Constraint.le (Term.num 0) (Term.name "j"),
              Constraint.le (Term.name "j") (Term.num 9)] }

/-- The assignment `i = 0, j = 3, _const_0 = 0`. -/
def atZero : String → Int :=
  fun s => if s = "j" then 3 else 0

end Example

end poly

namespace frontend

/-! ## Lemmas on the containers, on `CollectInfo` and on the loops -/

theorem lookup_cons_ne {β : Type} {k p : Nat} (h : p ≠ k) (v : β) (m : List (Nat × β)) :
    List.lookup p ((k, v) :: m) = List.lookup p m := by
  have : (p == k) = false := by simpa using h
  rw [List.lookup_cons, this]

theorem lookup_cons_self {β : Type} (k : Nat) (v : β) (m : List (Nat × β)) :
    List.lookup k ((k, v) :: m) = some v := by
  rw [List.lookup_cons]; simp

theorem lookup_increment (k p : Nat) (m : List (Nat × Nat)) :
    (increment k m).lookup p = if p = k then some ((m.lookup k).getD 0 + 1) else m.lookup p := by
  unfold increment
  by_cases h : p = k
  · subst h; rw [lookup_cons_self, if_pos rfl]
  · rw [lookup_cons_ne h, if_neg h]

theorem lookup_emplace {β : Type} (k p : Nat) (v : β) (m : List (Nat × β)) :
    (emplace k v m).lookup p =
      if (m.lookup p).isSome then m.lookup p else if p = k then some v else none := by
  unfold emplace
  by_cases hk : (m.lookup k).isSome
  · rw [if_pos hk]
    by_cases hp : (m.lookup p).isSome
    · rw [if_pos hp]
    · have hne : p ≠ k := by
        intro h; subst h; exact hp hk
      rw [if_neg hp, if_neg hne]
      exact Option.not_isSome_iff_eq_none.mp hp
  · rw [if_neg hk]
    by_cases h : p = k
    · subst h
      rw [lookup_cons_self, if_neg hk, if_pos rfl]
    · rw [lookup_cons_ne h, if_neg h]
      by_cases hp : (m.lookup p).isSome
      · rw [if_pos hp]
      · rw [if_neg hp]; exact Option.not_isSome_iff_eq_none.mp hp

theorem lookup_foldl_increment (ps : List Variable) (p : Nat) (m : List (Nat × Nat)) :
    (ps.foldl (fun m v => increment v.ptr m) m).lookup p =
      if (ps.map (fun v => v.ptr)).count p = 0 then m.lookup p
      else some ((m.lookup p).getD 0 + (ps.map (fun v => v.ptr)).count p) := by
  induction ps generalizing m with
  | nil => simp
  | cons x xs ih =>
    rw [List.foldl_cons, ih, lookup_increment, List.map_cons, List.count_cons]
    by_cases hx : p = x.ptr
    · subst hx
      simp only [if_true, beq_self_eq_true, Option.getD_some]
      by_cases hc : (xs.map (fun v => v.ptr)).count x.ptr = 0
      · simp [hc]
      · simp [hc]; omega
    · have : (x.ptr == p) = false := by simpa using (Ne.symm hx)
      simp only [hx, if_false, this, Bool.false_eq_true, add_zero]

theorem foldl_used_fields (ps : List Variable) (s : GemmRewriterPass) :
    ps.foldl (fun s var => { s with var_used_count_ := increment var.ptr s.var_used_count_ }) s =
      { s with var_used_count_ := ps.foldl (fun m v => increment v.ptr m) s.var_used_count_ } := by
  induction ps generalizing s with
  | nil => rfl
  | cons x xs ih => rw [List.foldl_cons, ih, List.foldl_cons]

theorem foldl_o2i_fields (i : Instruction) (ps : List Variable) (s : GemmRewriterPass) :
    ps.foldl (fun s var => { s with output2instr_ := emplace var.ptr i s.output2instr_ }) s =
      { s with output2instr_ := ps.foldl (fun m v => emplace v.ptr i m) s.output2instr_ } := by
  induction ps generalizing s with
  | nil => rfl
  | cons x xs ih => rw [List.foldl_cons, ih, List.foldl_cons]

theorem collect_visit_eq (s : GemmRewriterPass) (i : Instruction) :
    GemmRewriterPass.CollectInfo.visit s i =
      { s with
        output2instr_ := i.outputs.foldl (fun m v => emplace v.ptr i m) s.output2instr_,
        var_used_count_ := i.inputs.foldl (fun m v => increment v.ptr m) s.var_used_count_ } := by
  unfold GemmRewriterPass.CollectInfo.visit
  simp only [foldl_o2i_fields, foldl_used_fields]

theorem lookup_foldl_emplace (i : Instruction) (ps : List Variable) (p : Nat)
    (m : List (Nat × Instruction)) :
    (ps.foldl (fun m v => emplace v.ptr i m) m).lookup p =
      if (m.lookup p).isSome then m.lookup p
      else if p ∈ ps.map (fun v => v.ptr) then some i else none := by
  induction ps generalizing m with
  | nil => 
    by_cases hp : (m.lookup p).isSome
    · simp [hp]
    · simp only [List.foldl_nil, hp, if_false, List.map_nil, List.not_mem_nil]
      exact Option.not_isSome_iff_eq_none.mp hp
  | cons x xs ih =>
    rw [List.foldl_cons, ih, lookup_emplace]
    by_cases hp : (m.lookup p).isSome
    · simp [hp]
    · simp only [hp, if_false, List.map_cons, List.mem_cons]
      by_cases hx : p = x.ptr
      · simp [hx]
      · simp [hx]

theorem collect_fields (l : List Instruction) (s : GemmRewriterPass) :
    (l.foldl GemmRewriterPass.CollectInfo.visit s).removed_instrs_ = s.removed_instrs_ ∧
    (l.foldl GemmRewriterPass.CollectInfo.visit s).origin2new_ = s.origin2new_ := by
  induction l generalizing s with
  | nil => exact ⟨rfl, rfl⟩
  | cons x xs ih =>
    rw [List.foldl_cons]
    obtain ⟨h1, h2⟩ := ih (GemmRewriterPass.CollectInfo.visit s x)
    rw [h1, h2, collect_visit_eq]
    exact ⟨rfl, rfl⟩

theorem collect_used (l : List Instruction) (s : GemmRewriterPass) (p : Nat) :
    (l.foldl GemmRewriterPass.CollectInfo.visit s).var_used_count_.lookup p =
      if useCount l p = 0 then s.var_used_count_.lookup p
      else some ((s.var_used_count_.lookup p).getD 0 + useCount l p) := by
  induction l generalizing s with
  | nil => simp [useCount]
  | cons x xs ih =>
    rw [List.foldl_cons, ih, collect_visit_eq]
    simp only [lookup_foldl_increment]
    have hu : useCount (x :: xs) p = (x.inputs.map (fun v => v.ptr)).count p + useCount xs p := by
      simp [useCount, List.flatMap_cons, List.count_append]
    rw [hu]
    by_cases h1 : (x.inputs.map (fun v => v.ptr)).count p = 0
    · by_cases h2 : useCount xs p = 0
      · simp [h1, h2]
      · simp [h1, h2]
    · by_cases h2 : useCount xs p = 0
      · simp [h1, h2]
      · simp [h1, h2]; omega

theorem collect_o2i (l : List Instruction) (s : GemmRewriterPass) (p : Nat) :
    (l.foldl GemmRewriterPass.CollectInfo.visit s).output2instr_.lookup p =
      if (s.output2instr_.lookup p).isSome then s.output2instr_.lookup p
      else producerOf l p := by
  induction l generalizing s with
  | nil => 
    by_cases hp : (s.output2instr_.lookup p).isSome
    · simp [hp]
    · simp only [List.foldl_nil, hp, if_false, producerOf, List.find?_nil]
      exact Option.not_isSome_iff_eq_none.mp hp
  | cons x xs ih =>
    rw [List.foldl_cons, ih, collect_visit_eq]
    simp only [lookup_foldl_emplace]
    by_cases hp : (s.output2instr_.lookup p).isSome
    · simp [hp]
    · simp only [hp, if_false, producerOf, List.find?_cons]
      by_cases hx : p ∈ x.outputs.map (fun v => v.ptr)
      · simp [hx]
      · simp [hx]

/-- The tables of a new pass object after `CollectInfo`. -/
theorem collect_fresh_used (prog : Program) (p : Nat) :
    (GemmRewriterPass.fresh.CollectInfo prog).var_used_count_.lookup p =
      if useCount prog.instrs p = 0 then none else some (useCount prog.instrs p) := by
  unfold GemmRewriterPass.CollectInfo
  rw [collect_used]
  simp [GemmRewriterPass.fresh]

theorem collect_fresh_o2i (prog : Program) (p : Nat) :
    (GemmRewriterPass.fresh.CollectInfo prog).output2instr_.lookup p = producerOf prog.instrs p := by
  unfold GemmRewriterPass.CollectInfo
  rw [collect_o2i]
  simp [GemmRewriterPass.fresh]

theorem forInputs_eq (self : GemmRewriterPass) (instr : Instruction) (F : List String)
    (in0 in1 : Variable) (vars : List Variable) :
    GemmRewriterPass.DoGemmFusion.forInputs self instr F in0 in1
        { inputs := [], trans_a := false, trans_b := false } vars =
      match pickCandidate self.output2instr_ self.var_used_count_ F in0 in1 vars with
      | Except.error e => Except.error e
      | Except.ok none => Except.ok (self, { inputs := [], trans_a := false, trans_b := false })
      | Except.ok (some c) =>
        Except.ok
          ({ self with removed_instrs_ := instr.ptr :: c.matmul.ptr :: self.removed_instrs_ },
           { inputs := c.matmul.inputs ++ [c.bias], trans_a := c.trans_a, trans_b := c.trans_b }) := by
  induction vars with
  | nil => rfl
  | cons var rest ih =>
    unfold GemmRewriterPass.DoGemmFusion.forInputs pickCandidate
    cases h1 : self.output2instr_.lookup var.ptr with
    | none => simpa using ih
    | some m =>
      simp only []
      by_cases hm : m.op_type = "matmul"
      · simp only [hm, if_true]
        cases h2 : self.var_used_count_.lookup var.ptr with
        | none => rfl
        | some used =>
          simp only []
          by_cases hu : used > 1 ∨ var.id ∈ F
          · simp only [hu, if_true]; exact ih
          · simp only [hu, if_false]
            cases h3 : (match m.attrs.lookup "trans_a" with
                   | some a => a.getBool
                   | none => Except.ok false) with
            | error e => rfl
            | ok ta =>
              cases h4 : (match m.attrs.lookup "trans_b" with
                     | some a => a.getBool
                     | none => Except.ok false) with
              | error e => rfl
              | ok tb => rfl
      · simp only [hm, if_false]; exact ih

theorem DoGemmFusion_eq (self : GemmRewriterPass) (b : CinnBuilder) (instr : Instruction)
    (F : List String) :
    self.DoGemmFusion b instr F =
      match planOf self.output2instr_ self.var_used_count_ F instr with
      | Except.error e => Except.error e
      | Except.ok none => Except.ok (false, self, b)
      | Except.ok (some (c, old_out)) =>
        Except.ok (true,
          { self with
            removed_instrs_ := instr.ptr :: c.matmul.ptr :: self.removed_instrs_,
            origin2new_ := emplace old_out.ptr { ptr := b.next_obj, id := old_out.id }
              self.origin2new_ },
          (b.CustomInstr "cublas_gemm" (c.matmul.inputs ++ [c.bias])
            [("trans_a", AttrType.bool c.trans_a), ("trans_b", AttrType.bool c.trans_b)]).1.SetVarId
              b.next_obj old_out.id) := by
  unfold GemmRewriterPass.DoGemmFusion planOf
  split
  · rename_i in0 in1 hin
    rw [forInputs_eq]
    cases hp : pickCandidate self.output2instr_ self.var_used_count_ F in0 in1 [in0, in1] with
    | error e => rfl
    | ok r =>
      cases r with
      | none => rfl
      | some c =>
        simp only []
        by_cases h3 : (c.matmul.inputs ++ [c.bias]).length = 3
        · simp only [h3, if_true]
          cases ho : instr.outputs with
          | nil => rfl
          | cons o os => rfl
        · have h0 : ¬ (c.matmul.inputs ++ [c.bias]).length = 0 := by simp
          simp only [h3, h0, if_false]
  · rfl

theorem custom_setVarId (b : CinnBuilder) (hb : BuilderFresh b) (c : Candidate)
    (old_out : Variable) :
    (b.CustomInstr "cublas_gemm" (c.matmul.inputs ++ [c.bias])
        [("trans_a", AttrType.bool c.trans_a), ("trans_b", AttrType.bool c.trans_b)]).1.SetVarId
          b.next_obj old_out.id =
      { b with instrs_ := b.instrs_ ++ [gemmInstr b.next_obj c old_out],
               next_obj := b.next_obj + 1 } := by
  unfold CinnBuilder.CustomInstr CinnBuilder.SetVarId gemmInstr
  simp only [List.map_append, List.map_cons, List.map_nil, if_true]
  congr 1
  congr 1
  conv_rhs => rw [← List.map_id b.instrs_]
  apply List.map_congr_left
  intro i hi
  have : i.outputs.map (fun v => if v.ptr = b.next_obj then { v with id := old_out.id } else v)
      = i.outputs := by
    conv_rhs => rw [← List.map_id i.outputs]
    apply List.map_congr_left
    intro o ho
    have := hb i hi o ho
    have hne : ¬ o.ptr = b.next_obj := by omega
    simp [hne]
  rw [this]
  rfl

theorem loop_append (F : List String) (l1 l2 : List Instruction)
    (st : GemmRewriterPass × CinnBuilder) :
    GemmRewriterPass.ApplyImpl.loop F (l1 ++ l2) st =
      match GemmRewriterPass.ApplyImpl.loop F l1 st with
      | Except.error e => Except.error e
      | Except.ok st1 => GemmRewriterPass.ApplyImpl.loop F l2 st1 := by
  induction l1 generalizing st with
  | nil => rfl
  | cons x xs ih =>
    simp only [List.cons_append, GemmRewriterPass.ApplyImpl.loop]
    cases h : GemmRewriterPass.ApplyImpl.visit F st x with
    | error e => rfl
    | ok st1 => exact ih st1

theorem numFused_emitted_bound (T : GemmRewriterPass) (F : List String) (n0 : Nat)
    (r0 : List Nat) (l : List Instruction)
    (hl : ∀ i ∈ l, ∀ o ∈ i.outputs, o.ptr < n0) :
    ∀ j ∈ emittedOf T F n0 r0 l, ∀ o ∈ j.outputs, o.ptr < n0 + numFused T F l := by
  induction l with
  | nil => intro j hj; simp [emittedOf] at hj
  | cons x xs ih =>
    have ih1 := ih (fun i hi => hl i (List.mem_cons_of_mem _ hi))
    intro j hj o ho
    unfold emittedOf at hj
    unfold numFused
    cases hf : fusionOf T F x with
    | error e =>
      rw [hf] at hj
      simp only [] at hj
      split at hj
      · exact ih1 j hj o ho
      · rcases List.mem_cons.mp hj with h | h
        · subst h; have := hl j (List.mem_cons_self _ _) o ho; omega
        · exact ih1 j h o ho
    | ok r =>
      cases r with
      | none =>
        rw [hf] at hj
        simp only [] at hj
        split at hj
        · exact ih1 j hj o ho
        · rcases List.mem_cons.mp hj with h | h
          · subst h; have := hl j (List.mem_cons_self _ _) o ho; omega
          · exact ih1 j h o ho
      | some p =>
        obtain ⟨c, old⟩ := p
        rw [hf] at hj
        simp only [] at hj
        rcases List.mem_cons.mp hj with h | h
        · subst h
          simp only [gemmInstr, List.mem_singleton] at ho
          subst ho
          simp
        · have := ih1 j h o ho
          simp only []
          omega

theorem loop_single (F : List String) (x : Instruction) (st : GemmRewriterPass × CinnBuilder) :
    GemmRewriterPass.ApplyImpl.loop F [x] st = GemmRewriterPass.ApplyImpl.visit F st x := by
  unfold GemmRewriterPass.ApplyImpl.loop
  cases h : GemmRewriterPass.ApplyImpl.visit F st x with
  | error e => rfl
  | ok st1 => rfl

theorem visit_closed (F : List String) (x : Instruction) (self : GemmRewriterPass)
    (b : CinnBuilder) (hb : BuilderFresh b) :
    GemmRewriterPass.ApplyImpl.visit F (self, b) x =
      match fusionOf self F x with
      | Except.error e => Except.error e
      | Except.ok (some (c, old_out)) =>
        Except.ok
          ({ self with
              removed_instrs_ := x.ptr :: c.matmul.ptr :: self.removed_instrs_,
              origin2new_ := emplace old_out.ptr { ptr := b.next_obj, id := old_out.id }
                self.origin2new_ },
           { b with instrs_ := b.instrs_ ++ [gemmInstr b.next_obj c old_out],
                    next_obj := b.next_obj + 1 })
      | Except.ok none =>
        Except.ok (self,
          if x.ptr ∈ self.removed_instrs_ then b
          else { b with instrs_ := b.instrs_ ++ [x] }) := by
  unfold GemmRewriterPass.ApplyImpl.visit fusionOf
  by_cases ha : x.op_type = "elementwise_add"
  · simp only [ha, if_true]
    rw [DoGemmFusion_eq]
    cases hp : planOf self.output2instr_ self.var_used_count_ F x with
    | error e => rfl
    | ok r =>
      cases r with
      | none =>
        simp only [Bool.false_eq_true, if_false, CinnBuilder.AppendInstruction]
        by_cases hr : x.ptr ∈ self.removed_instrs_
        · simp [hr]
        · simp [hr]
      | some p =>
        obtain ⟨c, old⟩ := p
        simp only [if_true, custom_setVarId b hb]
  · simp only [ha, if_false, CinnBuilder.AppendInstruction]
    by_cases hr : x.ptr ∈ self.removed_instrs_
    · simp [hr]
    · simp [hr]

theorem loop_closed (F : List String) (l : List Instruction) (self : GemmRewriterPass)
    (b : CinnBuilder)
    (hok : ∀ i ∈ l, ∃ r, fusionOf self F i = Except.ok r)
    (hb : BuilderFresh b) (hl : ∀ i ∈ l, ∀ o ∈ i.outputs, o.ptr < b.next_obj) :
    GemmRewriterPass.ApplyImpl.loop F l.reverse (self, b) =
      Except.ok
        ({ self with
            removed_instrs_ := removedOf self F l ++ self.removed_instrs_,
            origin2new_ := originOf self F b.next_obj self.origin2new_ l },
         { b with
            instrs_ := b.instrs_ ++ (emittedOf self F b.next_obj self.removed_instrs_ l).reverse,
            next_obj := b.next_obj + numFused self F l }) := by
  induction l with
  | nil =>
    simp [GemmRewriterPass.ApplyImpl.loop, removedOf, originOf, emittedOf, numFused]
  | cons x xs ih =>
    have hok1 : ∀ i ∈ xs, ∃ r, fusionOf self F i = Except.ok r :=
      fun i hi => hok i (List.mem_cons_of_mem _ hi)
    have hl1 : ∀ i ∈ xs, ∀ o ∈ i.outputs, o.ptr < b.next_obj :=
      fun i hi => hl i (List.mem_cons_of_mem _ hi)
    rw [List.reverse_cons, loop_append, ih hok1 hl1]
    simp only []
    rw [loop_single, visit_closed]
    · have hf : ∀ y, fusionOf
          { self with
            removed_instrs_ := removedOf self F xs ++ self.removed_instrs_,
            origin2new_ := originOf self F b.next_obj self.origin2new_ xs } F y
          = fusionOf self F y := fun y => rfl
      rw [hf]
      obtain ⟨r, hr⟩ := hok x (List.mem_cons_self _ _)
      cases r with
      | none =>
        simp only [removedOf, originOf, emittedOf, numFused, hr]
        by_cases hx : x.ptr ∈ removedOf self F xs ++ self.removed_instrs_
        · simp [hx]
        · simp [hx]
      | some p =>
        obtain ⟨c, old⟩ := p
        simp only [removedOf, originOf, emittedOf, numFused, hr]
        simp [Nat.add_assoc]
    · intro j hj o ho
      simp only [List.mem_append, List.mem_reverse] at hj
      rcases hj with hj | hj
      · have := hb j hj o ho
        simp only []
        omega
      · exact numFused_emitted_bound self F b.next_obj self.removed_instrs_ xs hl1 j hj o ho

theorem le_foldr_max (l : List Nat) (a : Nat) (h : a ∈ l) : a ≤ l.foldr max 0 := by
  induction l with
  | nil => simp at h
  | cons x xs ih =>
    rcases List.mem_cons.mp h with h | h
    · subst h; simp
    · have := ih h
      simp only [List.foldr_cons]
      omega

theorem lt_heapTop (prog : Program) (a : Nat) (h : a ∈ prog.addrs) : a < prog.heapTop := by
  have := le_foldr_max _ a h
  unfold Program.heapTop
  omega

theorem output_lt_heapTop (prog : Program) :
    ∀ i ∈ prog.instrs, ∀ o ∈ i.outputs, o.ptr < prog.heapTop := by
  intro i hi o ho
  apply lt_heapTop
  unfold Program.addrs
  apply List.mem_append_right
  simp only [List.mem_flatMap, List.mem_map]
  exact ⟨i, hi, o, ho, rfl⟩

theorem input_lt_heapTop (prog : Program) :
    ∀ i ∈ prog.instrs, ∀ o ∈ i.inputs, o.ptr < prog.heapTop := by
  intro i hi o ho
  apply lt_heapTop
  unfold Program.addrs
  apply List.mem_append_left
  apply List.mem_append_right
  simp only [List.mem_flatMap, List.mem_map]
  exact ⟨i, hi, o, ho, rfl⟩

theorem instr_lt_heapTop (prog : Program) : ∀ i ∈ prog.instrs, i.ptr < prog.heapTop := by
  intro i hi
  apply lt_heapTop
  unfold Program.addrs
  apply List.mem_append_left
  apply List.mem_append_left
  apply List.mem_append_left
  exact List.mem_map_of_mem _ hi

theorem foldl_CreateInput (vs : List Variable) (b : CinnBuilder) :
    vs.foldl CinnBuilder.CreateInput b = { b with inputs_ := b.inputs_ ++ vs } := by
  induction vs generalizing b with
  | nil => simp
  | cons x xs ih =>
    rw [List.foldl_cons, ih]
    simp [CinnBuilder.CreateInput]

theorem fusionOf_congr (T1 T2 : GemmRewriterPass) (F : List String) (x : Instruction)
    (h1 : T1.output2instr_ = T2.output2instr_) (h2 : T1.var_used_count_ = T2.var_used_count_) :
    fusionOf T1 F x = fusionOf T2 F x := by
  unfold fusionOf
  rw [h1, h2]

theorem visit_error (F : List String) (x : Instruction) (st : GemmRewriterPass × CinnBuilder)
    (e : Fatal) (h : fusionOf st.1 F x = Except.error e) :
    GemmRewriterPass.ApplyImpl.visit F st x = Except.error e := by
  unfold fusionOf at h
  unfold GemmRewriterPass.ApplyImpl.visit
  by_cases ha : x.op_type = "elementwise_add"
  · simp only [ha, if_true] at h ⊢
    rw [DoGemmFusion_eq, h]
  · simp [ha] at h

theorem visit_tables (F : List String) (x : Instruction) (st st1 : GemmRewriterPass × CinnBuilder)
    (h : GemmRewriterPass.ApplyImpl.visit F st x = Except.ok st1) :
    st1.1.output2instr_ = st.1.output2instr_ ∧ st1.1.var_used_count_ = st.1.var_used_count_ := by
  unfold GemmRewriterPass.ApplyImpl.visit at h
  by_cases ha : x.op_type = "elementwise_add"
  · simp only [ha, if_true] at h
    rw [DoGemmFusion_eq] at h
    cases hp : planOf st.1.output2instr_ st.1.var_used_count_ F x with
    | error e => rw [hp] at h; simp at h
    | ok r =>
      rw [hp] at h
      cases r with
      | none =>
        simp only [Bool.false_eq_true, if_false] at h
        injection h with h
        subst h
        split <;> exact ⟨rfl, rfl⟩
      | some p =>
        simp only [if_true] at h
        injection h with h
        subst h
        exact ⟨rfl, rfl⟩
  · simp only [ha, if_false] at h
    injection h with h
    subst h
    split <;> exact ⟨rfl, rfl⟩

theorem loop_error (F : List String) (l : List Instruction) (st : GemmRewriterPass × CinnBuilder)
    (h : ∃ i ∈ l, ∃ e, fusionOf st.1 F i = Except.error e) :
    ∃ e, GemmRewriterPass.ApplyImpl.loop F l st = Except.error e := by
  induction l generalizing st with
  | nil => obtain ⟨i, hi, _⟩ := h; simp at hi
  | cons x xs ih =>
    unfold GemmRewriterPass.ApplyImpl.loop
    cases hv : GemmRewriterPass.ApplyImpl.visit F st x with
    | error e => exact ⟨e, rfl⟩
    | ok st1 =>
      simp only []
      obtain ⟨i, hi, e, he⟩ := h
      obtain ⟨t1, t2⟩ := visit_tables F x st st1 hv
      rcases List.mem_cons.mp hi with hx | hx
      · subst hx
        rw [visit_error F i st e he] at hv
        simp at hv
      · apply ih
        exact ⟨i, hx, e, by rw [fusionOf_congr st1.1 st.1 F i t1 t2]; exact he⟩

theorem builder0_fresh (prog : Program) :
    BuilderFresh { name := "gemm_rewriter_builder", instrs_ := [],
                   inputs_ := [] ++ prog.inputs, next_obj := prog.heapTop } := by
  intro i hi
  simp at hi

theorem collect_fresh_removed (prog : Program) :
    (GemmRewriterPass.fresh.CollectInfo prog).removed_instrs_ = [] :=
  (collect_fields prog.instrs GemmRewriterPass.fresh).1

theorem collect_fresh_origin (prog : Program) :
    (GemmRewriterPass.fresh.CollectInfo prog).origin2new_ = [] :=
  (collect_fields prog.instrs GemmRewriterPass.fresh).2

/-- Closed form of `ApplyImpl` on an NVGPU target and a non-empty Program when no
check fails. -/
theorem ApplyImpl_closed (prog : Program) (F : List String) (target : Target)
    (ht : target.arch = Arch.NVGPU) (hne : prog.instrs ≠ [])
    (hok : ∀ i ∈ prog.instrs, ∃ r, fusionOf (GemmRewriterPass.fresh.CollectInfo prog) F i = Except.ok r) :
    GemmRewriterPass.fresh.ApplyImpl prog F target =
      Except.ok (rewritten F prog, finalPass (GemmRewriterPass.fresh.CollectInfo prog) F prog) := by
  unfold GemmRewriterPass.ApplyImpl
  have hs : ¬ (target.arch ≠ Arch.NVGPU ∨ prog.size = 0) := by
    simp [ht, Program.size, hne]
  rw [if_neg hs]
  simp only [foldl_CreateInput]
  rw [loop_closed F prog.instrs _ _ hok (builder0_fresh prog) (output_lt_heapTop prog)]
  simp only [CinnBuilder.Build, if_true, List.nil_append, List.reverse_reverse]
  unfold rewritten finalPass relinkInstr
  simp only [collect_fresh_removed]

/-- On an NVGPU target `ApplyImpl` fails as soon as the visit of one Instruction
fails. -/
theorem ApplyImpl_error (prog : Program) (F : List String) (target : Target)
    (ht : target.arch = Arch.NVGPU)
    (h : ∃ i ∈ prog.instrs, ∃ e, fusionOf (GemmRewriterPass.fresh.CollectInfo prog) F i = Except.error e) :
    ∃ e, GemmRewriterPass.fresh.ApplyImpl prog F target = Except.error e := by
  unfold GemmRewriterPass.ApplyImpl
  have hne : prog.instrs ≠ [] := by
    obtain ⟨i, hi, _⟩ := h
    exact List.ne_nil_of_mem hi
  have hs : ¬ (target.arch ≠ Arch.NVGPU ∨ prog.size = 0) := by
    simp [ht, Program.size, hne]
  rw [if_neg hs]
  simp only []
  have h2 : ∃ i ∈ prog.instrs.reverse, ∃ e,
      fusionOf (GemmRewriterPass.fresh.CollectInfo prog,
        prog.inputs.foldl CinnBuilder.CreateInput
          { name := "gemm_rewriter_builder", instrs_ := [], inputs_ := [],
            next_obj := prog.heapTop }).1 F i = Except.error e := by
    obtain ⟨i, hi, e, he⟩ := h
    exact ⟨i, List.mem_reverse.mpr hi, e, he⟩
  obtain ⟨e, he⟩ := loop_error F _ _ h2
  rw [he]
  exact ⟨e, rfl⟩

theorem getBool_ok (a : AttrType) (b : Bool) (h : a.getBool = Except.ok b) :
    a = AttrType.bool b := by
  cases a <;> simp [AttrType.getBool] at h
  subst h; rfl

theorem transAttr_ok (m : Instruction) (key : String) (b : Bool)
    (h : (match m.attrs.lookup key with
          | some a => a.getBool
          | none => Except.ok false) = Except.ok b) : TransOf m key b := by
  unfold TransOf
  cases hl : m.attrs.lookup key with
  | none =>
    rw [hl] at h
    simp only [Except.ok.injEq] at h
    exact Or.inr ⟨rfl, h.symm⟩
  | some a =>
    rw [hl] at h
    simp only [] at h
    rw [getBool_ok a b h]
    exact Or.inl rfl

theorem transAttr_of (m : Instruction) (key : String) (b : Bool) (h : TransOf m key b) :
    (match m.attrs.lookup key with
      | some a => a.getBool
      | none => Except.ok false) = Except.ok b := by
  rcases h with h | ⟨h, hb⟩
  · rw [h]; rfl
  · rw [h, hb]

theorem pick_some (o2i : List (Nat × Instruction)) (cnt : List (Nat × Nat)) (F : List String)
    (in0 in1 : Variable) (vars : List Variable) (c : Candidate)
    (h : pickCandidate o2i cnt F in0 in1 vars = Except.ok (some c)) :
    ∃ l1 l2, vars = l1 ++ c.var :: l2 ∧ (∀ v ∈ l1, ∀ m, ¬ Accepted o2i cnt F v m) ∧
      Accepted o2i cnt F c.var c.matmul ∧
      c.bias = (if in0.ptr = c.var.ptr then in1 else in0) ∧
      TransOf c.matmul "trans_a" c.trans_a ∧ TransOf c.matmul "trans_b" c.trans_b := by
  induction vars with
  | nil => simp [pickCandidate] at h
  | cons var rest ih =>
    unfold pickCandidate at h
    have step : pickCandidate o2i cnt F in0 in1 rest = Except.ok (some c) →
        (∀ m, ¬ Accepted o2i cnt F var m) →
        ∃ l1 l2, var :: rest = l1 ++ c.var :: l2 ∧ (∀ v ∈ l1, ∀ m, ¬ Accepted o2i cnt F v m) ∧
          Accepted o2i cnt F c.var c.matmul ∧
          c.bias = (if in0.ptr = c.var.ptr then in1 else in0) ∧
          TransOf c.matmul "trans_a" c.trans_a ∧ TransOf c.matmul "trans_b" c.trans_b := by
      intro hr hna
      obtain ⟨l1, l2, e, h1, h2⟩ := ih hr
      refine ⟨var :: l1, l2, by rw [e]; rfl, ?_, h2⟩
      intro v hv m
      rcases List.mem_cons.mp hv with hv | hv
      · subst hv; exact hna m
      · exact h1 v hv m
    cases h1 : o2i.lookup var.ptr with
    | none =>
      rw [h1] at h
      apply step h
      intro m hm
      rw [hm.1] at h1
      simp at h1
    | some m =>
      rw [h1] at h
      simp only [] at h
      by_cases hm : m.op_type = "matmul"
      · simp only [hm, if_true] at h
        cases h2 : cnt.lookup var.ptr with
        | none => rw [h2] at h; simp at h
        | some used =>
          rw [h2] at h
          simp only [] at h
          by_cases hu : used > 1 ∨ var.id ∈ F
          · simp only [hu, if_true] at h
            apply step h
            intro m2 hm2
            obtain ⟨_, _, ⟨u, hu1, hu2⟩, hf⟩ := hm2
            rw [h2] at hu1
            injection hu1 with hu1
            subst hu1
            rcases hu with hu | hu
            · exact hu2 hu
            · exact hf hu
          · simp only [hu, if_false] at h
            cases h3 : (match m.attrs.lookup "trans_a" with
                   | some a => a.getBool
                   | none => Except.ok false) with
            | error e => rw [h3] at h; simp at h
            | ok ta =>
              rw [h3] at h
              simp only [] at h
              cases h4 : (match m.attrs.lookup "trans_b" with
                     | some a => a.getBool
                     | none => Except.ok false) with
              | error e => rw [h4] at h; simp at h
              | ok tb =>
                rw [h4] at h
                simp only [Except.ok.injEq, Option.some.injEq] at h
                subst h
                refine ⟨[], rest, rfl, by simp, ⟨h1, hm, ⟨used, h2, ?_⟩, ?_⟩, rfl,
                  transAttr_ok m "trans_a" ta h3, transAttr_ok m "trans_b" tb h4⟩
                · intro hgt; exact hu (Or.inl hgt)
                · intro hf; exact hu (Or.inr hf)
      · simp only [hm, if_false] at h
        apply step h
        intro m2 hm2
        rw [hm2.1] at h1
        injection h1 with h1
        subst h1
        exact hm hm2.2.1

theorem pick_none (o2i : List (Nat × Instruction)) (cnt : List (Nat × Nat)) (F : List String)
    (in0 in1 : Variable) (vars : List Variable)
    (hc : ∀ v ∈ vars, (cnt.lookup v.ptr).isSome)
    (hn : ∀ v ∈ vars, ∀ m, ¬ Accepted o2i cnt F v m) :
    pickCandidate o2i cnt F in0 in1 vars = Except.ok none := by
  induction vars with
  | nil => rfl
  | cons var rest ih =>
    have ih1 := ih (fun v hv => hc v (List.mem_cons_of_mem _ hv))
      (fun v hv => hn v (List.mem_cons_of_mem _ hv))
    unfold pickCandidate
    cases h1 : o2i.lookup var.ptr with
    | none => exact ih1
    | some m =>
      simp only []
      by_cases hm : m.op_type = "matmul"
      · simp only [hm, if_true]
        cases h2 : cnt.lookup var.ptr with
        | none =>
          have := hc var (List.mem_cons_self _ _)
          rw [h2] at this
          simp at this
        | some used =>
          simp only []
          by_cases hu : used > 1 ∨ var.id ∈ F
          · simp only [hu, if_true]; exact ih1
          · exfalso
            apply hn var (List.mem_cons_self _ _) m
            refine ⟨h1, hm, ⟨used, h2, ?_⟩, ?_⟩
            · intro hgt; exact hu (Or.inl hgt)
            · intro hf; exact hu (Or.inr hf)
      · simp only [hm, if_false]; exact ih1

theorem pick_first (o2i : List (Nat × Instruction)) (cnt : List (Nat × Nat)) (F : List String)
    (in0 in1 : Variable) (l1 l2 : List Variable) (v : Variable) (m : Instruction) (ta tb : Bool)
    (hc : ∀ u ∈ l1, (cnt.lookup u.ptr).isSome)
    (hn : ∀ u ∈ l1, ∀ m, ¬ Accepted o2i cnt F u m)
    (ha : Accepted o2i cnt F v m)
    (hta : TransOf m "trans_a" ta) (htb : TransOf m "trans_b" tb) :
    pickCandidate o2i cnt F in0 in1 (l1 ++ v :: l2) =
      Except.ok (some { matmul := m, var := v, bias := if in0.ptr = v.ptr then in1 else in0,
                        trans_a := ta, trans_b := tb }) := by
  induction l1 with
  | nil =>
    obtain ⟨h1, hm, ⟨used, h2, hu2⟩, hf⟩ := ha
    have hu : ¬ (used > 1 ∨ v.id ∈ F) := by
      intro h; rcases h with h | h
      · exact hu2 h
      · exact hf h
    simp only [List.nil_append]
    unfold pickCandidate
    rw [h1]
    simp only [hm, if_true, h2, hu, if_false]
    rw [transAttr_of m "trans_a" ta hta, transAttr_of m "trans_b" tb htb]
  | cons var rest ih =>
    have ih1 := ih (fun v hv => hc v (List.mem_cons_of_mem _ hv))
      (fun v hv => hn v (List.mem_cons_of_mem _ hv))
    simp only [List.cons_append]
    unfold pickCandidate
    cases h1 : o2i.lookup var.ptr with
    | none => exact ih1
    | some m1 =>
      simp only []
      by_cases hm : m1.op_type = "matmul"
      · simp only [hm, if_true]
        cases h2 : cnt.lookup var.ptr with
        | none =>
          have := hc var (List.mem_cons_self _ _)
          rw [h2] at this
          simp at this
        | some used =>
          simp only []
          by_cases hu : used > 1 ∨ var.id ∈ F
          · simp only [hu, if_true]; exact ih1
          · exfalso
            apply hn var (List.mem_cons_self _ _) m1
            refine ⟨h1, hm, ⟨used, h2, ?_⟩, ?_⟩
            · intro hgt; exact hu (Or.inl hgt)
            · intro hf; exact hu (Or.inr hf)
      · simp only [hm, if_false]; exact ih1

theorem producerOf_some (l : List Instruction) (p : Nat) (m : Instruction)
    (h : producerOf l p = some m) : m ∈ l ∧ p ∈ m.outputs.map (fun v => v.ptr) := by
  unfold producerOf at h
  refine ⟨List.mem_of_find?_eq_some h, ?_⟩
  have := List.find?_some h
  simpa using this

theorem producerOf_of_nodup (l : List Instruction)
    (hn : (l.flatMap (fun i => i.outputs.map (fun v => v.ptr))).Nodup)
    (m : Instruction) (hm : m ∈ l) (p : Nat) (hp : p ∈ m.outputs.map (fun v => v.ptr)) :
    producerOf l p = some m := by
  induction l with
  | nil => simp at hm
  | cons x xs ih =>
    rw [List.flatMap_cons, List.nodup_append] at hn
    obtain ⟨_, hn2, hd⟩ := hn
    unfold producerOf
    rw [List.find?_cons]
    by_cases hx : p ∈ x.outputs.map (fun v => v.ptr)
    · have hdx : decide (p ∈ x.outputs.map (fun v => v.ptr)) = true := by simpa using hx
      rw [hdx]
      rcases List.mem_cons.mp hm with h | h
      · rw [h]
      · exfalso
        apply hd hx
        simp only [List.mem_flatMap]
        exact ⟨m, h, hp⟩
    · have hdx : decide (p ∈ x.outputs.map (fun v => v.ptr)) = false := by simpa using hx
      rw [hdx]
      rcases List.mem_cons.mp hm with h | h
      · subst h; exact absurd hp hx
      · exact ih hn2 h

theorem useCount_cons (x : Instruction) (xs : List Instruction) (p : Nat) :
    useCount (x :: xs) p = (x.inputs.map (fun v => v.ptr)).count p + useCount xs p := by
  simp [useCount, List.flatMap_cons, List.count_append]

theorem count_pos_of_mem (l : List Nat) (p : Nat) (h : p ∈ l) : 1 ≤ l.count p :=
  List.count_pos_iff.mpr h

theorem count_le_useCount (l : List Instruction) (i : Instruction) (hi : i ∈ l) (p : Nat) :
    (i.inputs.map (fun v => v.ptr)).count p ≤ useCount l p := by
  induction l with
  | nil => simp at hi
  | cons x xs ih =>
    rw [useCount_cons]
    rcases List.mem_cons.mp hi with h | h
    · subst h; omega
    · have := ih h; omega

theorem useCount_pos (l : List Instruction) (i : Instruction) (hi : i ∈ l) (v : Variable)
    (hv : v ∈ i.inputs) : 1 ≤ useCount l v.ptr := by
  have h1 := count_le_useCount l i hi v.ptr
  have h2 := count_pos_of_mem (i.inputs.map (fun v => v.ptr)) v.ptr (List.mem_map_of_mem _ hv)
  omega

theorem useCount_two (l : List Instruction) (i j : Instruction) (hi : i ∈ l) (hj : j ∈ l)
    (hne : i ≠ j) (p : Nat) (hpi : p ∈ i.inputs.map (fun v => v.ptr))
    (hpj : p ∈ j.inputs.map (fun v => v.ptr)) : 2 ≤ useCount l p := by
  induction l with
  | nil => simp at hi
  | cons x xs ih =>
    rw [useCount_cons]
    have ci := count_pos_of_mem _ p hpi
    have cj := count_pos_of_mem _ p hpj
    rcases List.mem_cons.mp hi with h | h
    · rcases List.mem_cons.mp hj with h2 | h2
      · exact absurd (h.trans h2.symm) hne
      · have := count_le_useCount xs j h2 p
        rw [← h]; omega
    · rcases List.mem_cons.mp hj with h2 | h2
      · have := count_le_useCount xs i h p
        rw [← h2]; omega
      · have := ih h h2; omega

/-- An object that occupies one input slot of the Program is read by one
Instruction. -/
theorem readers_le_useCount (l : List Instruction) (p : Nat) :
    readers l p ≤ useCount l p ∧ (1 ≤ useCount l p → 1 ≤ readers l p) := by
  induction l with
  | nil => simp [readers, useCount]
  | cons x xs ih =>
    rw [useCount_cons]
    unfold readers at ih ⊢
    rw [List.filter_cons]
    by_cases hx : p ∈ x.inputs.map (fun v => v.ptr)
    · have hdx : decide (p ∈ x.inputs.map (fun v => v.ptr)) = true := by simpa using hx
      have := count_pos_of_mem _ p hx
      rw [hdx]
      simp only [if_true, List.length_cons]
      constructor
      · omega
      · intro _; omega
    · have hdx : decide (p ∈ x.inputs.map (fun v => v.ptr)) = false := by simpa using hx
      have hc : (x.inputs.map (fun v => v.ptr)).count p = 0 := List.count_eq_zero.mpr hx
      rw [hdx, hc]
      simp only [Bool.false_eq_true, if_false, zero_add]
      exact ih

theorem readers_eq_one (l : List Instruction) (p : Nat) (h : useCount l p = 1) :
    readers l p = 1 := by
  have := readers_le_useCount l p
  omega

theorem accepted_iff (prog : Program) (F : List String) (v : Variable) (m : Instruction) :
    Accepted (GemmRewriterPass.fresh.CollectInfo prog).output2instr_
        (GemmRewriterPass.fresh.CollectInfo prog).var_used_count_ F v m ↔
      producerOf prog.instrs v.ptr = some m ∧ m.op_type = "matmul" ∧
        useCount prog.instrs v.ptr = 1 ∧ v.id ∉ F := by
  unfold Accepted
  rw [collect_fresh_o2i, collect_fresh_used]
  constructor
  · rintro ⟨h1, h2, ⟨used, h3, h4⟩, h5⟩
    refine ⟨h1, h2, ?_, h5⟩
    by_cases h0 : useCount prog.instrs v.ptr = 0
    · simp [h0] at h3
    · simp only [h0, if_false, Option.some.injEq] at h3
      omega
  · rintro ⟨h1, h2, h3, h5⟩
    refine ⟨h1, h2, ⟨1, ?_, by omega⟩, h5⟩
    simp [h3]

theorem pick_none_conv (o2i : List (Nat × Instruction)) (cnt : List (Nat × Nat))
    (F : List String) (in0 in1 : Variable) (vars : List Variable)
    (h : pickCandidate o2i cnt F in0 in1 vars = Except.ok none) :
    ∀ v ∈ vars, ∀ m, ¬ Accepted o2i cnt F v m := by
  induction vars with
  | nil => intro v hv; simp at hv
  | cons var rest ih =>
    unfold pickCandidate at h
    have step : pickCandidate o2i cnt F in0 in1 rest = Except.ok none →
        (∀ m, ¬ Accepted o2i cnt F var m) →
        ∀ v ∈ var :: rest, ∀ m, ¬ Accepted o2i cnt F v m := by
      intro hr hna v hv m
      rcases List.mem_cons.mp hv with hv | hv
      · subst hv; exact hna m
      · exact ih hr v hv m
    cases h1 : o2i.lookup var.ptr with
    | none =>
      rw [h1] at h
      apply step h
      intro m hm
      rw [hm.1] at h1
      simp at h1
    | some m =>
      rw [h1] at h
      simp only [] at h
      by_cases hm : m.op_type = "matmul"
      · simp only [hm, if_true] at h
        cases h2 : cnt.lookup var.ptr with
        | none => rw [h2] at h; simp at h
        | some used =>
          rw [h2] at h
          simp only [] at h
          by_cases hu : used > 1 ∨ var.id ∈ F
          · simp only [hu, if_true] at h
            apply step h
            intro m2 hm2
            obtain ⟨_, _, ⟨u, hu1, hu2⟩, hf⟩ := hm2
            rw [h2] at hu1
            injection hu1 with hu1
            subst hu1
            rcases hu with hu | hu
            · exact hu2 hu
            · exact hf hu
          · simp only [hu, if_false] at h
            cases h3 : (match m.attrs.lookup "trans_a" with
                   | some a => a.getBool
                   | none => Except.ok false) with
            | error e => rw [h3] at h; simp at h
            | ok ta =>
              rw [h3] at h
              simp only [] at h
              cases h4 : (match m.attrs.lookup "trans_b" with
                     | some a => a.getBool
                     | none => Except.ok false) with
              | error e => rw [h4] at h; simp at h
              | ok tb =>
                rw [h4] at h
                simp at h
      · simp only [hm, if_false] at h
        apply step h
        intro m2 hm2
        rw [hm2.1] at h1
        injection h1 with h1
        subst h1
        exact hm hm2.2.1

/-- What a successful match of `DoGemmFusion` tells about the Instruction and the
candidate. -/
theorem fusionOf_some (T : GemmRewriterPass) (F : List String) (i : Instruction)
    (c : Candidate) (old : Variable) (h : fusionOf T F i = Except.ok (some (c, old))) :
    i.op_type = "elementwise_add" ∧ ∃ in0 in1 outs, i.inputs = [in0, in1] ∧
      i.outputs = old :: outs ∧
      ((c.var = in0 ∧ Accepted T.output2instr_ T.var_used_count_ F in0 c.matmul) ∨
       (c.var = in1 ∧ (∀ m, ¬ Accepted T.output2instr_ T.var_used_count_ F in0 m) ∧
          Accepted T.output2instr_ T.var_used_count_ F in1 c.matmul)) ∧
      c.bias = (if in0.ptr = c.var.ptr then in1 else in0) ∧ c.matmul.inputs.length = 2 ∧
      TransOf c.matmul "trans_a" c.trans_a ∧ TransOf c.matmul "trans_b" c.trans_b := by
  unfold fusionOf at h
  by_cases ha : i.op_type = "elementwise_add"
  · refine ⟨ha, ?_⟩
    simp only [ha, if_true] at h
    unfold planOf at h
    split at h
    · rename_i in0 in1 hin
      cases hp : pickCandidate T.output2instr_ T.var_used_count_ F in0 in1 [in0, in1] with
      | error e => rw [hp] at h; simp at h
      | ok r =>
        rw [hp] at h
        cases r with
        | none => simp at h
        | some c2 =>
          simp only [] at h
          by_cases h3 : (c2.matmul.inputs ++ [c2.bias]).length = 3
          · simp only [h3, if_true] at h
            cases ho : i.outputs with
            | nil => rw [ho] at h; simp at h
            | cons o os =>
              rw [ho] at h
              simp only [Except.ok.injEq, Option.some.injEq, Prod.mk.injEq] at h
              obtain ⟨hc, hold⟩ := h
              subst hc hold
              obtain ⟨l1, l2, e, hn, hacc, hb, hta, htb⟩ := pick_some _ _ _ _ _ _ _ hp
              refine ⟨in0, in1, os, hin, rfl, ?_, hb, ?_, hta, htb⟩
              · cases l1 with
                | nil =>
                  simp only [List.nil_append, List.cons.injEq] at e
                  left
                  exact ⟨e.1.symm, by rw [e.1]; exact hacc⟩
                | cons y ys =>
                  cases ys with
                  | nil =>
                    simp only [List.cons_append, List.nil_append, List.cons.injEq] at e
                    right
                    refine ⟨e.2.1.symm, ?_, by rw [e.2.1]; exact hacc⟩
                    intro m
                    rw [e.1]
                    exact hn y (List.mem_cons_self _ _) m
                  | cons z zs =>
                    simp at e
              · simp only [List.length_append, List.length_cons, List.length_nil] at h3
                omega
          · simp only [h3, if_false] at h
            simp at h
    · simp at h
  · simp [ha] at h

theorem fusionOf_none (T : GemmRewriterPass) (F : List String) (i : Instruction)
    (h : fusionOf T F i = Except.ok none) :
    i.op_type ≠ "elementwise_add" ∨
      ∀ v ∈ i.inputs, ∀ m, ¬ Accepted T.output2instr_ T.var_used_count_ F v m := by
  unfold fusionOf at h
  by_cases ha : i.op_type = "elementwise_add"
  · right
    simp only [ha, if_true] at h
    unfold planOf at h
    split at h
    · rename_i in0 in1 hin
      cases hp : pickCandidate T.output2instr_ T.var_used_count_ F in0 in1 [in0, in1] with
      | error e => rw [hp] at h; simp at h
      | ok r =>
        rw [hp] at h
        cases r with
        | none =>
          rw [hin]
          exact pick_none_conv _ _ _ _ _ _ hp
        | some c2 =>
          simp only [] at h
          by_cases h3 : (c2.matmul.inputs ++ [c2.bias]).length = 3
          · simp only [h3, if_true] at h
            cases ho : i.outputs with
            | nil => rw [ho] at h; simp at h
            | cons o os => rw [ho] at h; simp at h
          · simp only [h3, if_false] at h
            simp at h
    · simp at h
  · exact Or.inl ha

theorem fusionOf_arity (T : GemmRewriterPass) (F : List String) (i : Instruction)
    (ha : i.op_type = "elementwise_add") (hn : i.inputs.length ≠ 2) :
    fusionOf T F i = Except.error Fatal.elementwise_arity := by
  unfold fusionOf planOf
  simp only [ha, if_true]
  split
  · rename_i in0 in1 hin
    rw [hin] at hn
    simp at hn
  · rfl

theorem fusionOf_not_add (T : GemmRewriterPass) (F : List String) (i : Instruction)
    (ha : i.op_type ≠ "elementwise_add") : fusionOf T F i = Except.ok none := by
  unfold fusionOf
  simp [ha]

theorem no_fusion_closed (T : GemmRewriterPass) (F : List String) (n0 : Nat)
    (base : List (Nat × Variable)) (l : List Instruction)
    (h : ∀ i ∈ l, fusionOf T F i = Except.ok none) :
    numFused T F l = 0 ∧ removedOf T F l = [] ∧ originOf T F n0 base l = base ∧
      emittedOf T F n0 [] l = l := by
  induction l with
  | nil => simp [numFused, removedOf, originOf, emittedOf]
  | cons x xs ih =>
    obtain ⟨h1, h2, h3, h4⟩ := ih (fun i hi => h i (List.mem_cons_of_mem _ hi))
    have hx := h x (List.mem_cons_self _ _)
    simp only [numFused, removedOf, originOf, emittedOf, hx, h1, h2, h3, h4]
    simp

theorem relink_nil (P : GemmRewriterPass) (h : P.origin2new_ = []) (i : Instruction) :
    relinkInstr P i = i := by
  unfold relinkInstr
  have : ∀ v, P.relink v = v := by
    intro v
    unfold GemmRewriterPass.relink
    rw [h]
    rfl
  have h2 : i.inputs.map P.relink = i.inputs := by
    conv_rhs => rw [← List.map_id i.inputs]
    exact List.map_congr_left (fun v _ => this v)
  rw [h2]

theorem eligible_of_accepted (prog : Program) (F : List String) (v : Variable) (m : Instruction)
    (h : Accepted (GemmRewriterPass.fresh.CollectInfo prog).output2instr_
        (GemmRewriterPass.fresh.CollectInfo prog).var_used_count_ F v m) :
    Eligible prog F v m := by
  obtain ⟨h1, h2, h3, h4⟩ := (accepted_iff prog F v m).mp h
  obtain ⟨hm, hp⟩ := producerOf_some _ _ _ h1
  exact ⟨hm, h2, hp, h3, h4⟩

theorem used_isSome (prog : Program) (i : Instruction) (hi : i ∈ prog.instrs) (v : Variable)
    (hv : v ∈ i.inputs) :
    ((GemmRewriterPass.fresh.CollectInfo prog).var_used_count_.lookup v.ptr).isSome := by
  rw [collect_fresh_used]
  have := useCount_pos prog.instrs i hi v hv
  have h0 : ¬ useCount prog.instrs v.ptr = 0 := by omega
  simp [h0]

theorem fusionOf_ok_none (prog : Program) (F : List String) (i : Instruction)
    (hi : i ∈ prog.instrs)
    (harity : i.op_type = "elementwise_add" → i.inputs.length = 2)
    (hne : i.op_type = "elementwise_add" → ∀ v ∈ i.inputs, ∀ m, ¬ Eligible prog F v m) :
    fusionOf (GemmRewriterPass.fresh.CollectInfo prog) F i = Except.ok none := by
  by_cases ha : i.op_type = "elementwise_add"
  · unfold fusionOf planOf
    simp only [ha, if_true]
    have hlen := harity ha
    split
    · rename_i in0 in1 hin
      rw [pick_none]
      · intro v hv
        exact used_isSome prog i hi v (by rw [hin]; exact hv)
      · intro v hv m hacc
        exact hne ha v (by rw [hin]; exact hv) m (eligible_of_accepted prog F v m hacc)
    · rename_i hno
      exfalso
      match hin : i.inputs, hlen with
      | [a, b], _ => exact hno a b hin
  · exact fusionOf_not_add _ F i ha

theorem ApplyImpl_skip (self : GemmRewriterPass) (prog : Program) (F : List String)
    (target : Target) (h : target.arch ≠ Arch.NVGPU ∨ prog.instrs = []) :
    self.ApplyImpl prog F target = Except.ok (prog, self) := by
  unfold GemmRewriterPass.ApplyImpl
  have hs : target.arch ≠ Arch.NVGPU ∨ prog.size = 0 := by
    rcases h with h | h
    · exact Or.inl h
    · exact Or.inr (by simp [Program.size, h])
  rw [if_pos hs]

theorem rewritten_no_fusion (prog : Program) (F : List String)
    (h : ∀ i ∈ prog.instrs, fusionOf (GemmRewriterPass.fresh.CollectInfo prog) F i = Except.ok none) :
    rewritten F prog = prog := by
  obtain ⟨_, _, h3, h4⟩ := no_fusion_closed (GemmRewriterPass.fresh.CollectInfo prog) F
    prog.heapTop (GemmRewriterPass.fresh.CollectInfo prog).origin2new_ prog.instrs h
  unfold rewritten
  simp only [h4]
  have hfin : (finalPass (GemmRewriterPass.fresh.CollectInfo prog) F prog).origin2new_ = [] := by
    unfold finalPass
    simp only [h3]
    exact collect_fresh_origin prog
  have hmap : prog.instrs.map (relinkInstr (finalPass (GemmRewriterPass.fresh.CollectInfo prog) F prog))
      = prog.instrs := by
    conv_rhs => rw [← List.map_id prog.instrs]
    exact List.map_congr_left (fun i _ => relink_nil _ hfin i)
  rw [hmap]

theorem ApplyImpl_arity_error (prog : Program) (F : List String) (target : Target)
    (pre post : List Instruction) (i : Instruction)
    (ht : target.arch = Arch.NVGPU) (hs : prog.instrs = pre ++ i :: post)
    (hf : fusionOf (GemmRewriterPass.fresh.CollectInfo prog) F i = Except.error Fatal.elementwise_arity)
    (hpost : ∀ j ∈ post, ∃ r, fusionOf (GemmRewriterPass.fresh.CollectInfo prog) F j = Except.ok r) :
    GemmRewriterPass.fresh.ApplyImpl prog F target = Except.error Fatal.elementwise_arity := by
  unfold GemmRewriterPass.ApplyImpl
  have hne : prog.instrs ≠ [] := by rw [hs]; simp
  have hsz : ¬ (target.arch ≠ Arch.NVGPU ∨ prog.size = 0) := by
    simp [ht, Program.size, hne]
  rw [if_neg hsz]
  simp only [foldl_CreateInput]
  have hrev : prog.instrs.reverse = post.reverse ++ i :: pre.reverse := by
    rw [hs]; simp
  rw [hrev, loop_append, loop_closed F post _ _ hpost (builder0_fresh prog)
    (fun j hj => output_lt_heapTop prog j (by rw [hs]; simp [hj]))]
  simp only []
  unfold GemmRewriterPass.ApplyImpl.loop
  rw [visit_error F i _ Fatal.elementwise_arity hf]

theorem fusionOf_cases (T : GemmRewriterPass) (F : List String) (x : Instruction) :
    (∃ c old, fusionOf T F x = Except.ok (some (c, old))) ∨
      (∀ p, fusionOf T F x ≠ Except.ok (some p)) := by
  cases h : fusionOf T F x with
  | error e => right; intro p hp; simp at hp
  | ok r =>
    cases r with
    | none => right; intro p hp; simp at hp
    | some p => left; exact ⟨p.1, p.2, rfl⟩

theorem numFused_cons_some (T : GemmRewriterPass) (F : List String) (x : Instruction)
    (xs : List Instruction) (c : Candidate) (old : Variable)
    (h : fusionOf T F x = Except.ok (some (c, old))) :
    numFused T F (x :: xs) = numFused T F xs + 1 := by
  simp only [numFused, h]

theorem numFused_cons_other (T : GemmRewriterPass) (F : List String) (x : Instruction)
    (xs : List Instruction) (h : ∀ p, fusionOf T F x ≠ Except.ok (some p)) :
    numFused T F (x :: xs) = numFused T F xs := by
  cases hf : fusionOf T F x with
  | error e => simp only [numFused, hf]
  | ok r =>
    cases r with
    | none => simp only [numFused, hf]
    | some p => exact absurd hf (h p)

theorem removedOf_cons_some (T : GemmRewriterPass) (F : List String) (x : Instruction)
    (xs : List Instruction) (c : Candidate) (old : Variable)
    (h : fusionOf T F x = Except.ok (some (c, old))) :
    removedOf T F (x :: xs) = x.ptr :: c.matmul.ptr :: removedOf T F xs := by
  simp only [removedOf, h]

theorem removedOf_cons_other (T : GemmRewriterPass) (F : List String) (x : Instruction)
    (xs : List Instruction) (h : ∀ p, fusionOf T F x ≠ Except.ok (some p)) :
    removedOf T F (x :: xs) = removedOf T F xs := by
  cases hf : fusionOf T F x with
  | error e => simp only [removedOf, hf]
  | ok r =>
    cases r with
    | none => simp only [removedOf, hf]
    | some p => exact absurd hf (h p)

theorem originOf_cons_some (T : GemmRewriterPass) (F : List String) (n0 : Nat)
    (base : List (Nat × Variable)) (x : Instruction)
    (xs : List Instruction) (c : Candidate) (old : Variable)
    (h : fusionOf T F x = Except.ok (some (c, old))) :
    originOf T F n0 base (x :: xs) =
      emplace old.ptr { ptr := n0 + numFused T F xs, id := old.id } (originOf T F n0 base xs) := by
  simp only [originOf, h]

theorem originOf_cons_other (T : GemmRewriterPass) (F : List String) (n0 : Nat)
    (base : List (Nat × Variable)) (x : Instruction)
    (xs : List Instruction) (h : ∀ p, fusionOf T F x ≠ Except.ok (some p)) :
    originOf T F n0 base (x :: xs) = originOf T F n0 base xs := by
  cases hf : fusionOf T F x with
  | error e => simp only [originOf, hf]
  | ok r =>
    cases r with
    | none => simp only [originOf, hf]
    | some p => exact absurd hf (h p)

theorem emittedOf_cons_some (T : GemmRewriterPass) (F : List String) (n0 : Nat)
    (r0 : List Nat) (x : Instruction)
    (xs : List Instruction) (c : Candidate) (old : Variable)
    (h : fusionOf T F x = Except.ok (some (c, old))) :
    emittedOf T F n0 r0 (x :: xs) =
      gemmInstr (n0 + numFused T F xs) c old :: emittedOf T F n0 r0 xs := by
  simp only [emittedOf, h]

theorem emittedOf_cons_other (T : GemmRewriterPass) (F : List String) (n0 : Nat)
    (r0 : List Nat) (x : Instruction)
    (xs : List Instruction) (h : ∀ p, fusionOf T F x ≠ Except.ok (some p)) :
    emittedOf T F n0 r0 (x :: xs) =
      if x.ptr ∈ removedOf T F xs ++ r0 then emittedOf T F n0 r0 xs
      else x :: emittedOf T F n0 r0 xs := by
  cases hf : fusionOf T F x with
  | error e => simp only [emittedOf, hf]
  | ok r =>
    cases r with
    | none => simp only [emittedOf, hf]
    | some p => exact absurd hf (h p)

theorem numFused_append (T : GemmRewriterPass) (F : List String) (l1 l2 : List Instruction) :
    numFused T F (l1 ++ l2) = numFused T F l1 + numFused T F l2 := by
  induction l1 with
  | nil => simp [numFused]
  | cons x xs ih =>
    rw [List.cons_append]
    rcases fusionOf_cases T F x with ⟨c, old, h⟩ | h
    · rw [numFused_cons_some T F x _ c old h, numFused_cons_some T F x _ c old h, ih]
      omega
    · rw [numFused_cons_other T F x _ h, numFused_cons_other T F x _ h, ih]

theorem removedOf_append (T : GemmRewriterPass) (F : List String) (l1 l2 : List Instruction) :
    removedOf T F (l1 ++ l2) = removedOf T F l1 ++ removedOf T F l2 := by
  induction l1 with
  | nil => simp [removedOf]
  | cons x xs ih =>
    rw [List.cons_append]
    rcases fusionOf_cases T F x with ⟨c, old, h⟩ | h
    · rw [removedOf_cons_some T F x _ c old h, removedOf_cons_some T F x _ c old h, ih]
      rfl
    · rw [removedOf_cons_other T F x _ h, removedOf_cons_other T F x _ h, ih]

theorem mem_removedOf (T : GemmRewriterPass) (F : List String) (l : List Instruction) (p : Nat) :
    p ∈ removedOf T F l ↔
      ∃ a ∈ l, ∃ c old, fusionOf T F a = Except.ok (some (c, old)) ∧
        (p = a.ptr ∨ p = c.matmul.ptr) := by
  induction l with
  | nil => simp [removedOf]
  | cons x xs ih =>
    simp only [removedOf]
    constructor
    · intro h
      split at h
      · rename_i c old hf
        simp only [List.mem_cons] at h
        rcases h with h | h | h
        · exact ⟨x, List.mem_cons_self _ _, c, old, hf, Or.inl h⟩
        · exact ⟨x, List.mem_cons_self _ _, c, old, hf, Or.inr h⟩
        · obtain ⟨a, ha, r⟩ := ih.mp h
          exact ⟨a, List.mem_cons_of_mem _ ha, r⟩
      · obtain ⟨a, ha, r⟩ := ih.mp h
        exact ⟨a, List.mem_cons_of_mem _ ha, r⟩
    · rintro ⟨a, ha, c, old, hf, hp⟩
      rcases List.mem_cons.mp ha with h | h
      · subst h
        rw [hf]
        simp only [List.mem_cons]
        rcases hp with hp | hp
        · exact Or.inl hp
        · exact Or.inr (Or.inl hp)
      · have := ih.mpr ⟨a, h, c, old, hf, hp⟩
        split
        · simp only [List.mem_cons]
          exact Or.inr (Or.inr this)
        · exact this

theorem emittedOf_append (T : GemmRewriterPass) (F : List String) (n0 : Nat) (r0 : List Nat)
    (l1 l2 : List Instruction) :
    emittedOf T F n0 r0 (l1 ++ l2) =
      emittedOf T F (n0 + numFused T F l2) (removedOf T F l2 ++ r0) l1 ++
        emittedOf T F n0 r0 l2 := by
  induction l1 with
  | nil => simp [emittedOf]
  | cons x xs ih =>
    rw [List.cons_append]
    rcases fusionOf_cases T F x with ⟨c, old, h⟩ | h
    · rw [emittedOf_cons_some T F _ _ x _ c old h, emittedOf_cons_some T F _ _ x _ c old h, ih,
        numFused_append]
      have : n0 + (numFused T F xs + numFused T F l2) = n0 + numFused T F l2 + numFused T F xs := by
        omega
      rw [this]
      rfl
    · rw [emittedOf_cons_other T F _ _ x _ h, emittedOf_cons_other T F _ _ x _ h, ih,
        removedOf_append, List.append_assoc]
      split <;> rfl

theorem originOf_append (T : GemmRewriterPass) (F : List String) (n0 : Nat)
    (base : List (Nat × Variable)) (l1 l2 : List Instruction) :
    originOf T F n0 base (l1 ++ l2) =
      originOf T F (n0 + numFused T F l2) (originOf T F n0 base l2) l1 := by
  induction l1 with
  | nil => simp [originOf]
  | cons x xs ih =>
    rw [List.cons_append]
    rcases fusionOf_cases T F x with ⟨c, old, h⟩ | h
    · rw [originOf_cons_some T F _ _ x _ c old h, originOf_cons_some T F _ _ x _ c old h, ih,
        numFused_append]
      have : n0 + (numFused T F xs + numFused T F l2) = n0 + numFused T F l2 + numFused T F xs := by
        omega
      rw [this]
    · rw [originOf_cons_other T F _ _ x _ h, originOf_cons_other T F _ _ x _ h, ih]

theorem originOf_keep (T : GemmRewriterPass) (F : List String) (n0 : Nat)
    (base : List (Nat × Variable)) (l : List Instruction) (p : Nat)
    (h : (base.lookup p).isSome) :
    (originOf T F n0 base l).lookup p = base.lookup p := by
  induction l with
  | nil => rfl
  | cons x xs ih =>
    simp only [originOf]
    split
    · rw [lookup_emplace, ih, if_pos h]
    · exact ih

theorem originOf_lookup (T : GemmRewriterPass) (F : List String) (n0 : Nat)
    (base : List (Nat × Variable)) (l : List Instruction) (p : Nat) (y : Variable)
    (h : (originOf T F n0 base l).lookup p = some y) :
    base.lookup p = some y ∨
      ∃ pre a post c old, l = pre ++ a :: post ∧ fusionOf T F a = Except.ok (some (c, old)) ∧
        old.ptr = p ∧ y = { ptr := n0 + numFused T F post, id := old.id } := by
  induction l with
  | nil => exact Or.inl h
  | cons x xs ih =>
    have lift : (originOf T F n0 base xs).lookup p = some y →
        base.lookup p = some y ∨
          ∃ pre a post c old, x :: xs = pre ++ a :: post ∧
            fusionOf T F a = Except.ok (some (c, old)) ∧
            old.ptr = p ∧ y = { ptr := n0 + numFused T F post, id := old.id } := by
      intro h2
      rcases ih h2 with h3 | ⟨pre, a, post, c, old, e, r⟩
      · exact Or.inl h3
      · exact Or.inr ⟨x :: pre, a, post, c, old, by rw [e]; rfl, r⟩
    simp only [originOf] at h
    split at h
    · rename_i c old hf
      rw [lookup_emplace] at h
      by_cases hs : ((originOf T F n0 base xs).lookup p).isSome
      · rw [if_pos hs] at h
        exact lift h
      · rw [if_neg hs] at h
        by_cases hp : p = old.ptr
        · rw [if_pos hp] at h
          injection h with h
          exact Or.inr ⟨[], x, xs, c, old, rfl, hf, hp.symm, h.symm⟩
        · rw [if_neg hp] at h
          simp at h
    · exact lift h

theorem originOf_fused (T : GemmRewriterPass) (F : List String) (n0 : Nat)
    (pre post : List Instruction) (a : Instruction) (c : Candidate) (old : Variable)
    (hf : fusionOf T F a = Except.ok (some (c, old)))
    (hpost : ∀ a2 ∈ post, ∀ c2 old2, fusionOf T F a2 = Except.ok (some (c2, old2)) →
      old2.ptr ≠ old.ptr) :
    (originOf T F n0 [] (pre ++ a :: post)).lookup old.ptr =
      some { ptr := n0 + numFused T F post, id := old.id } := by
  have hnone : (originOf T F n0 [] post).lookup old.ptr = none := by
    cases hl : (originOf T F n0 [] post).lookup old.ptr with
    | none => rfl
    | some y =>
      exfalso
      rcases originOf_lookup T F n0 [] post old.ptr y hl with h | ⟨p1, a2, p2, c2, old2, e, hf2, hp, _⟩
      · simp at h
      · exact hpost a2 (by rw [e]; simp) c2 old2 hf2 hp
  have hstep : (originOf T F n0 [] (a :: post)).lookup old.ptr =
      some { ptr := n0 + numFused T F post, id := old.id } := by
    simp only [originOf, hf]
    rw [lookup_emplace, hnone]
    simp
  rw [originOf_append, originOf_keep _ _ _ _ _ _ (by rw [hstep]; rfl), hstep]

/-- Where an emitted Instruction comes from: an unfused Instruction not marked
removed when it is visited, or the `cublas_gemm` of a fused `elementwise_add`. -/
theorem mem_emittedOf (T : GemmRewriterPass) (F : List String) (n0 : Nat) (r0 : List Nat)
    (l : List Instruction) (j : Instruction) :
    j ∈ emittedOf T F n0 r0 l ↔
      (∃ pre post, l = pre ++ j :: post ∧ (∀ p, fusionOf T F j ≠ Except.ok (some p)) ∧
        j.ptr ∉ removedOf T F post ++ r0) ∨
      (∃ pre a post c old, l = pre ++ a :: post ∧
        fusionOf T F a = Except.ok (some (c, old)) ∧
        j = gemmInstr (n0 + numFused T F post) c old) := by
  induction l with
  | nil => simp [emittedOf]
  | cons x xs ih =>
    constructor
    · intro h
      have lift : j ∈ emittedOf T F n0 r0 xs →
          (∃ pre post, x :: xs = pre ++ j :: post ∧ (∀ p, fusionOf T F j ≠ Except.ok (some p)) ∧
            j.ptr ∉ removedOf T F post ++ r0) ∨
          (∃ pre a post c old, x :: xs = pre ++ a :: post ∧
            fusionOf T F a = Except.ok (some (c, old)) ∧
            j = gemmInstr (n0 + numFused T F post) c old) := by
        intro h2
        rcases ih.mp h2 with ⟨pre, post, e, r⟩ | ⟨pre, a, post, c, old, e, r⟩
        · exact Or.inl ⟨x :: pre, post, by rw [e]; rfl, r⟩
        · exact Or.inr ⟨x :: pre, a, post, c, old, by rw [e]; rfl, r⟩
      simp only [emittedOf] at h
      split at h
      · rename_i c old hf
        rcases List.mem_cons.mp h with h | h
        · exact Or.inr ⟨[], x, xs, c, old, rfl, hf, h⟩
        · exact lift h
      · rename_i hnf
        split at h
        · exact lift h
        · rename_i hnr
          rcases List.mem_cons.mp h with h | h
          · subst h
            refine Or.inl ⟨[], xs, rfl, ?_, hnr⟩
            intro p hp
            exact hnf p.1 p.2 hp
          · exact lift h
    · intro h
      have sub : j ∈ emittedOf T F n0 r0 xs → j ∈ emittedOf T F n0 r0 (x :: xs) := by
        intro h2
        simp only [emittedOf]
        split
        · exact List.mem_cons_of_mem _ h2
        · split
          · exact h2
          · exact List.mem_cons_of_mem _ h2
      rcases h with ⟨pre, post, e, hnf, hnr⟩ | ⟨pre, a, post, c, old, e, hf, hj⟩
      · cases pre with
        | nil =>
          simp only [List.nil_append, List.cons.injEq] at e
          obtain ⟨e1, e2⟩ := e
          subst e1 e2
          simp only [emittedOf]
          split
          · rename_i c old hf
            exact absurd hf (hnf (c, old))
          · rw [if_neg hnr]
            exact List.mem_cons_self _ _
        | cons y ys =>
          simp only [List.cons_append, List.cons.injEq] at e
          exact sub (ih.mpr (Or.inl ⟨ys, post, e.2, hnf, hnr⟩))
      · cases pre with
        | nil =>
          simp only [List.nil_append, List.cons.injEq] at e
          obtain ⟨e1, e2⟩ := e
          subst e1 e2
          simp only [emittedOf, hf]
          rw [hj]
          exact List.mem_cons_self _ _
        | cons y ys =>
          simp only [List.cons_append, List.cons.injEq] at e
          exact sub (ih.mpr (Or.inr ⟨ys, a, post, c, old, e.2, hf, hj⟩))

theorem ApplyImpl_ok (prog : Program) (F : List String) (target : Target)
    (r : Program × GemmRewriterPass) (ht : target.arch = Arch.NVGPU)
    (h : GemmRewriterPass.fresh.ApplyImpl prog F target = Except.ok r) :
    r = (rewritten F prog, finalPass (GemmRewriterPass.fresh.CollectInfo prog) F prog) ∧
      ∀ i ∈ prog.instrs, ∃ q,
        fusionOf (GemmRewriterPass.fresh.CollectInfo prog) F i = Except.ok q := by
  by_cases hnil : prog.instrs = []
  · rw [ApplyImpl_skip _ prog F target (Or.inr hnil)] at h
    injection h with h
    constructor
    · rw [← h]
      unfold rewritten finalPass GemmRewriterPass.CollectInfo
      rw [hnil]
      simp only [List.foldl_nil, emittedOf, removedOf, originOf, List.map_nil]
      cases prog
      simp only [] at hnil
      subst hnil
      rfl
    · intro i hi
      rw [hnil] at hi
      simp at hi
  · have hall : ∀ i ∈ prog.instrs, ∃ q,
        fusionOf (GemmRewriterPass.fresh.CollectInfo prog) F i = Except.ok q := by
      intro i hi
      cases hf : fusionOf (GemmRewriterPass.fresh.CollectInfo prog) F i with
      | ok q => exact ⟨q, rfl⟩
      | error e =>
        obtain ⟨e2, he2⟩ := ApplyImpl_error prog F target ht ⟨i, hi, e, hf⟩
        rw [he2] at h
        simp at h
    rw [ApplyImpl_closed prog F target ht hnil hall] at h
    injection h with h
    exact ⟨h.symm, hall⟩

theorem count_pair (a b p : Nat) : [a, b].count p = (if a = p then 1 else 0) + (if b = p then 1 else 0) := by
  simp only [List.count_cons, List.count_nil, beq_iff_eq]
  omega

/-- What a fusion tells about the fused `elementwise_add` and the candidate, in terms
of the Program. -/
theorem fused_shape (prog : Program) (F : List String) (a : Instruction) (c : Candidate)
    (old : Variable) (ha : a ∈ prog.instrs) (h : Fused prog F a c old) :
    a.op_type = "elementwise_add" ∧ ∃ in0 in1 outs, a.inputs = [in0, in1] ∧
      a.outputs = old :: outs ∧
      ((c.var = in0 ∧ c.bias = in1) ∨
        (c.var = in1 ∧ c.bias = in0 ∧
          ∀ m, ¬ Accepted (GemmRewriterPass.fresh.CollectInfo prog).output2instr_
            (GemmRewriterPass.fresh.CollectInfo prog).var_used_count_ F in0 m)) ∧
      in0.ptr ≠ in1.ptr ∧
      producerOf prog.instrs c.var.ptr = some c.matmul ∧ Eligible prog F c.var c.matmul ∧
      c.matmul.inputs.length = 2 ∧
      TransOf c.matmul "trans_a" c.trans_a ∧ TransOf c.matmul "trans_b" c.trans_b := by
  obtain ⟨hadd, in0, in1, outs, hin, hout, hsel, hbias, hlen, hta, htb⟩ :=
    fusionOf_some _ F a c old h
  have hacc : Accepted (GemmRewriterPass.fresh.CollectInfo prog).output2instr_
      (GemmRewriterPass.fresh.CollectInfo prog).var_used_count_ F c.var c.matmul := by
    rcases hsel with ⟨e, h1⟩ | ⟨e, _, h1⟩
    · rw [e]; exact h1
    · rw [e]; exact h1
  obtain ⟨hprod, _, hcount, _⟩ := (accepted_iff prog F c.var c.matmul).mp hacc
  have hvar : c.var = in0 ∨ c.var = in1 := by
    rcases hsel with ⟨e, _⟩ | ⟨e, _, _⟩
    · exact Or.inl e
    · exact Or.inr e
  have hne : in0.ptr ≠ in1.ptr := by
    intro heq
    have hc := count_le_useCount prog.instrs a ha c.var.ptr
    rw [hin] at hc
    simp only [List.map_cons, List.map_nil] at hc
    rw [count_pair] at hc
    rcases hvar with e | e
    · rw [e] at hc hcount
      rw [← heq] at hc
      simp only [if_true] at hc
      omega
    · rw [e] at hc hcount
      rw [heq] at hc
      simp only [if_true] at hc
      omega
  refine ⟨hadd, in0, in1, outs, hin, hout, ?_, hne, hprod, eligible_of_accepted prog F _ _ hacc,
    hlen, hta, htb⟩
  rcases hsel with ⟨e, _⟩ | ⟨e, hn, _⟩
  · left
    refine ⟨e, ?_⟩
    rw [hbias, e]
    simp
  · right
    refine ⟨e, ?_, hn⟩
    rw [hbias, e]
    simp [hne]

theorem mem_vars_input (prog : Program) (i : Instruction) (hi : i ∈ prog.instrs) (v : Variable)
    (hv : v ∈ i.inputs) : v ∈ prog.vars := by
  unfold Program.vars
  apply List.mem_append_right
  simp only [List.mem_flatMap, List.mem_append]
  exact ⟨i, hi, Or.inl hv⟩

theorem mem_vars_output (prog : Program) (i : Instruction) (hi : i ∈ prog.instrs) (v : Variable)
    (hv : v ∈ i.outputs) : v ∈ prog.vars := by
  unfold Program.vars
  apply List.mem_append_right
  simp only [List.mem_flatMap, List.mem_append]
  exact ⟨i, hi, Or.inr hv⟩

theorem fused_var_mem (prog : Program) (F : List String) (a : Instruction) (c : Candidate)
    (old : Variable) (ha : a ∈ prog.instrs) (h : Fused prog F a c old) :
    c.var ∈ a.inputs ∧ c.bias ∈ a.inputs ∧ c.bias.ptr ≠ c.var.ptr ∧ old ∈ a.outputs := by
  obtain ⟨_, in0, in1, outs, hin, hout, hsel, hne, _⟩ := fused_shape prog F a c old ha h
  rw [hin, hout]
  rcases hsel with ⟨e1, e2⟩ | ⟨e1, e2, _⟩
  · rw [e1, e2]
    exact ⟨by simp, by simp, Ne.symm hne, by simp⟩
  · rw [e1, e2]
    exact ⟨by simp, by simp, hne, by simp⟩

theorem fused_matmul_mem (prog : Program) (F : List String) (a : Instruction) (c : Candidate)
    (old : Variable) (ha : a ∈ prog.instrs) (h : Fused prog F a c old) :
    c.matmul ∈ prog.instrs ∧ c.matmul.op_type = "matmul" ∧
      c.var.ptr ∈ c.matmul.outputs.map (fun v => v.ptr) := by
  obtain ⟨_, _, _, _, _, _, _, _, _, hel, _⟩ := fused_shape prog F a c old ha h
  exact ⟨hel.1, hel.2.1, hel.2.2.1⟩

/-- An Instruction whose address is marked removed is a fused `elementwise_add` or the
matmul absorbed by one. -/
theorem removed_cases (prog : Program) (F : List String) (hc : prog.Coherent)
    (l : List Instruction) (hl : ∀ a ∈ l, a ∈ prog.instrs)
    (i : Instruction) (hi : i ∈ prog.instrs)
    (h : i.ptr ∈ removedOf (GemmRewriterPass.fresh.CollectInfo prog) F l) :
    (∃ c old, i ∈ l ∧ Fused prog F i c old) ∨
      (∃ a ∈ l, ∃ c old, Fused prog F a c old ∧ c.matmul = i) := by
  obtain ⟨a, ha, c, old, hf, hp⟩ := (mem_removedOf _ F l i.ptr).mp h
  rcases hp with hp | hp
  · have : i = a := hc.1 i hi a (hl a ha) hp
    subst this
    exact Or.inl ⟨c, old, ha, hf⟩
  · have hm := (fused_matmul_mem prog F a c old (hl a ha) hf).1
    have : i = c.matmul := hc.1 i hi c.matmul hm hp
    exact Or.inr ⟨a, ha, c, old, hf, this.symm⟩

theorem length_one {α : Type} (l : List α) (h : l.length = 1) : ∃ x, l = [x] := by
  match l, h with
  | [x], _ => exact ⟨x, rfl⟩

theorem mem_rewritten (prog : Program) (F : List String) (j : Instruction) :
    j ∈ (rewritten F prog).instrs ↔
      ∃ e ∈ emittedOf (GemmRewriterPass.fresh.CollectInfo prog) F prog.heapTop [] prog.instrs,
        j = relinkInstr (finalPass (GemmRewriterPass.fresh.CollectInfo prog) F prog) e := by
  unfold rewritten
  simp only [List.mem_map]
  constructor
  · rintro ⟨e, he, rfl⟩; exact ⟨e, he, rfl⟩
  · rintro ⟨e, he, rfl⟩; exact ⟨e, he, rfl⟩

/-- Every output id of the Program that is a fetch id is an output id of the
rewritten Program. -/
theorem fetch_kept (prog : Program) (F : List String) (hc : prog.Coherent)
    (hs : prog.SingleOutput) (id : String) (hid : id ∈ F)
    (i : Instruction) (hi : i ∈ prog.instrs) (o : Variable) (ho : o ∈ i.outputs)
    (hoid : o.id = id) :
    ∃ j ∈ (rewritten F prog).instrs, ∃ o2 ∈ j.outputs, o2.id = id := by
  obtain ⟨pre, post, hsplit⟩ := List.append_of_mem hi
  rcases fusionOf_cases (GemmRewriterPass.fresh.CollectInfo prog) F i with ⟨c, old, hf⟩ | hnf
  · -- the add is fused: its gemm carries the id
    obtain ⟨hadd, _, _, outs, _, hout, _⟩ := fused_shape prog F i c old hi hf
    obtain ⟨x, hx⟩ := length_one _ (hs i hi (Or.inr hadd))
    rw [hx] at hout ho
    simp only [List.cons.injEq] at hout
    simp only [List.mem_singleton] at ho
    refine ⟨relinkInstr (finalPass (GemmRewriterPass.fresh.CollectInfo prog) F prog)
      (gemmInstr (prog.heapTop + numFused (GemmRewriterPass.fresh.CollectInfo prog) F post) c old),
      ?_, ?_⟩
    · rw [mem_rewritten]
      refine ⟨_, ?_, rfl⟩
      rw [mem_emittedOf]
      exact Or.inr ⟨pre, i, post, c, old, hsplit, hf, rfl⟩
    · refine ⟨{ ptr := prog.heapTop + numFused (GemmRewriterPass.fresh.CollectInfo prog) F post,
                id := old.id }, ?_, ?_⟩
      · simp [relinkInstr, gemmInstr]
      · simp only []
        rw [← hout.1, ← ho, hoid]
  · by_cases hr : i.ptr ∈ removedOf (GemmRewriterPass.fresh.CollectInfo prog) F post ++ []
    · exfalso
      rw [List.append_nil] at hr
      have hpost : ∀ a ∈ post, a ∈ prog.instrs := by
        intro a ha; rw [hsplit]; simp [ha]
      rcases removed_cases prog F hc post hpost i hi hr with ⟨c, old, _, hf⟩ | ⟨a, ha, c, old, hf, hm⟩
      · exact hnf (c, old) hf
      · obtain ⟨_, _, _, _, _, _, _, _, _, hel, _⟩ := fused_shape prog F a c old (hpost a ha) hf
        rw [hm] at hel
        obtain ⟨x, hx⟩ := length_one _ (hs i hi (Or.inl hel.2.1))
        have hptr := hel.2.2.1
        rw [hx] at hptr ho
        simp only [List.map_cons, List.map_nil, List.mem_singleton] at hptr ho
        subst ho
        have hv := (fused_var_mem prog F a c old (hpost a ha) hf).1
        have hidEq : o.id = c.var.id :=
          hc.2 o (mem_vars_output prog i hi o (by rw [hx]; simp)) c.var
            (mem_vars_input prog a (hpost a ha) c.var hv) hptr.symm
        apply hel.2.2.2.2
        rw [← hidEq, hoid]
        exact hid
    · refine ⟨relinkInstr (finalPass (GemmRewriterPass.fresh.CollectInfo prog) F prog) i,
        ?_, o, ?_, hoid⟩
      · rw [mem_rewritten]
        refine ⟨i, ?_, rfl⟩
        rw [mem_emittedOf]
        exact Or.inl ⟨pre, post, hsplit, hnf, hr⟩
      · simpa [relinkInstr] using ho

theorem rewritten_ptrs (prog : Program) (F : List String) :
    (rewritten F prog).instrs.map (fun i => i.ptr) =
      (emittedOf (GemmRewriterPass.fresh.CollectInfo prog) F prog.heapTop [] prog.instrs).map
        (fun i => i.ptr) := by
  unfold rewritten
  simp only [List.map_map]
  apply List.map_congr_left
  intro i _
  rfl

/-- An Instruction of the Program that is neither fused nor marked removed keeps its
place among the emitted Instructions. -/
theorem kept_of_not_removed (prog : Program) (F : List String) (i : Instruction)
    (hi : i ∈ prog.instrs)
    (hnf : ∀ p, fusionOf (GemmRewriterPass.fresh.CollectInfo prog) F i ≠ Except.ok (some p))
    (hnr : i.ptr ∉ removedOf (GemmRewriterPass.fresh.CollectInfo prog) F prog.instrs) :
    i ∈ emittedOf (GemmRewriterPass.fresh.CollectInfo prog) F prog.heapTop [] prog.instrs := by
  obtain ⟨pre, post, hsplit⟩ := List.append_of_mem hi
  rw [mem_emittedOf]
  refine Or.inl ⟨pre, post, hsplit, hnf, ?_⟩
  intro h
  apply hnr
  rw [hsplit, removedOf_append]
  rw [List.append_nil] at h
  apply List.mem_append_right
  rcases fusionOf_cases (GemmRewriterPass.fresh.CollectInfo prog) F i with ⟨c, old, hf⟩ | hno
  · exact absurd hf (hnf (c, old))
  · rw [removedOf_cons_other _ F i post hno]
    exact h

/-- An absorbed matmul has an output that occupies one input slot of the Program and
whose id is no fetch id. -/
theorem absorbed_only_if (prog : Program) (F : List String) (hc : prog.Coherent)
    (m : Instruction) (hm : m ∈ prog.instrs) (hop : m.op_type = "matmul")
    (habs : m.ptr ∉ (rewritten F prog).instrs.map (fun i => i.ptr)) :
    ∃ v ∈ m.outputs, useCount prog.instrs v.ptr = 1 ∧ v.id ∉ F := by
  have hnf : ∀ p, fusionOf (GemmRewriterPass.fresh.CollectInfo prog) F m ≠ Except.ok (some p) := by
    intro p hp
    have := (fusionOf_some _ F m p.1 p.2 hp).1
    rw [hop] at this
    exact absurd this (by decide)
  have hr : m.ptr ∈ removedOf (GemmRewriterPass.fresh.CollectInfo prog) F prog.instrs := by
    by_contra hnr
    apply habs
    rw [rewritten_ptrs]
    exact List.mem_map_of_mem _ (kept_of_not_removed prog F m hm hnf hnr)
  rcases removed_cases prog F hc prog.instrs (fun a ha => ha) m hm hr with
    ⟨c, old, _, hf⟩ | ⟨a, ha, c, old, hf, hcm⟩
  · exact absurd hf (hnf (c, old))
  · obtain ⟨_, _, _, _, _, _, _, _, _, hel, _⟩ := fused_shape prog F a c old ha hf
    rw [hcm] at hel
    have hptr := hel.2.2.1
    simp only [List.mem_map] at hptr
    obtain ⟨v, hv, hvp⟩ := hptr
    refine ⟨v, hv, ?_, ?_⟩
    · rw [hvp]; exact hel.2.2.2.1
    · have hvm := (fused_var_mem prog F a c old ha hf).1
      have : v.id = c.var.id :=
        hc.2 v (mem_vars_output prog m hm v hv) c.var (mem_vars_input prog a ha c.var hvm) hvp
      rw [this]
      exact hel.2.2.2.2

theorem ssa_later_ne (l pre post : List Instruction) (i : Instruction)
    (hn : (l.flatMap (fun i => i.outputs.map (fun v => v.ptr))).Nodup)
    (hsplit : l = pre ++ i :: post) (o : Variable) (ho : o ∈ i.outputs)
    (a : Instruction) (ha : a ∈ post) (o2 : Variable) (ho2 : o2 ∈ a.outputs) :
    o2.ptr ≠ o.ptr := by
  subst hsplit
  rw [List.flatMap_append, List.flatMap_cons, List.nodup_append] at hn
  obtain ⟨_, hn2, _⟩ := hn
  rw [List.nodup_append] at hn2
  obtain ⟨_, _, hd⟩ := hn2
  intro heq
  apply hd (List.mem_map_of_mem (fun v => v.ptr) ho)
  simp only [List.mem_flatMap, List.mem_map]
  exact ⟨a, ha, o2, ho2, heq⟩

theorem ssa_same_instr (l : List Instruction)
    (hn : (l.flatMap (fun i => i.outputs.map (fun v => v.ptr))).Nodup)
    (a b : Instruction) (ha : a ∈ l) (hb : b ∈ l) (p : Nat)
    (hpa : p ∈ a.outputs.map (fun v => v.ptr)) (hpb : p ∈ b.outputs.map (fun v => v.ptr)) :
    a = b := by
  have h1 := producerOf_of_nodup l hn a ha p hpa
  have h2 := producerOf_of_nodup l hn b hb p hpb
  rw [h1] at h2
  injection h2

theorem split_cases {α : Type} (pre post pre2 post2 : List α) (a b : α)
    (h : pre ++ a :: post = pre2 ++ b :: post2) :
    (pre = pre2 ∧ a = b ∧ post = post2) ∨ (∃ mid, post = mid ++ b :: post2) ∨
      (∃ mid, post2 = mid ++ a :: post) := by
  rcases List.append_eq_append_iff.mp h with ⟨m, h1, h2⟩ | ⟨m, h1, h2⟩
  · cases m with
    | nil =>
      simp only [List.nil_append, List.cons.injEq] at h2
      simp only [List.append_nil] at h1
      exact Or.inl ⟨h1.symm, h2.1, h2.2⟩
    | cons x xs =>
      simp only [List.cons_append, List.cons.injEq] at h2
      exact Or.inr (Or.inl ⟨xs, h2.2⟩)
  · cases m with
    | nil =>
      simp only [List.nil_append, List.cons.injEq] at h2
      simp only [List.append_nil] at h1
      exact Or.inl ⟨h1, h2.1.symm, h2.2.symm⟩
    | cons x xs =>
      simp only [List.cons_append, List.cons.injEq] at h2
      exact Or.inr (Or.inr ⟨xs, h2.2⟩)

/-- The entry of the substitution table for the old output of a fused
`elementwise_add`, under single assignment. -/
theorem origin_of_fused (prog : Program) (F : List String) (hssa : prog.SSA)
    (pre post : List Instruction) (a : Instruction) (c : Candidate) (old : Variable)
    (hsplit : prog.instrs = pre ++ a :: post) (hf : Fused prog F a c old) :
    (finalPass (GemmRewriterPass.fresh.CollectInfo prog) F prog).origin2new_.lookup old.ptr =
      some { ptr := prog.heapTop + numFused (GemmRewriterPass.fresh.CollectInfo prog) F post,
             id := old.id } := by
  have ha : a ∈ prog.instrs := by rw [hsplit]; simp
  unfold finalPass
  simp only [collect_fresh_origin]
  rw [hsplit]
  apply originOf_fused _ F _ pre post a c old hf
  intro a2 ha2 c2 old2 hf2
  have ha2m : a2 ∈ prog.instrs := by rw [hsplit]; simp [ha2]
  exact ssa_later_ne prog.instrs pre post a hssa.1 hsplit old
    (fused_var_mem prog F a c old ha hf).2.2.2 a2 ha2 old2
    (fused_var_mem prog F a2 c2 old2 ha2m hf2).2.2.2

/-- Every entry of the substitution table maps the old output of a fused
`elementwise_add` to the output of its `cublas_gemm`. -/
theorem origin_entry (prog : Program) (F : List String) (p : Nat) (y : Variable)
    (h : (finalPass (GemmRewriterPass.fresh.CollectInfo prog) F prog).origin2new_.lookup p =
      some y) :
    ∃ pre a post c old, prog.instrs = pre ++ a :: post ∧ Fused prog F a c old ∧ old.ptr = p ∧
      y = { ptr := prog.heapTop + numFused (GemmRewriterPass.fresh.CollectInfo prog) F post,
            id := old.id } := by
  unfold finalPass at h
  simp only [collect_fresh_origin] at h
  rcases originOf_lookup _ F _ [] prog.instrs p y h with h0 | h1
  · simp at h0
  · exact h1

theorem relink_ptr_cases (prog : Program) (F : List String) (x : Variable) :
    (finalPass (GemmRewriterPass.fresh.CollectInfo prog) F prog).relink x = x ∧
      (finalPass (GemmRewriterPass.fresh.CollectInfo prog) F prog).origin2new_.lookup x.ptr = none ∨
    ∃ pre a post c old, prog.instrs = pre ++ a :: post ∧ Fused prog F a c old ∧
      old.ptr = x.ptr ∧
      (finalPass (GemmRewriterPass.fresh.CollectInfo prog) F prog).relink x =
        { ptr := prog.heapTop + numFused (GemmRewriterPass.fresh.CollectInfo prog) F post,
          id := old.id } := by
  unfold GemmRewriterPass.relink
  cases hl : (finalPass (GemmRewriterPass.fresh.CollectInfo prog) F prog).origin2new_.lookup x.ptr with
  | none => exact Or.inl ⟨rfl, rfl⟩
  | some y =>
    obtain ⟨pre, a, post, c, old, e, hf, hp, hy⟩ := origin_entry prog F x.ptr y hl
    exact Or.inr ⟨pre, a, post, c, old, e, hf, hp, hy⟩

theorem numFused_split_inj (T : GemmRewriterPass) (F : List String)
    (pre post pre2 post2 : List Instruction) (a b : Instruction)
    (h : pre ++ a :: post = pre2 ++ b :: post2)
    (ha : ∃ p, fusionOf T F a = Except.ok (some p)) (hb : ∃ p, fusionOf T F b = Except.ok (some p))
    (hn : numFused T F post = numFused T F post2) :
    pre = pre2 ∧ a = b ∧ post = post2 := by
  rcases split_cases pre post pre2 post2 a b h with h1 | ⟨mid, h2⟩ | ⟨mid, h3⟩
  · exact h1
  · exfalso
    obtain ⟨p, hp⟩ := hb
    rw [h2, numFused_append, numFused_cons_some T F b post2 p.1 p.2 hp] at hn
    omega
  · exfalso
    obtain ⟨p, hp⟩ := ha
    rw [h3, numFused_append, numFused_cons_some T F a post p.1 p.2 hp] at hn
    omega

/-- An emitted Instruction is an Instruction of the Program or a newly allocated
`cublas_gemm`. -/
theorem emitted_cases (prog : Program) (F : List String) (e : Instruction)
    (he : e ∈ emittedOf (GemmRewriterPass.fresh.CollectInfo prog) F prog.heapTop [] prog.instrs) :
    (e ∈ prog.instrs ∧
      (∀ p, fusionOf (GemmRewriterPass.fresh.CollectInfo prog) F e ≠ Except.ok (some p))) ∨
    (∃ pre a post c old, prog.instrs = pre ++ a :: post ∧ Fused prog F a c old ∧
      e = gemmInstr (prog.heapTop + numFused (GemmRewriterPass.fresh.CollectInfo prog) F post)
        c old) := by
  rcases (mem_emittedOf _ F _ _ _ e).mp he with ⟨pre, post, hs, hnf, _⟩ | h
  · exact Or.inl ⟨by rw [hs]; simp, hnf⟩
  · exact Or.inr h

/-- An Instruction of the result that carries the address of an Instruction `j` of the
Program is `j` with relinked inputs. -/
theorem result_of_original (prog : Program) (F : List String) (hc : prog.Coherent)
    (j : Instruction) (hj : j ∈ prog.instrs) (j2 : Instruction)
    (hj2 : j2 ∈ (rewritten F prog).instrs) (hp : j2.ptr = j.ptr) :
    j2 = relinkInstr (finalPass (GemmRewriterPass.fresh.CollectInfo prog) F prog) j ∧
      j ∈ emittedOf (GemmRewriterPass.fresh.CollectInfo prog) F prog.heapTop [] prog.instrs := by
  obtain ⟨e, he, hje⟩ := (mem_rewritten prog F j2).mp hj2
  have hep : e.ptr = j.ptr := by rw [← hp, hje]; rfl
  rcases emitted_cases prog F e he with ⟨hel, _⟩ | ⟨pre, a, post, c, old, _, _, hg⟩
  · have : e = j := hc.1 e hel j hj hep
    rw [← this]
    exact ⟨hje, he⟩
  · exfalso
    have := instr_lt_heapTop prog j hj
    rw [hg] at hep
    simp only [gemmInstr] at hep
    omega

theorem transOf_of_boolOrAbsent (m : Instruction) (key : String)
    (h : BoolOrAbsent (m.attrs.lookup key)) : ∃ b, TransOf m key b := by
  unfold TransOf
  cases hl : m.attrs.lookup key with
  | none => exact ⟨false, Or.inr ⟨rfl, rfl⟩⟩
  | some a =>
    rw [hl] at h
    cases a with
    | bool b => exact ⟨b, Or.inl rfl⟩
    | float _ => exact absurd h (fun h => h)
    | int _ => exact absurd h (fun h => h)
    | str _ => exact absurd h (fun h => h)
    | bools _ => exact absurd h (fun h => h)
    | floats _ => exact absurd h (fun h => h)
    | ints _ => exact absurd h (fun h => h)
    | strs _ => exact absurd h (fun h => h)

theorem accepted_of_eligible (prog : Program) (F : List String) (hssa : prog.SSA)
    (v : Variable) (m : Instruction) (h : Eligible prog F v m) :
    Accepted (GemmRewriterPass.fresh.CollectInfo prog).output2instr_
        (GemmRewriterPass.fresh.CollectInfo prog).var_used_count_ F v m := by
  obtain ⟨hm, hop, hp, hcount, hid⟩ := h
  exact (accepted_iff prog F v m).mpr
    ⟨producerOf_of_nodup prog.instrs hssa.1 m hm v.ptr hp, hop, hcount, hid⟩

/-- On a well-typed Program no visit of the reverse loop fails. -/
theorem fusionOf_ok (prog : Program) (F : List String) (hw : prog.WellTyped)
    (hs : prog.SingleOutput) (i : Instruction) (hi : i ∈ prog.instrs) :
    ∃ q, fusionOf (GemmRewriterPass.fresh.CollectInfo prog) F i = Except.ok q := by
  by_cases ha : i.op_type = "elementwise_add"
  · have hlen := (hw i hi).1 ha
    obtain ⟨o, ho⟩ := length_one _ (hs i hi (Or.inr ha))
    match hin : i.inputs, hlen with
    | [in0, in1], _ =>
      have plan_ok : ∀ (l1 l2 : List Variable) (v : Variable) (m : Instruction),
          [in0, in1] = l1 ++ v :: l2 →
          (∀ u ∈ l1, ∀ m, ¬ Accepted (GemmRewriterPass.fresh.CollectInfo prog).output2instr_
            (GemmRewriterPass.fresh.CollectInfo prog).var_used_count_ F u m) →
          Accepted (GemmRewriterPass.fresh.CollectInfo prog).output2instr_
            (GemmRewriterPass.fresh.CollectInfo prog).var_used_count_ F v m →
          ∃ q, fusionOf (GemmRewriterPass.fresh.CollectInfo prog) F i = Except.ok q := by
        intro l1 l2 v m hsplit hn hacc
        have hel := eligible_of_accepted prog F v m hacc
        obtain ⟨hml, hta, htb⟩ := (hw m hel.1).2 hel.2.1
        obtain ⟨ta, hta⟩ := transOf_of_boolOrAbsent m "trans_a" hta
        obtain ⟨tb, htb⟩ := transOf_of_boolOrAbsent m "trans_b" htb
        have hc : ∀ u ∈ l1, ((GemmRewriterPass.fresh.CollectInfo prog).var_used_count_.lookup
            u.ptr).isSome := by
          intro u hu
          apply used_isSome prog i hi u
          rw [hin, hsplit]
          simp [hu]
        have hp := pick_first (GemmRewriterPass.fresh.CollectInfo prog).output2instr_
          (GemmRewriterPass.fresh.CollectInfo prog).var_used_count_ F in0 in1 l1 l2 v m ta tb
          hc hn hacc hta htb
        rw [← hsplit] at hp
        unfold fusionOf planOf
        simp only [ha, if_true, hin, hp, List.length_append, hml, List.length_cons,
          List.length_nil, ho]
        exact ⟨_, rfl⟩
      by_cases h0 : ∃ m, Accepted (GemmRewriterPass.fresh.CollectInfo prog).output2instr_
          (GemmRewriterPass.fresh.CollectInfo prog).var_used_count_ F in0 m
      · obtain ⟨m, hm⟩ := h0
        exact plan_ok [] [in1] in0 m rfl (by simp) hm
      · by_cases h1 : ∃ m, Accepted (GemmRewriterPass.fresh.CollectInfo prog).output2instr_
            (GemmRewriterPass.fresh.CollectInfo prog).var_used_count_ F in1 m
        · obtain ⟨m, hm⟩ := h1
          apply plan_ok [in0] [] in1 m rfl _ hm
          intro u hu m2 hm2
          simp only [List.mem_singleton] at hu
          subst hu
          exact h0 ⟨m2, hm2⟩
        · refine ⟨none, ?_⟩
          unfold fusionOf planOf
          simp only [ha, if_true, hin]
          rw [pick_none]
          · intro u hu
            exact used_isSome prog i hi u (by rw [hin]; exact hu)
          · intro u hu m hm
            simp only [List.mem_cons, List.mem_singleton, List.not_mem_nil, or_false] at hu
            rcases hu with hu | hu
            · subst hu; exact h0 ⟨m, hm⟩
            · subst hu; exact h1 ⟨m, hm⟩
  · exact ⟨none, fusionOf_not_add _ F i ha⟩

/-- An `elementwise_add` with an eligible input that is its first input, or whose
first input is not eligible, is fused with the producer of that input. -/
theorem fused_of_eligible (prog : Program) (F : List String) (hssa : prog.SSA)
    (i : Instruction) (hi : i ∈ prog.instrs) (hadd : i.op_type = "elementwise_add")
    (hok : ∃ q, fusionOf (GemmRewriterPass.fresh.CollectInfo prog) F i = Except.ok q)
    (v : Variable) (m : Instruction) (hv : v ∈ i.inputs) (hel : Eligible prog F v m)
    (hfirst : ∀ x0 x1, i.inputs = [x0, x1] →
      v = x0 ∨ ∀ m0 ∈ prog.instrs, ¬ Eligible prog F x0 m0) :
    ∃ c old, Fused prog F i c old ∧ c.var = v ∧ c.matmul = m := by
  obtain ⟨q, hq⟩ := hok
  have hacc := accepted_of_eligible prog F hssa v m hel
  cases q with
  | none =>
    rcases fusionOf_none _ F i hq with h | h
    · exact absurd hadd h
    · exact absurd hacc (h v hv m)
  | some p =>
    obtain ⟨c, old⟩ := p
    refine ⟨c, old, hq, ?_⟩
    obtain ⟨_, in0, in1, outs, hin, _, hsel, hne, hprod, helc, _⟩ := fused_shape prog F i c old hi hq
    have hcv : c.var = v := by
      rw [hin] at hv
      simp only [List.mem_cons, List.mem_singleton, List.not_mem_nil, or_false] at hv
      rcases hsel with ⟨e, _⟩ | ⟨e, _, hn0⟩
      · rcases hv with hv | hv
        · rw [e, hv]
        · rcases hfirst in0 in1 hin with h1 | h1
          · rw [e, h1]
          · exfalso
            rw [e] at helc
            exact h1 c.matmul helc.1 helc
      · rcases hv with hv | hv
        · exfalso
          rw [hv] at hacc
          exact hn0 m hacc
        · rw [e, hv]
    refine ⟨hcv, ?_⟩
    rw [hcv] at hprod
    have := ((accepted_iff prog F v m).mp hacc).1
    rw [this] at hprod
    injection hprod with hprod
    exact hprod.symm

theorem topo_split (known : List Nat) (pre post : List Instruction) (i : Instruction)
    (h : TopoList known (pre ++ i :: post)) :
    ∀ x ∈ i.inputs, x.ptr ∈ known ∨ ∃ k ∈ pre, x.ptr ∈ k.outputs.map (fun v => v.ptr) := by
  induction pre generalizing known with
  | nil =>
    intro x hx
    exact Or.inl (h.1 x hx)
  | cons y ys ih =>
    intro x hx
    rcases ih _ h.2 x hx with h1 | ⟨k, hk, hp⟩
    · rcases List.mem_append.mp h1 with h2 | h2
      · exact Or.inl h2
      · exact Or.inr ⟨y, List.mem_cons_self _ _, h2⟩
    · exact Or.inr ⟨k, List.mem_cons_of_mem _ hk, hp⟩

theorem topo_mono (known known2 : List Nat) (l : List Instruction)
    (hsub : ∀ p ∈ known, p ∈ known2) (h : TopoList known l) : TopoList known2 l := by
  induction l generalizing known known2 with
  | nil => trivial
  | cons x xs ih =>
    refine ⟨fun y hy => hsub _ (h.1 y hy), ih _ _ ?_ h.2⟩
    intro p hp
    rcases List.mem_append.mp hp with h1 | h1
    · exact List.mem_append_left _ (hsub p h1)
    · exact List.mem_append_right _ h1

theorem topo_cons (known : List Nat) (x : Instruction) (xs : List Instruction) :
    TopoList known (x :: xs) ↔
      (∀ y ∈ x.inputs, y.ptr ∈ known) ∧
        TopoList (known ++ x.outputs.map (fun v => v.ptr)) xs := Iff.rfl

theorem topo_append (known : List Nat) (l1 l2 : List Instruction) :
    TopoList known (l1 ++ l2) ↔
      TopoList known l1 ∧
        TopoList (known ++ l1.flatMap (fun i => i.outputs.map (fun v => v.ptr))) l2 := by
  induction l1 generalizing known with
  | nil => simp [TopoList]
  | cons x xs ih =>
    rw [List.cons_append, topo_cons, topo_cons, ih, List.flatMap_cons, List.append_assoc]
    constructor
    · rintro ⟨h1, h2, h3⟩; exact ⟨⟨h1, h2⟩, h3⟩
    · rintro ⟨⟨h1, h2⟩, h3⟩; exact ⟨h1, h2, h3⟩

/-- In a valid Program the producer of an input of an Instruction stands before that
Instruction. -/
theorem producer_before (prog : Program) (hssa : prog.SSA) (htopo : prog.Topological)
    (pre post : List Instruction) (i : Instruction) (hsplit : prog.instrs = pre ++ i :: post)
    (v : Variable) (hv : v ∈ i.inputs) (m : Instruction) (hm : m ∈ prog.instrs)
    (hp : v.ptr ∈ m.outputs.map (fun o => o.ptr)) : m ∈ pre := by
  unfold Program.Topological at htopo
  rw [hsplit] at htopo
  rcases topo_split _ pre post i htopo v hv with h1 | ⟨k, hk, hkp⟩
  · exfalso
    simp only [List.mem_map] at hp
    obtain ⟨o, ho, hop⟩ := hp
    apply hssa.2 m hm o ho
    rw [hop]
    exact h1
  · have hkm : k ∈ prog.instrs := by rw [hsplit]; simp [hk]
    have := ssa_same_instr prog.instrs hssa.1 k m hkm hm v.ptr hkp hp
    rw [← this]
    exact hk

theorem nodup_split_unique {α : Type} (l pre post pre2 post2 : List α) (a : α)
    (hn : l.Nodup) (h1 : l = pre ++ a :: post) (h2 : l = pre2 ++ a :: post2) :
    pre = pre2 ∧ post = post2 := by
  rcases split_cases pre post pre2 post2 a a (by rw [← h1, ← h2]) with h | ⟨mid, h⟩ | ⟨mid, h⟩
  · exact ⟨h.1, h.2.2⟩
  · exfalso
    rw [h1, h] at hn
    have := (List.nodup_append.mp hn).2.1
    rw [List.nodup_cons] at this
    apply this.1
    simp
  · exfalso
    rw [h2, h] at hn
    have := (List.nodup_append.mp hn).2.1
    rw [List.nodup_cons] at this
    apply this.1
    simp

/-- In a valid Program a fused `elementwise_add` and the matmul it absorbs are both
absent from the result. -/
theorem fused_absent (prog : Program) (F : List String) (hv : prog.Valid)
    (i : Instruction) (hi : i ∈ prog.instrs) (c : Candidate) (old : Variable)
    (hf : Fused prog F i c old) :
    c.matmul.ptr ∉ (rewritten F prog).instrs.map (fun j => j.ptr) ∧
      i.ptr ∉ (rewritten F prog).instrs.map (fun j => j.ptr) := by
  obtain ⟨hnd, hc, hssa, htopo, hs⟩ := hv
  have hmm := fused_matmul_mem prog F i c old hi hf
  have hvm := fused_var_mem prog F i c old hi hf
  rw [rewritten_ptrs]
  constructor
  · intro hmem
    simp only [List.mem_map] at hmem
    obtain ⟨e, he, hep⟩ := hmem
    rcases (mem_emittedOf _ F _ _ _ e).mp he with ⟨pre, post, hsplit, _, hnr⟩ |
        ⟨pre, a, post, c2, old2, _, _, hg⟩
    · have hel : e ∈ prog.instrs := by rw [hsplit]; simp
      have hem : e = c.matmul := hc.1 e hel c.matmul hmm.1 hep
      subst hem
      obtain ⟨pre_i, post_i, hsplit_i⟩ := List.append_of_mem hi
      have hbefore := producer_before prog hssa htopo pre_i post_i i hsplit_i c.var hvm.1
        c.matmul hmm.1 hmm.2.2
      obtain ⟨p1, p2, hp12⟩ := List.append_of_mem hbefore
      have hsplit2 : prog.instrs = p1 ++ c.matmul :: (p2 ++ i :: post_i) := by
        rw [hsplit_i, hp12]; simp
      have hnodup : prog.instrs.Nodup := List.Nodup.of_map _ hnd
      obtain ⟨_, hpost⟩ := nodup_split_unique prog.instrs pre post p1 (p2 ++ i :: post_i)
        c.matmul hnodup hsplit hsplit2
      apply hnr
      rw [List.append_nil, hpost, mem_removedOf]
      exact ⟨i, by simp, c, old, hf, Or.inr rfl⟩
    · have := instr_lt_heapTop prog c.matmul hmm.1
      rw [hg] at hep
      simp only [gemmInstr] at hep
      omega
  · intro hmem
    simp only [List.mem_map] at hmem
    obtain ⟨e, he, hep⟩ := hmem
    rcases emitted_cases prog F e he with ⟨hel, hnf⟩ | ⟨pre, a, post, c2, old2, _, _, hg⟩
    · have hei : e = i := hc.1 e hel i hi hep
      rw [hei] at hnf
      exact hnf (c, old) hf
    · have := instr_lt_heapTop prog i hi
      rw [hg] at hep
      simp only [gemmInstr] at hep
      omega

theorem first_input_cond (prog : Program) (F : List String) (i : Instruction) (v : Variable)
    (h : i.inputs.head? = some v ∨
      ∀ x0, i.inputs.head? = some x0 → ∀ m0 ∈ prog.instrs, ¬ Eligible prog F x0 m0) :
    ∀ x0 x1, i.inputs = [x0, x1] → v = x0 ∨ ∀ m0 ∈ prog.instrs, ¬ Eligible prog F x0 m0 := by
  intro x0 x1 hin
  rw [hin] at h
  simp only [List.head?_cons, Option.some.injEq] at h
  rcases h with h | h
  · exact Or.inl h.symm
  · exact Or.inr (h x0 rfl)

/-- The relinking loop keeps the id of every Variable of the Program. -/
theorem relink_id (prog : Program) (F : List String) (hc : prog.Coherent) (x : Variable)
    (hx : x ∈ prog.vars) :
    ((finalPass (GemmRewriterPass.fresh.CollectInfo prog) F prog).relink x).id = x.id := by
  rcases relink_ptr_cases prog F x with ⟨e, _⟩ | ⟨pre, a, post, c, old, hs, hf, hp, e⟩
  · rw [e]
  · rw [e]
    simp only []
    have ha : a ∈ prog.instrs := by rw [hs]; simp
    exact hc.2 old (mem_vars_output prog a ha old (fused_var_mem prog F a c old ha hf).2.2.2) x hx hp

/-- The `cublas_gemm` of a fused `elementwise_add` stands in the result, is a new
object, and is the only Instruction of the result with its output. -/
theorem gemm_in_result (prog : Program) (F : List String)
    (pre post : List Instruction) (i : Instruction) (c : Candidate) (old : Variable)
    (hsplit : prog.instrs = pre ++ i :: post) (hf : Fused prog F i c old) :
    relinkInstr (finalPass (GemmRewriterPass.fresh.CollectInfo prog) F prog)
        (gemmInstr (prog.heapTop + numFused (GemmRewriterPass.fresh.CollectInfo prog) F post) c old)
      ∈ (rewritten F prog).instrs ∧
    (prog.heapTop + numFused (GemmRewriterPass.fresh.CollectInfo prog) F post)
      ∉ prog.instrs.map (fun j => j.ptr) ∧
    ∀ g2 ∈ (rewritten F prog).instrs,
      g2.outputs = [{ ptr := prog.heapTop + numFused (GemmRewriterPass.fresh.CollectInfo prog) F post,
                      id := old.id }] →
      g2 = relinkInstr (finalPass (GemmRewriterPass.fresh.CollectInfo prog) F prog)
        (gemmInstr (prog.heapTop + numFused (GemmRewriterPass.fresh.CollectInfo prog) F post) c old) := by
  refine ⟨?_, ?_, ?_⟩
  · rw [mem_rewritten]
    refine ⟨_, ?_, rfl⟩
    rw [mem_emittedOf]
    exact Or.inr ⟨pre, i, post, c, old, hsplit, hf, rfl⟩
  · intro hmem
    simp only [List.mem_map] at hmem
    obtain ⟨j, hj, hjp⟩ := hmem
    have := instr_lt_heapTop prog j hj
    omega
  · intro g2 hg2 hout
    obtain ⟨e, he, hge⟩ := (mem_rewritten prog F g2).mp hg2
    have hout2 : e.outputs =
        [({ ptr := prog.heapTop + numFused (GemmRewriterPass.fresh.CollectInfo prog) F post,
            id := old.id } : Variable)] := by
      rw [← hout, hge]; rfl
    rcases emitted_cases prog F e he with ⟨hel, _⟩ | ⟨pre2, a2, post2, c2, old2, hs2, hf2, hg⟩
    · exfalso
      have := output_lt_heapTop prog e hel _ (by rw [hout2]; exact List.mem_singleton.mpr rfl)
      simp only [] at this
      omega
    · rw [hg] at hout2
      simp only [gemmInstr, List.cons.injEq, Variable.mk.injEq, and_true] at hout2
      have hn : numFused (GemmRewriterPass.fresh.CollectInfo prog) F post2 =
          numFused (GemmRewriterPass.fresh.CollectInfo prog) F post := by omega
      obtain ⟨_, hai, hpost⟩ := numFused_split_inj _ F pre2 post2 pre post a2 i
        (by rw [← hs2, ← hsplit]) ⟨(c2, old2), hf2⟩ ⟨(c, old), hf⟩ hn
      rw [hai] at hf2
      unfold Fused at hf hf2
      rw [hf] at hf2
      simp only [Except.ok.injEq, Option.some.injEq, Prod.mk.injEq] at hf2
      rw [hge, hg, hpost, ← hf2.1, ← hf2.2]

/-- A dead object is read by the fused `elementwise_add` that accepts it and by no
other Instruction. -/
theorem dead_reader (prog : Program) (F : List String) (j : Instruction) (hj : j ∈ prog.instrs)
    (z : Variable) (hz : z ∈ j.inputs) (hd : Dead prog F z.ptr) :
    ∃ c old, Fused prog F j c old ∧ c.var.ptr = z.ptr := by
  obtain ⟨a, ha, c, old, hf, hp⟩ := hd
  have hv := fused_var_mem prog F a c old ha hf
  obtain ⟨_, _, _, _, _, _, _, _, _, hel, _⟩ := fused_shape prog F a c old ha hf
  have haj : a = j := by
    by_contra hne
    have := useCount_two prog.instrs a j ha hj hne z.ptr
      (by rw [← hp]; exact List.mem_map_of_mem _ hv.1) (List.mem_map_of_mem _ hz)
    have h1 := hel.2.2.2.1
    rw [hp] at h1
    omega
  rw [← haj]
  exact ⟨c, old, hf, hp⟩

theorem known_init (prog : Program) (F : List String) (hssa : prog.SSA) :
    KnownAfter prog F [] (prog.inputs.map (fun v => v.ptr)) := by
  intro x hx _
  rcases hx with hx | ⟨k, hk, _⟩
  · rcases relink_ptr_cases prog F x with ⟨e, _⟩ | ⟨pre, a, post, c, old, hs, hf, hp, _⟩
    · rw [e]; exact hx
    · exfalso
      have ha : a ∈ prog.instrs := by rw [hs]; simp
      apply hssa.2 a ha old (fused_var_mem prog F a c old ha hf).2.2.2
      rw [hp]
      exact hx
  · simp at hk

theorem known_step_kept (prog : Program) (F : List String) (hssa : prog.SSA)
    (pre : List Instruction) (x : Instruction) (known : List Nat)
    (hx : x ∈ prog.instrs)
    (hnf : ∀ p, fusionOf (GemmRewriterPass.fresh.CollectInfo prog) F x ≠ Except.ok (some p))
    (hk : KnownAfter prog F pre known) :
    KnownAfter prog F (pre ++ [x]) (known ++ x.outputs.map (fun v => v.ptr)) := by
  intro z hz hnd
  rcases hz with hz | ⟨k, hkm, hkp⟩
  · exact List.mem_append_left _ (hk z (Or.inl hz) hnd)
  · rcases List.mem_append.mp hkm with h1 | h1
    · exact List.mem_append_left _ (hk z (Or.inr ⟨k, h1, hkp⟩) hnd)
    · simp only [List.mem_singleton] at h1
      subst h1
      apply List.mem_append_right
      rcases relink_ptr_cases prog F z with ⟨e, _⟩ | ⟨pre2, a, post, c, old, hs, hf, hp, _⟩
      · rw [e]; exact hkp
      · exfalso
        have ha : a ∈ prog.instrs := by rw [hs]; simp
        have hold := (fused_var_mem prog F a c old ha hf).2.2.2
        have := ssa_same_instr prog.instrs hssa.1 a k ha hx z.ptr
          (by rw [← hp]; exact List.mem_map_of_mem _ hold) hkp
        rw [this] at hf
        exact hnf (c, old) hf

theorem known_step_removed (prog : Program) (F : List String) (hc : prog.Coherent)
    (hs : prog.SingleOutput)
    (pre : List Instruction) (x : Instruction) (known : List Nat)
    (hx : x ∈ prog.instrs)
    (hnf : ∀ p, fusionOf (GemmRewriterPass.fresh.CollectInfo prog) F x ≠ Except.ok (some p))
    (hr : x.ptr ∈ removedOf (GemmRewriterPass.fresh.CollectInfo prog) F prog.instrs)
    (hk : KnownAfter prog F pre known) :
    KnownAfter prog F (pre ++ [x]) known := by
  intro z hz hnd
  rcases hz with hz | ⟨k, hkm, hkp⟩
  · exact hk z (Or.inl hz) hnd
  · rcases List.mem_append.mp hkm with h1 | h1
    · exact hk z (Or.inr ⟨k, h1, hkp⟩) hnd
    · exfalso
      simp only [List.mem_singleton] at h1
      subst h1
      rcases removed_cases prog F hc prog.instrs (fun a ha => ha) k hx hr with
        ⟨c, old, _, hf⟩ | ⟨a, ha, c, old, hf, hcm⟩
      · exact hnf (c, old) hf
      · have hm := fused_matmul_mem prog F a c old ha hf
        rw [hcm] at hm
        obtain ⟨o, ho⟩ := length_one _ (hs k hx (Or.inl hm.2.1))
        have hp := hm.2.2
        rw [ho] at hp hkp
        simp only [List.map_cons, List.map_nil, List.mem_singleton] at hp hkp
        apply hnd
        exact ⟨a, ha, c, old, hf, by rw [hp, hkp]⟩

theorem known_step_fused (prog : Program) (F : List String) (hssa : prog.SSA)
    (hs : prog.SingleOutput)
    (pre post : List Instruction) (x : Instruction) (known : List Nat)
    (hsplit : prog.instrs = pre ++ x :: post) (c : Candidate) (old : Variable)
    (hf : Fused prog F x c old)
    (hk : KnownAfter prog F pre known) :
    KnownAfter prog F (pre ++ [x])
      (known ++ [prog.heapTop + numFused (GemmRewriterPass.fresh.CollectInfo prog) F post]) := by
  have hx : x ∈ prog.instrs := by rw [hsplit]; simp
  obtain ⟨hadd, _, _, outs, _, hout, _⟩ := fused_shape prog F x c old hx hf
  obtain ⟨o, ho⟩ := length_one _ (hs x hx (Or.inr hadd))
  have hlook := origin_of_fused prog F hssa pre post x c old hsplit hf
  intro z hz hnd
  rcases hz with hz | ⟨k, hkm, hkp⟩
  · exact List.mem_append_left _ (hk z (Or.inl hz) hnd)
  · rcases List.mem_append.mp hkm with h1 | h1
    · exact List.mem_append_left _ (hk z (Or.inr ⟨k, h1, hkp⟩) hnd)
    · simp only [List.mem_singleton] at h1
      subst h1
      apply List.mem_append_right
      rw [ho] at hout hkp
      simp only [List.cons.injEq] at hout
      simp only [List.map_cons, List.map_nil, List.mem_singleton] at hkp
      have hzp : z.ptr = old.ptr := by rw [hkp, hout.1]
      unfold GemmRewriterPass.relink
      rw [hzp, hlook]
      simp

theorem removedOf_suffix (T : GemmRewriterPass) (F : List String) (pre l : List Instruction)
    (p : Nat) (h : p ∈ removedOf T F l) : p ∈ removedOf T F (pre ++ l) := by
  rw [removedOf_append]
  exact List.mem_append_right _ h

/-- The inputs of the Instruction emitted for `x` are known, after relinking, once the
Instructions before `x` have been emitted. -/
theorem inputs_known (prog : Program) (F : List String) (hv : prog.Valid)
    (pre post : List Instruction) (x : Instruction) (known : List Nat)
    (hsplit : prog.instrs = pre ++ x :: post)
    (hk : KnownAfter prog F pre known) :
    (∀ c old, Fused prog F x c old →
      ∀ z ∈ c.matmul.inputs ++ [c.bias],
        ((finalPass (GemmRewriterPass.fresh.CollectInfo prog) F prog).relink z).ptr ∈ known) ∧
    ((∀ p, fusionOf (GemmRewriterPass.fresh.CollectInfo prog) F x ≠ Except.ok (some p)) →
      ∀ z ∈ x.inputs,
        ((finalPass (GemmRewriterPass.fresh.CollectInfo prog) F prog).relink z).ptr ∈ known) := by
  obtain ⟨_, hc, hssa, htopo, hs⟩ := hv
  have hx : x ∈ prog.instrs := by rw [hsplit]; simp
  have havail : ∀ z ∈ x.inputs,
      (z.ptr ∈ prog.inputs.map (fun v => v.ptr) ∨
        ∃ k ∈ pre, z.ptr ∈ k.outputs.map (fun v => v.ptr)) := by
    intro z hz
    have ht : TopoList (prog.inputs.map (fun v => v.ptr)) (pre ++ x :: post) := by
      rw [← hsplit]; exact htopo
    exact topo_split _ pre post x ht z hz
  constructor
  · intro c old hf z hz
    have hvm := fused_var_mem prog F x c old hx hf
    have hmm := fused_matmul_mem prog F x c old hx hf
    rcases List.mem_append.mp hz with h1 | h1
    · -- an input of the absorbed matmul
      have hbefore := producer_before prog hssa htopo pre post x hsplit c.var hvm.1
        c.matmul hmm.1 hmm.2.2
      obtain ⟨p1, p2, hp12⟩ := List.append_of_mem hbefore
      have ht : TopoList (prog.inputs.map (fun v => v.ptr))
          (p1 ++ c.matmul :: (p2 ++ x :: post)) := by
        have : prog.instrs = p1 ++ c.matmul :: (p2 ++ x :: post) := by
          rw [hsplit, hp12]; simp
        rw [← this]; exact htopo
      apply hk z
      · rcases topo_split _ p1 _ c.matmul ht z h1 with h2 | ⟨k, hk1, hk2⟩
        · exact Or.inl h2
        · exact Or.inr ⟨k, by rw [hp12]; simp [hk1], hk2⟩
      · intro hd
        obtain ⟨c2, old2, hf2, _⟩ := dead_reader prog F c.matmul hmm.1 z h1 hd
        have := (fusionOf_some _ F c.matmul c2 old2 hf2).1
        rw [hmm.2.1] at this
        exact absurd this (by decide)
    · -- the bias
      simp only [List.mem_singleton] at h1
      subst h1
      apply hk c.bias (havail c.bias hvm.2.1)
      intro hd
      obtain ⟨c2, old2, hf2, hp2⟩ := dead_reader prog F x hx c.bias hvm.2.1 hd
      unfold Fused at hf hf2
      rw [hf] at hf2
      simp only [Except.ok.injEq, Option.some.injEq, Prod.mk.injEq] at hf2
      rw [← hf2.1] at hp2
      exact hvm.2.2.1 hp2.symm
  · intro hnf z hz
    apply hk z (havail z hz)
    intro hd
    obtain ⟨c2, old2, hf2, _⟩ := dead_reader prog F x hx z hz hd
    exact hnf (c2, old2) hf2

/-- The emitted Instructions of a suffix of a valid Program, relinked, are in
topological order over the objects known after the Instructions before the suffix. -/
theorem topo_emitted (prog : Program) (F : List String) (hv : prog.Valid)
    (l : List Instruction) :
    ∀ (pre : List Instruction) (known : List Nat), prog.instrs = pre ++ l →
      KnownAfter prog F pre known →
      TopoList known
        ((emittedOf (GemmRewriterPass.fresh.CollectInfo prog) F prog.heapTop [] l).map
          (relinkInstr (finalPass (GemmRewriterPass.fresh.CollectInfo prog) F prog))) := by
  induction l with
  | nil =>
    intro pre known _ _
    simp [emittedOf, TopoList]
  | cons x xs ih =>
    intro pre known hsplit hk
    have hx : x ∈ prog.instrs := by rw [hsplit]; simp
    have hsplit2 : prog.instrs = (pre ++ [x]) ++ xs := by rw [hsplit]; simp
    obtain ⟨hin1, hin2⟩ := inputs_known prog F hv pre xs x known hsplit hk
    rcases fusionOf_cases (GemmRewriterPass.fresh.CollectInfo prog) F x with ⟨c, old, hf⟩ | hnf
    · rw [emittedOf_cons_some _ F _ _ x xs c old hf, List.map_cons, topo_cons]
      constructor
      · intro y hy
        simp only [relinkInstr, gemmInstr, List.mem_map] at hy
        obtain ⟨z, hz, hzy⟩ := hy
        rw [← hzy]
        exact hin1 c old hf z hz
      · exact ih (pre ++ [x]) _ hsplit2
          (known_step_fused prog F hv.2.2.1 hv.2.2.2.2 pre xs x known hsplit c old hf hk)
    · rw [emittedOf_cons_other _ F _ _ x xs hnf]
      by_cases hr : x.ptr ∈ removedOf (GemmRewriterPass.fresh.CollectInfo prog) F xs ++ []
      · rw [if_pos hr]
        rw [List.append_nil] at hr
        have hr2 : x.ptr ∈ removedOf (GemmRewriterPass.fresh.CollectInfo prog) F prog.instrs := by
          rw [hsplit2]
          exact removedOf_suffix _ F (pre ++ [x]) xs x.ptr hr
        exact ih (pre ++ [x]) known hsplit2
          (known_step_removed prog F hv.2.1 hv.2.2.2.2 pre x known hx hnf hr2 hk)
      · rw [if_neg hr, List.map_cons, topo_cons]
        constructor
        · intro y hy
          simp only [relinkInstr, List.mem_map] at hy
          obtain ⟨z, hz, hzy⟩ := hy
          rw [← hzy]
          exact hin2 hnf z hz
        · exact ih (pre ++ [x]) _ hsplit2
            (known_step_kept prog F hv.2.2.1 pre x known hx hnf hk)

/-- The `cublas_gemm` of a fused `elementwise_add` is the one Instruction of the
result, counted with multiplicity, that has its output. -/
theorem gemm_count_one (prog : Program) (F : List String)
    (pre post : List Instruction) (i : Instruction) (c : Candidate) (old : Variable)
    (hsplit : prog.instrs = pre ++ i :: post) (hf : Fused prog F i c old) :
    ((rewritten F prog).instrs.filter (fun g2 => decide (g2.outputs =
      [({ ptr := prog.heapTop + numFused (GemmRewriterPass.fresh.CollectInfo prog) F post,
          id := old.id } : Variable)]))).length = 1 := by
  have hnum : numFused (GemmRewriterPass.fresh.CollectInfo prog) F (i :: post) =
      numFused (GemmRewriterPass.fresh.CollectInfo prog) F post + 1 :=
    numFused_cons_some _ F i post c old hf
  have hE : emittedOf (GemmRewriterPass.fresh.CollectInfo prog) F prog.heapTop [] prog.instrs =
      emittedOf (GemmRewriterPass.fresh.CollectInfo prog) F
        (prog.heapTop + numFused (GemmRewriterPass.fresh.CollectInfo prog) F (i :: post))
        (removedOf (GemmRewriterPass.fresh.CollectInfo prog) F (i :: post) ++ []) pre ++
      (gemmInstr (prog.heapTop + numFused (GemmRewriterPass.fresh.CollectInfo prog) F post) c old ::
        emittedOf (GemmRewriterPass.fresh.CollectInfo prog) F prog.heapTop [] post) := by
    rw [hsplit, emittedOf_append, emittedOf_cons_some _ F _ _ i post c old hf]
  have h1 : ∀ e ∈ emittedOf (GemmRewriterPass.fresh.CollectInfo prog) F
        (prog.heapTop + numFused (GemmRewriterPass.fresh.CollectInfo prog) F (i :: post))
        (removedOf (GemmRewriterPass.fresh.CollectInfo prog) F (i :: post) ++ []) pre,
      ¬ e.outputs =
        [({ ptr := prog.heapTop + numFused (GemmRewriterPass.fresh.CollectInfo prog) F post,
            id := old.id } : Variable)] := by
    intro e he hout
    rcases (mem_emittedOf _ F _ _ _ e).mp he with ⟨p1, p2, hs, _, _⟩ | ⟨p1, a, p2, c2, old2, hs, hf2, hg⟩
    · have hel : e ∈ prog.instrs := by rw [hsplit, hs]; simp
      have := output_lt_heapTop prog e hel _ (by rw [hout]; exact List.mem_singleton.mpr rfl)
      simp only [] at this
      omega
    · rw [hg] at hout
      simp only [gemmInstr, List.cons.injEq, Variable.mk.injEq, and_true] at hout
      omega
  have h2 : ∀ e ∈ emittedOf (GemmRewriterPass.fresh.CollectInfo prog) F prog.heapTop [] post,
      ¬ e.outputs =
        [({ ptr := prog.heapTop + numFused (GemmRewriterPass.fresh.CollectInfo prog) F post,
            id := old.id } : Variable)] := by
    intro e he hout
    rcases (mem_emittedOf _ F _ _ _ e).mp he with ⟨p1, p2, hs, _, _⟩ | ⟨p1, a, p2, c2, old2, hs, hf2, hg⟩
    · have hel : e ∈ prog.instrs := by rw [hsplit, hs]; simp
      have := output_lt_heapTop prog e hel _ (by rw [hout]; exact List.mem_singleton.mpr rfl)
      simp only [] at this
      omega
    · rw [hg] at hout
      simp only [gemmInstr, List.cons.injEq, Variable.mk.injEq, and_true] at hout
      have hn := numFused_cons_some _ F a p2 c2 old2 hf2
      have hn2 : numFused (GemmRewriterPass.fresh.CollectInfo prog) F post =
          numFused (GemmRewriterPass.fresh.CollectInfo prog) F p1 +
            numFused (GemmRewriterPass.fresh.CollectInfo prog) F (a :: p2) := by
        rw [hs, numFused_append]
      omega
  unfold rewritten
  simp only [List.filter_map, List.length_map, hE, List.filter_append]
  have e1 : List.filter ((fun g2 => decide (g2.outputs =
      [({ ptr := prog.heapTop + numFused (GemmRewriterPass.fresh.CollectInfo prog) F post,
          id := old.id } : Variable)])) ∘
        relinkInstr (finalPass (GemmRewriterPass.fresh.CollectInfo prog) F prog))
      (emittedOf (GemmRewriterPass.fresh.CollectInfo prog) F
        (prog.heapTop + numFused (GemmRewriterPass.fresh.CollectInfo prog) F (i :: post))
        (removedOf (GemmRewriterPass.fresh.CollectInfo prog) F (i :: post) ++ []) pre) = [] := by
    rw [List.filter_eq_nil_iff]
    intro e he
    simpa [relinkInstr] using h1 e he
  have e2 : List.filter ((fun g2 => decide (g2.outputs =
      [({ ptr := prog.heapTop + numFused (GemmRewriterPass.fresh.CollectInfo prog) F post,
          id := old.id } : Variable)])) ∘
        relinkInstr (finalPass (GemmRewriterPass.fresh.CollectInfo prog) F prog))
      (emittedOf (GemmRewriterPass.fresh.CollectInfo prog) F prog.heapTop [] post) = [] := by
    rw [List.filter_eq_nil_iff]
    intro e he
    simpa [relinkInstr] using h2 e he
  rw [e1, List.filter_cons_of_pos (by simp [relinkInstr, gemmInstr]), e2]
  rfl

theorem readers_cons (x : Instruction) (xs : List Instruction) (p : Nat) :
    readers (x :: xs) p =
      (if p ∈ x.inputs.map (fun v => v.ptr) then 1 else 0) + readers xs p := by
  unfold readers
  by_cases h : p ∈ x.inputs.map (fun v => v.ptr)
  · rw [List.filter_cons_of_pos (by simpa using h), if_pos h, List.length_cons]
    omega
  · rw [List.filter_cons_of_neg (by simpa using h), if_neg h]
    omega

theorem useCount_eq_readers (l : List Instruction) (p : Nat)
    (h : ∀ i ∈ l, (i.inputs.map (fun v => v.ptr)).Nodup) :
    useCount l p = readers l p := by
  induction l with
  | nil => rfl
  | cons x xs ih =>
    rw [useCount_cons, readers_cons, ih (fun i hi => h i (List.mem_cons_of_mem _ hi))]
    have hx := h x (List.mem_cons_self _ _)
    by_cases hp : p ∈ x.inputs.map (fun v => v.ptr)
    · rw [if_pos hp, List.count_eq_one_of_mem hx hp]
    · rw [if_neg hp, List.count_eq_zero_of_not_mem hp]

theorem planOf_some (o2i : List (Nat × Instruction)) (cnt : List (Nat × Nat)) (F : List String)
    (i : Instruction) (c : Candidate) (old : Variable)
    (h : planOf o2i cnt F i = Except.ok (some (c, old))) :
    ∃ l1 l2, i.inputs = l1 ++ c.var :: l2 ∧ (∀ v ∈ l1, ∀ m, ¬ Accepted o2i cnt F v m) ∧
      Accepted o2i cnt F c.var c.matmul ∧ c.matmul.inputs.length = 2 := by
  unfold planOf at h
  split at h
  · rename_i in0 in1 hin
    cases hp : pickCandidate o2i cnt F in0 in1 [in0, in1] with
    | error e => rw [hp] at h; simp at h
    | ok r =>
      rw [hp] at h
      cases r with
      | none => simp at h
      | some c2 =>
        simp only [] at h
        by_cases h3 : (c2.matmul.inputs ++ [c2.bias]).length = 3
        · simp only [h3, if_true] at h
          cases ho : i.outputs with
          | nil => rw [ho] at h; simp at h
          | cons o os =>
            rw [ho] at h
            simp only [Except.ok.injEq, Option.some.injEq, Prod.mk.injEq] at h
            obtain ⟨hc, _⟩ := h
            subst hc
            obtain ⟨l1, l2, e, hn, hacc, _, _, _⟩ := pick_some _ _ _ _ _ _ _ hp
            refine ⟨l1, l2, by rw [hin, e], hn, hacc, ?_⟩
            simp only [List.length_append, List.length_cons, List.length_nil] at h3
            omega
        · simp only [h3, if_false] at h
          simp at h
  · simp at h

theorem planOf_none (o2i : List (Nat × Instruction)) (cnt : List (Nat × Nat)) (F : List String)
    (i : Instruction) (h : planOf o2i cnt F i = Except.ok none) :
    ∀ v ∈ i.inputs, ∀ m, ¬ Accepted o2i cnt F v m := by
  unfold planOf at h
  split at h
  · rename_i in0 in1 hin
    cases hp : pickCandidate o2i cnt F in0 in1 [in0, in1] with
    | error e => rw [hp] at h; simp at h
    | ok r =>
      rw [hp] at h
      cases r with
      | none =>
        rw [hin]
        exact pick_none_conv _ _ _ _ _ _ hp
      | some c2 =>
        simp only [] at h
        by_cases h3 : (c2.matmul.inputs ++ [c2.bias]).length = 3
        · simp only [h3, if_true] at h
          cases ho : i.outputs with
          | nil => rw [ho] at h; simp at h
          | cons o os => rw [ho] at h; simp at h
        · simp only [h3, if_false] at h
          simp at h
  · simp at h

theorem planOf_no_candidate (o2i : List (Nat × Instruction)) (cnt : List (Nat × Nat))
    (F : List String) (i : Instruction) (h2 : i.inputs.length = 2)
    (hc : ∀ v ∈ i.inputs, (cnt.lookup v.ptr).isSome)
    (hn : ∀ v ∈ i.inputs, ∀ m, ¬ Accepted o2i cnt F v m) :
    planOf o2i cnt F i = Except.ok none := by
  unfold planOf
  split
  · rename_i in0 in1 hin
    rw [hin] at hc hn
    rw [pick_none o2i cnt F in0 in1 [in0, in1] hc hn]
  · rename_i hne
    exfalso
    match hi : i.inputs, h2 with
    | [x, y], _ => exact hne x y hi

theorem planOf_bad_candidate (o2i : List (Nat × Instruction)) (cnt : List (Nat × Nat))
    (F : List String) (i : Instruction) (l1 l2 : List Variable) (v : Variable)
    (m : Instruction) (ta tb : Bool) (h2 : i.inputs.length = 2)
    (hs : i.inputs = l1 ++ v :: l2)
    (hc : ∀ u ∈ l1, (cnt.lookup u.ptr).isSome)
    (hn : ∀ u ∈ l1, ∀ m0, ¬ Accepted o2i cnt F u m0)
    (ha : Accepted o2i cnt F v m)
    (hta : TransOf m "trans_a" ta) (htb : TransOf m "trans_b" tb)
    (hm : m.inputs.length ≠ 2) :
    planOf o2i cnt F i = Except.error Fatal.gemm_arity := by
  unfold planOf
  split
  · rename_i in0 in1 hin
    have e : [in0, in1] = l1 ++ v :: l2 := by rw [← hin, hs]
    rw [e, pick_first o2i cnt F in0 in1 l1 l2 v m ta tb hc hn ha hta htb]
    simp only []
    rw [if_neg]
    simp only [List.length_append, List.length_cons, List.length_nil]
    omega
  · rename_i hne
    exfalso
    match hi : i.inputs, h2 with
    | [x, y], _ => exact hne x y hi

theorem first_accepted_unique (o2i : List (Nat × Instruction)) (cnt : List (Nat × Nat))
    (F : List String) (l1 l2 k1 k2 : List Variable) (v w : Variable) (m n : Instruction)
    (h : l1 ++ v :: l2 = k1 ++ w :: k2)
    (hl : ∀ u ∈ l1, ∀ m0, ¬ Accepted o2i cnt F u m0)
    (hk : ∀ u ∈ k1, ∀ m0, ¬ Accepted o2i cnt F u m0)
    (hv : Accepted o2i cnt F v m) (hw : Accepted o2i cnt F w n) : v = w ∧ m = n := by
  induction l1 generalizing k1 with
  | nil =>
    cases k1 with
    | nil =>
      simp only [List.nil_append, List.cons.injEq] at h
      obtain ⟨e, _⟩ := h
      subst e
      refine ⟨rfl, ?_⟩
      have := hv.1.symm.trans hw.1
      exact Option.some.inj this
    | cons y ys =>
      simp only [List.nil_append, List.cons_append, List.cons.injEq] at h
      exact absurd (h.1 ▸ hv) (hk y (List.mem_cons_self _ _) m)
  | cons x xs ih =>
    cases k1 with
    | nil =>
      simp only [List.nil_append, List.cons_append, List.cons.injEq] at h
      exact absurd (h.1 ▸ hw) (hl x (List.mem_cons_self _ _) n)
    | cons y ys =>
      simp only [List.cons_append, List.cons.injEq] at h
      exact ih ys h.2 (fun u hu => hl u (List.mem_cons_of_mem _ hu))
        (fun u hu => hk u (List.mem_cons_of_mem _ hu))

theorem emitted_ptr_cases (T : GemmRewriterPass) (F : List String) (n0 : Nat) (r0 : List Nat)
    (l : List Instruction) (j : Instruction) (hj : j ∈ emittedOf T F n0 r0 l) :
    j ∈ l ∨ (n0 ≤ j.ptr ∧ j.ptr < n0 + numFused T F l) := by
  rcases (mem_emittedOf T F n0 r0 l j).1 hj with ⟨pre, post, e, _, _⟩ | ⟨pre, a, post, c, old, e, hf, hg⟩
  · left
    rw [e]
    simp
  · right
    rw [hg, e, numFused_append, numFused_cons_some T F a post c old hf]
    simp only [gemmInstr]
    omega

theorem emitted_nodup (T : GemmRewriterPass) (F : List String) (n0 : Nat) (r0 : List Nat)
    (l : List Instruction) (hn : (l.map (fun i => i.ptr)).Nodup) (hb : ∀ x ∈ l, x.ptr < n0) :
    ((emittedOf T F n0 r0 l).map (fun i => i.ptr)).Nodup := by
  induction l with
  | nil => simp [emittedOf]
  | cons x xs ih =>
    rw [List.map_cons, List.nodup_cons] at hn
    have ih2 := ih hn.2 (fun y hy => hb y (List.mem_cons_of_mem _ hy))
    rcases fusionOf_cases T F x with ⟨c, old, hf⟩ | hnf
    · rw [emittedOf_cons_some T F n0 r0 x xs c old hf, List.map_cons, List.nodup_cons]
      refine ⟨?_, ih2⟩
      intro hmem
      obtain ⟨j, hj, hjp⟩ := List.mem_map.1 hmem
      simp only [gemmInstr] at hjp
      rcases emitted_ptr_cases T F n0 r0 xs j hj with h1 | h1
      · have := hb j (List.mem_cons_of_mem _ h1)
        omega
      · omega
    · rw [emittedOf_cons_other T F n0 r0 x xs hnf]
      by_cases hr : x.ptr ∈ removedOf T F xs ++ r0
      · rw [if_pos hr]
        exact ih2
      · rw [if_neg hr, List.map_cons, List.nodup_cons]
        refine ⟨?_, ih2⟩
        intro hmem
        obtain ⟨j, hj, hjp⟩ := List.mem_map.1 hmem
        rcases emitted_ptr_cases T F n0 r0 xs j hj with h1 | h1
        · exact hn.1 (List.mem_map.2 ⟨j, h1, hjp⟩)
        · have := hb x (List.mem_cons_self _ _)
          omega

theorem survivors_sublist (T : GemmRewriterPass) (F : List String) (n0 : Nat) (r0 : List Nat)
    (R : List Nat) (l : List Instruction)
    (hR : ∀ p ∈ removedOf T F l ++ r0, p ∈ R) :
    (l.filter (fun x => decide (x.ptr ∉ R))).Sublist (emittedOf T F n0 r0 l) := by
  induction l with
  | nil => simp [emittedOf]
  | cons x xs ih =>
    rcases fusionOf_cases T F x with ⟨c, old, hf⟩ | hnf
    · rw [removedOf_cons_some T F x xs c old hf] at hR
      have hx : x.ptr ∈ R := hR _ (by simp)
      rw [emittedOf_cons_some T F n0 r0 x xs c old hf, List.filter_cons_of_neg (by simpa using hx)]
      exact List.Sublist.cons _ (ih (fun p hp => hR p (by
        rcases List.mem_append.1 hp with h | h
        · simp [h]
        · simp [h])))
    · rw [removedOf_cons_other T F x xs hnf] at hR
      rw [emittedOf_cons_other T F n0 r0 x xs hnf]
      by_cases hr : x.ptr ∈ removedOf T F xs ++ r0
      · rw [if_pos hr, List.filter_cons_of_neg (by simpa using hR _ hr)]
        exact ih hR
      · rw [if_neg hr]
        by_cases hx : x.ptr ∈ R
        · rw [List.filter_cons_of_neg (by simpa using hx)]
          exact List.Sublist.cons _ (ih hR)
        · rw [List.filter_cons_of_pos (by simpa using hx)]
          exact List.Sublist.cons₂ _ (ih hR)

theorem sublist_pair_split {α : Type} (l pa mid pb : List α) (a b : α)
    (h : (pa ++ a :: (mid ++ b :: pb)).Sublist l) :
    ∃ x y z, l = x ++ a :: (y ++ b :: z) := by
  obtain ⟨r1, r2, e, _, h2⟩ := List.append_sublist_iff.1 h
  obtain ⟨s1, s2, e2, ha, h3⟩ := List.cons_sublist_iff.1 h2
  obtain ⟨t1, t2, e3, _, h4⟩ := List.append_sublist_iff.1 h3
  obtain ⟨u1, u2, e4, hb, _⟩ := List.cons_sublist_iff.1 h4
  obtain ⟨sa, sb, e5⟩ := List.append_of_mem ha
  obtain ⟨ua, ub, e6⟩ := List.append_of_mem hb
  refine ⟨r1 ++ sa, sb ++ t1 ++ ua, ub ++ u2, ?_⟩
  rw [e, e2, e3, e4, e5, e6]
  simp

theorem final_removed (prog : Program) (F : List String) :
    (finalPass (GemmRewriterPass.fresh.CollectInfo prog) F prog).removed_instrs_ =
      removedOf (GemmRewriterPass.fresh.CollectInfo prog) F prog.instrs := by
  simp [finalPass, collect_fresh_removed]

theorem removed_iff (prog : Program) (F : List String) (hc : prog.Coherent)
    (i : Instruction) (hi : i ∈ prog.instrs) :
    i.ptr ∈ removedOf (GemmRewriterPass.fresh.CollectInfo prog) F prog.instrs ↔
      ((∃ c old, Fused prog F i c old) ∨
        ∃ a ∈ prog.instrs, ∃ c old, Fused prog F a c old ∧ c.matmul = i) := by
  constructor
  · intro h
    rcases removed_cases prog F hc prog.instrs (fun a ha => ha) i hi h with ⟨c, old, _, hf⟩ | h2
    · exact Or.inl ⟨c, old, hf⟩
    · exact Or.inr h2
  · intro h
    rw [mem_removedOf]
    rcases h with ⟨c, old, hf⟩ | ⟨a, ha, c, old, hf, hm⟩
    · exact ⟨i, hi, c, old, hf, Or.inl rfl⟩
    · exact ⟨a, ha, c, old, hf, Or.inr (by rw [hm])⟩

theorem replacedInPlace_cons_some (T : GemmRewriterPass) (F : List String) (n0 : Nat)
    (R : List Nat) (x : Instruction) (xs : List Instruction) (c : Candidate) (old : Variable)
    (h : fusionOf T F x = Except.ok (some (c, old))) :
    replacedInPlace T F n0 R (x :: xs) =
      gemmInstr (n0 + numFused T F xs) c old :: replacedInPlace T F n0 R xs := by
  simp only [replacedInPlace, h]

theorem replacedInPlace_cons_other (T : GemmRewriterPass) (F : List String) (n0 : Nat)
    (R : List Nat) (x : Instruction) (xs : List Instruction)
    (h : ∀ p, fusionOf T F x ≠ Except.ok (some p)) :
    replacedInPlace T F n0 R (x :: xs) =
      if x.ptr ∈ R then replacedInPlace T F n0 R xs else x :: replacedInPlace T F n0 R xs := by
  cases hf : fusionOf T F x with
  | error e => simp only [replacedInPlace, hf]
  | ok q =>
    cases q with
    | none => simp only [replacedInPlace, hf]
    | some p => exact absurd hf (h p)

theorem replacedInPlace_append (T : GemmRewriterPass) (F : List String) (n0 : Nat)
    (R : List Nat) (l1 l2 : List Instruction) :
    replacedInPlace T F n0 R (l1 ++ l2) =
      replacedInPlace T F (n0 + numFused T F l2) R l1 ++ replacedInPlace T F n0 R l2 := by
  induction l1 with
  | nil => simp [replacedInPlace]
  | cons x xs ih =>
    rw [List.cons_append]
    rcases fusionOf_cases T F x with ⟨c, old, hf⟩ | hnf
    · rw [replacedInPlace_cons_some T F n0 R x _ c old hf,
        replacedInPlace_cons_some T F _ R x _ c old hf, ih, numFused_append, List.cons_append]
      congr 2
      omega
    · rw [replacedInPlace_cons_other T F n0 R x _ hnf,
        replacedInPlace_cons_other T F _ R x _ hnf, ih]
      by_cases hr : x.ptr ∈ R
      · rw [if_pos hr, if_pos hr]
      · rw [if_neg hr, if_neg hr, List.cons_append]

theorem removed_static (prog : Program) (F : List String) (hv : prog.Valid)
    (pre post : List Instruction) (x : Instruction) (hs : prog.instrs = pre ++ x :: post)
    (hnf : ∀ p, fusionOf (GemmRewriterPass.fresh.CollectInfo prog) F x ≠ Except.ok (some p))
    (h : x.ptr ∈ removedOf (GemmRewriterPass.fresh.CollectInfo prog) F prog.instrs) :
    x.ptr ∈ removedOf (GemmRewriterPass.fresh.CollectInfo prog) F post := by
  have hx : x ∈ prog.instrs := by rw [hs]; simp
  rcases removed_cases prog F hv.2.1 prog.instrs (fun a ha => ha) x hx h with
    ⟨c, old, _, hf⟩ | ⟨a, ha, c, old, hf, hm⟩
  · exact absurd hf (hnf (c, old))
  · obtain ⟨pa, qa, ea⟩ := List.append_of_mem ha
    obtain ⟨hvar, _, _, _⟩ := fused_var_mem prog F a c old ha hf
    obtain ⟨hmm, _, hout⟩ := fused_matmul_mem prog F a c old ha hf
    have hpre : c.matmul ∈ pa :=
      producer_before prog hv.2.2.1 hv.2.2.2.1 pa qa a ea c.var hvar c.matmul hmm hout
    rw [hm] at hpre
    obtain ⟨s, t, est⟩ := List.append_of_mem hpre
    have e2 : prog.instrs = s ++ x :: (t ++ a :: qa) := by rw [ea, est]; simp
    have hnd : prog.instrs.Nodup := List.Nodup.of_map _ hv.1
    obtain ⟨_, hpost⟩ := nodup_split_unique prog.instrs pre post s (t ++ a :: qa) x hnd hs e2
    rw [mem_removedOf]
    exact ⟨a, by rw [hpost]; simp, c, old, hf, Or.inr (by rw [hm])⟩

theorem emitted_static (prog : Program) (F : List String) (hv : prog.Valid) (n0 : Nat)
    (l : List Instruction) :
    ∀ pre, prog.instrs = pre ++ l →
      emittedOf (GemmRewriterPass.fresh.CollectInfo prog) F n0 [] l =
        replacedInPlace (GemmRewriterPass.fresh.CollectInfo prog) F n0
          (removedOf (GemmRewriterPass.fresh.CollectInfo prog) F prog.instrs) l := by
  induction l with
  | nil => intro pre _; rfl
  | cons x xs ih =>
    intro pre hs
    have ih2 := ih (pre ++ [x]) (by rw [hs]; simp)
    rcases fusionOf_cases (GemmRewriterPass.fresh.CollectInfo prog) F x with ⟨c, old, hf⟩ | hnf
    · rw [emittedOf_cons_some _ F n0 [] x xs c old hf,
        replacedInPlace_cons_some _ F n0 _ x xs c old hf, ih2]
    · rw [emittedOf_cons_other _ F n0 [] x xs hnf, replacedInPlace_cons_other _ F n0 _ x xs hnf,
        ih2]
      by_cases hr : x.ptr ∈ removedOf (GemmRewriterPass.fresh.CollectInfo prog) F prog.instrs
      · rw [if_pos hr, if_pos]
        rw [List.append_nil]
        exact removed_static prog F hv pre xs x hs hnf hr
      · rw [if_neg hr, if_neg]
        rw [List.append_nil]
        intro h2
        apply hr
        rw [hs]
        exact removedOf_suffix _ F (pre ++ [x]) xs _ h2 |> fun h3 => by simpa using h3

theorem removedOf_length (T : GemmRewriterPass) (F : List String) (l : List Instruction) :
    (removedOf T F l).length = 2 * numFused T F l := by
  induction l with
  | nil => rfl
  | cons x xs ih =>
    rcases fusionOf_cases T F x with ⟨c, old, hf⟩ | hnf
    · rw [removedOf_cons_some T F x xs c old hf, numFused_cons_some T F x xs c old hf,
        List.length_cons, List.length_cons, ih]
      omega
    · rw [removedOf_cons_other T F x xs hnf, numFused_cons_other T F x xs hnf, ih]

theorem fused_matmul_ne (prog : Program) (F : List String) (hc : prog.Coherent)
    (a : Instruction) (ha : a ∈ prog.instrs) (c : Candidate) (old : Variable)
    (hf : Fused prog F a c old)
    (b : Instruction) (hb : b ∈ prog.instrs) (c2 : Candidate) (old2 : Variable)
    (hf2 : Fused prog F b c2 old2) : a.ptr ≠ c2.matmul.ptr := by
  intro e
  obtain ⟨hm, hop, _⟩ := fused_matmul_mem prog F b c2 old2 hb hf2
  have := hc.1 a ha c2.matmul hm e
  have hadd := (fused_shape prog F a c old ha hf).1
  rw [this, hop] at hadd
  exact absurd hadd (by decide)

theorem fused_same_matmul (prog : Program) (F : List String) (hc : prog.Coherent)
    (hs : prog.SingleOutput)
    (a : Instruction) (ha : a ∈ prog.instrs) (c : Candidate) (old : Variable)
    (hf : Fused prog F a c old)
    (b : Instruction) (hb : b ∈ prog.instrs) (c2 : Candidate) (old2 : Variable)
    (hf2 : Fused prog F b c2 old2) (e : c.matmul.ptr = c2.matmul.ptr) : a = b := by
  obtain ⟨hm, hop, hout⟩ := fused_matmul_mem prog F a c old ha hf
  obtain ⟨hm2, _, hout2⟩ := fused_matmul_mem prog F b c2 old2 hb hf2
  have em := hc.1 _ hm _ hm2 e
  rw [← em] at hout2
  obtain ⟨o, ho⟩ := length_one _ (hs _ hm (Or.inl hop))
  rw [ho] at hout hout2
  simp only [List.map_cons, List.map_nil, List.mem_singleton] at hout hout2
  have hel := (fused_shape prog F a c old ha hf).2
  obtain ⟨_, _, _, _, _, _, _, _, hE, _⟩ := hel
  have hcount : useCount prog.instrs c.var.ptr = 1 := hE.2.2.2.1
  by_contra hne
  have h2 := useCount_two prog.instrs a b ha hb hne c.var.ptr
    (List.mem_map.2 ⟨c.var, (fused_var_mem prog F a c old ha hf).1, rfl⟩)
    (List.mem_map.2 ⟨c2.var, (fused_var_mem prog F b c2 old2 hb hf2).1, by rw [hout2, hout]⟩)
  omega

theorem removedOf_nodup (prog : Program) (F : List String) (hv : prog.Valid)
    (l : List Instruction) :
    ∀ pre, prog.instrs = pre ++ l →
      (removedOf (GemmRewriterPass.fresh.CollectInfo prog) F l).Nodup := by
  induction l with
  | nil => intro _ _; simp [removedOf]
  | cons x xs ih =>
    intro pre hs
    have ih2 := ih (pre ++ [x]) (by rw [hs]; simp)
    have hnd : prog.instrs.Nodup := List.Nodup.of_map _ hv.1
    have hx : x ∈ prog.instrs := by rw [hs]; simp
    have hxs : ∀ a ∈ xs, a ∈ prog.instrs := fun a ha => by rw [hs]; simp [ha]
    have hxn : x ∉ xs := by
      rw [hs] at hnd
      have := (List.nodup_append.1 hnd).2.1
      exact (List.nodup_cons.1 this).1
    rcases fusionOf_cases (GemmRewriterPass.fresh.CollectInfo prog) F x with ⟨c, old, hf⟩ | hnf
    · rw [removedOf_cons_some _ F x xs c old hf, List.nodup_cons, List.nodup_cons]
      refine ⟨?_, ?_, ih2⟩
      · intro hmem
        rcases List.mem_cons.1 hmem with h1 | h1
        · exact fused_matmul_ne prog F hv.2.1 x hx c old hf x hx c old hf h1
        · obtain ⟨a, ha, c2, old2, hf2, h3⟩ := (mem_removedOf _ F xs x.ptr).1 h1
          rcases h3 with h3 | h3
          · have := hv.2.1.1 x hx a (hxs a ha) h3
            exact hxn (this ▸ ha)
          · exact fused_matmul_ne prog F hv.2.1 x hx c old hf a (hxs a ha) c2 old2 hf2 h3
      · intro hmem
        obtain ⟨a, ha, c2, old2, hf2, h3⟩ := (mem_removedOf _ F xs c.matmul.ptr).1 hmem
        rcases h3 with h3 | h3
        · exact fused_matmul_ne prog F hv.2.1 a (hxs a ha) c2 old2 hf2 x hx c old hf h3.symm
        · have := fused_same_matmul prog F hv.2.1 hv.2.2.2.2 x hx c old hf a (hxs a ha) c2 old2
            hf2 h3
          exact hxn (this ▸ ha)
    · rw [removedOf_cons_other _ F x xs hnf]
      exact ih2

theorem removedOf_subset (prog : Program) (F : List String) (p : Nat)
    (h : p ∈ removedOf (GemmRewriterPass.fresh.CollectInfo prog) F prog.instrs) :
    p ∈ prog.instrs.map (fun i => i.ptr) := by
  obtain ⟨a, ha, c, old, hf, h3⟩ := (mem_removedOf _ F prog.instrs p).1 h
  rcases h3 with h3 | h3
  · exact List.mem_map.2 ⟨a, ha, h3.symm⟩
  · exact List.mem_map.2 ⟨c.matmul, (fused_matmul_mem prog F a c old ha hf).1, h3.symm⟩

theorem removed_count (prog : Program) (F : List String) (hv : prog.Valid) :
    ((prog.instrs.map (fun i => i.ptr)).filter (fun p => decide (p ∈
      removedOf (GemmRewriterPass.fresh.CollectInfo prog) F prog.instrs))).length =
      2 * numFused (GemmRewriterPass.fresh.CollectInfo prog) F prog.instrs := by
  rw [← removedOf_length]
  apply List.Perm.length_eq
  rw [List.perm_ext_iff_of_nodup (List.Nodup.filter _ hv.1) (removedOf_nodup prog F hv _ [] rfl)]
  intro p
  rw [List.mem_filter]
  constructor
  · intro h
    simpa using h.2
  · intro h
    exact ⟨removedOf_subset prog F p h, by simpa using h⟩

theorem replacedInPlace_length (T : GemmRewriterPass) (F : List String) (n0 : Nat)
    (R : List Nat) (l : List Instruction)
    (hR : ∀ x ∈ l, (∃ p, fusionOf T F x = Except.ok (some p)) → x.ptr ∈ R) :
    (replacedInPlace T F n0 R l).length +
        ((l.map (fun i => i.ptr)).filter (fun p => decide (p ∈ R))).length =
      l.length + numFused T F l := by
  induction l with
  | nil => rfl
  | cons x xs ih =>
    have ih2 := ih (fun y hy => hR y (List.mem_cons_of_mem _ hy))
    rcases fusionOf_cases T F x with ⟨c, old, hf⟩ | hnf
    · have hx : x.ptr ∈ R := hR x (List.mem_cons_self _ _) ⟨_, hf⟩
      rw [replacedInPlace_cons_some T F n0 R x xs c old hf, numFused_cons_some T F x xs c old hf,
        List.map_cons, List.filter_cons_of_pos (by simpa using hx)]
      simp only [List.length_cons]
      omega
    · rw [replacedInPlace_cons_other T F n0 R x xs hnf, numFused_cons_other T F x xs hnf,
        List.map_cons]
      by_cases hx : x.ptr ∈ R
      · rw [if_pos hx, List.filter_cons_of_pos (by simpa using hx)]
        simp only [List.length_cons]
        omega
      · rw [if_neg hx, List.filter_cons_of_neg (by simpa using hx)]
        simp only [List.length_cons]
        omega

theorem rewritten_length (prog : Program) (F : List String) (hv : prog.Valid) :
    (rewritten F prog).instrs.length +
        numFused (GemmRewriterPass.fresh.CollectInfo prog) F prog.instrs =
      prog.instrs.length := by
  have h1 := replacedInPlace_length (GemmRewriterPass.fresh.CollectInfo prog) F prog.heapTop
    (removedOf (GemmRewriterPass.fresh.CollectInfo prog) F prog.instrs) prog.instrs
    (fun x hx hp => by
      obtain ⟨p, hp⟩ := hp
      exact (mem_removedOf _ F prog.instrs x.ptr).2 ⟨x, hx, p.1, p.2, hp, Or.inl rfl⟩)
  rw [removed_count prog F hv, ← emitted_static prog F hv prog.heapTop prog.instrs [] rfl] at h1
  unfold rewritten
  simp only [List.length_map]
  omega

theorem matmulsOf_cons_some (T : GemmRewriterPass) (F : List String) (x : Instruction)
    (xs : List Instruction) (c : Candidate) (old : Variable)
    (h : fusionOf T F x = Except.ok (some (c, old))) :
    matmulsOf T F (x :: xs) = c.matmul :: matmulsOf T F xs := by
  simp only [matmulsOf, h]

theorem matmulsOf_cons_other (T : GemmRewriterPass) (F : List String) (x : Instruction)
    (xs : List Instruction) (h : ∀ p, fusionOf T F x ≠ Except.ok (some p)) :
    matmulsOf T F (x :: xs) = matmulsOf T F xs := by
  cases hf : fusionOf T F x with
  | error e => simp only [matmulsOf, hf]
  | ok q =>
    cases q with
    | none => simp only [matmulsOf, hf]
    | some p => exact absurd hf (h p)

theorem mem_matmulsOf (T : GemmRewriterPass) (F : List String) (l : List Instruction)
    (m : Instruction) :
    m ∈ matmulsOf T F l ↔
      ∃ a ∈ l, ∃ c old, fusionOf T F a = Except.ok (some (c, old)) ∧ c.matmul = m := by
  induction l with
  | nil => simp [matmulsOf]
  | cons x xs ih =>
    rcases fusionOf_cases T F x with ⟨c, old, hf⟩ | hnf
    · rw [matmulsOf_cons_some T F x xs c old hf, List.mem_cons, ih]
      constructor
      · rintro (h | ⟨a, ha, c2, old2, hf2, hm⟩)
        · exact ⟨x, List.mem_cons_self _ _, c, old, hf, h.symm⟩
        · exact ⟨a, List.mem_cons_of_mem _ ha, c2, old2, hf2, hm⟩
      · rintro ⟨a, ha, c2, old2, hf2, hm⟩
        rcases List.mem_cons.1 ha with h | h
        · subst h
          rw [hf] at hf2
          simp only [Except.ok.injEq, Option.some.injEq, Prod.mk.injEq] at hf2
          left
          rw [← hm, ← hf2.1]
        · exact Or.inr ⟨a, h, c2, old2, hf2, hm⟩
    · rw [matmulsOf_cons_other T F x xs hnf, ih]
      constructor
      · rintro ⟨a, ha, c2, old2, hf2, hm⟩
        exact ⟨a, List.mem_cons_of_mem _ ha, c2, old2, hf2, hm⟩
      · rintro ⟨a, ha, c2, old2, hf2, hm⟩
        rcases List.mem_cons.1 ha with h | h
        · subst h
          exact absurd hf2 (hnf _)
        · exact ⟨a, h, c2, old2, hf2, hm⟩

theorem matmulsOf_nodup (prog : Program) (F : List String) (hv : prog.Valid)
    (l : List Instruction) :
    ∀ pre, prog.instrs = pre ++ l →
      (matmulsOf (GemmRewriterPass.fresh.CollectInfo prog) F l).Nodup := by
  induction l with
  | nil => intro _ _; simp [matmulsOf]
  | cons x xs ih =>
    intro pre hs
    have ih2 := ih (pre ++ [x]) (by rw [hs]; simp)
    have hnd : prog.instrs.Nodup := List.Nodup.of_map _ hv.1
    have hx : x ∈ prog.instrs := by rw [hs]; simp
    have hxs : ∀ a ∈ xs, a ∈ prog.instrs := fun a ha => by rw [hs]; simp [ha]
    have hxn : x ∉ xs := by
      rw [hs] at hnd
      have := (List.nodup_append.1 hnd).2.1
      exact (List.nodup_cons.1 this).1
    rcases fusionOf_cases (GemmRewriterPass.fresh.CollectInfo prog) F x with ⟨c, old, hf⟩ | hnf
    · rw [matmulsOf_cons_some _ F x xs c old hf, List.nodup_cons]
      refine ⟨?_, ih2⟩
      intro hmem
      obtain ⟨a, ha, c2, old2, hf2, hm⟩ := (mem_matmulsOf _ F xs c.matmul).1 hmem
      have := fused_same_matmul prog F hv.2.1 hv.2.2.2.2 x hx c old hf a (hxs a ha) c2 old2
        hf2 (by rw [hm])
      exact hxn (this ▸ ha)
    · rw [matmulsOf_cons_other _ F x xs hnf]
      exact ih2

theorem absorbed_perm (prog : Program) (F : List String) (hv : prog.Valid) :
    (prog.instrs.filter (fun x => decide (x ∈
      matmulsOf (GemmRewriterPass.fresh.CollectInfo prog) F prog.instrs))).Perm
      (matmulsOf (GemmRewriterPass.fresh.CollectInfo prog) F prog.instrs) := by
  have hnd : prog.instrs.Nodup := List.Nodup.of_map _ hv.1
  rw [List.perm_ext_iff_of_nodup (List.Nodup.filter _ hnd) (matmulsOf_nodup prog F hv _ [] rfl)]
  intro m
  rw [List.mem_filter]
  constructor
  · intro h
    simpa using h.2
  · intro h
    refine ⟨?_, by simpa using h⟩
    obtain ⟨a, ha, c, old, hf, hm⟩ := (mem_matmulsOf _ F prog.instrs m).1 h
    rw [← hm]
    exact (fused_matmul_mem prog F a c old ha hf).1

theorem useCount_perm (l1 l2 : List Instruction) (h : l1.Perm l2) (p : Nat) :
    useCount l1 p = useCount l2 p := by
  unfold useCount
  exact (List.Perm.flatMap_right _ h).count_eq p

theorem useCount_nil (p : Nat) : useCount [] p = 0 := rfl

theorem absorbed_iff (prog : Program) (F : List String) (hc : prog.Coherent)
    (x : Instruction) (hx : x ∈ prog.instrs)
    (hnf : ∀ p, fusionOf (GemmRewriterPass.fresh.CollectInfo prog) F x ≠ Except.ok (some p)) :
    x.ptr ∈ removedOf (GemmRewriterPass.fresh.CollectInfo prog) F prog.instrs ↔
      x ∈ matmulsOf (GemmRewriterPass.fresh.CollectInfo prog) F prog.instrs := by
  rw [removed_iff prog F hc x hx, mem_matmulsOf]
  constructor
  · rintro (⟨c, old, hf⟩ | h)
    · exact absurd hf (hnf _)
    · exact h
  · intro h
    exact Or.inr h

theorem fused_not_absorbed (prog : Program) (F : List String)
    (x : Instruction) (hx : x ∈ prog.instrs) (c : Candidate) (old : Variable)
    (hf : Fused prog F x c old) :
    x ∉ matmulsOf (GemmRewriterPass.fresh.CollectInfo prog) F prog.instrs := by
  intro h
  obtain ⟨a, ha, c2, old2, hf2, hm⟩ := (mem_matmulsOf _ F prog.instrs x).1 h
  have hop := (fused_matmul_mem prog F a c2 old2 ha hf2).2.1
  have hadd := (fused_shape prog F x c old hx hf).1
  rw [hm, hadd] at hop
  exact absurd hop (by decide)

theorem fused_count (prog : Program) (F : List String) (x : Instruction)
    (hx : x ∈ prog.instrs) (c : Candidate) (old : Variable) (hf : Fused prog F x c old)
    (p : Nat) (hp : c.var.ptr ≠ p) :
    ((c.matmul.inputs ++ [c.bias]).map (fun v => v.ptr)).count p =
      (x.inputs.map (fun v => v.ptr)).count p +
        (c.matmul.inputs.map (fun v => v.ptr)).count p := by
  obtain ⟨_, in0, in1, outs, hin, _, hcase, _⟩ := fused_shape prog F x c old hx hf
  rw [List.map_append, List.count_append, hin]
  simp only [List.map_cons, List.map_nil]
  rw [count_pair]
  rcases hcase with ⟨h1, h2⟩ | ⟨h1, h2, _⟩
  · rw [← h1, ← h2, if_neg hp]
    simp only [List.count_cons, List.count_nil, beq_iff_eq]
    omega
  · rw [← h1, ← h2, if_neg hp]
    simp only [List.count_cons, List.count_nil, beq_iff_eq]
    omega

theorem useCount_replaced (prog : Program) (F : List String) (hv : prog.Valid) (n0 : Nat)
    (p : Nat) (hd : ¬ Dead prog F p) (l : List Instruction) :
    ∀ pre, prog.instrs = pre ++ l →
      useCount (replacedInPlace (GemmRewriterPass.fresh.CollectInfo prog) F n0
          (removedOf (GemmRewriterPass.fresh.CollectInfo prog) F prog.instrs) l) p +
        useCount (l.filter (fun x => decide (x ∈
          matmulsOf (GemmRewriterPass.fresh.CollectInfo prog) F prog.instrs))) p =
      useCount l p + useCount (matmulsOf (GemmRewriterPass.fresh.CollectInfo prog) F l) p := by
  induction l with
  | nil => intro _ _; rfl
  | cons x xs ih =>
    intro pre hs
    have ih2 := ih (pre ++ [x]) (by rw [hs]; simp)
    have hx : x ∈ prog.instrs := by rw [hs]; simp
    rcases fusionOf_cases (GemmRewriterPass.fresh.CollectInfo prog) F x with ⟨c, old, hf⟩ | hnf
    · have hna := fused_not_absorbed prog F x hx c old hf
      have hp : c.var.ptr ≠ p := fun e => hd ⟨x, hx, c, old, hf, e⟩
      rw [replacedInPlace_cons_some _ F n0 _ x xs c old hf, matmulsOf_cons_some _ F x xs c old hf,
        List.filter_cons_of_neg (by simpa using hna), useCount_cons, useCount_cons,
        useCount_cons]
      have := fused_count prog F x hx c old hf p hp
      simp only [gemmInstr]
      omega
    · rw [replacedInPlace_cons_other _ F n0 _ x xs hnf, matmulsOf_cons_other _ F x xs hnf]
      by_cases hr : x.ptr ∈ removedOf (GemmRewriterPass.fresh.CollectInfo prog) F prog.instrs
      · rw [if_pos hr, List.filter_cons_of_pos
          (by simpa using (absorbed_iff prog F hv.2.1 x hx hnf).1 hr), useCount_cons,
          useCount_cons]
        omega
      · rw [if_neg hr, List.filter_cons_of_neg
          (by simpa using fun h => hr ((absorbed_iff prog F hv.2.1 x hx hnf).2 h)),
          useCount_cons, useCount_cons]
        omega

theorem relink_ptr_eq (prog : Program) (F : List String) (p : Nat) (hp : p < prog.heapTop)
    (hk : (finalPass (GemmRewriterPass.fresh.CollectInfo prog) F prog).origin2new_.lookup p = none)
    (x : Variable) :
    ((finalPass (GemmRewriterPass.fresh.CollectInfo prog) F prog).relink x).ptr = p ↔
      x.ptr = p := by
  constructor
  · intro h
    rcases relink_ptr_cases prog F x with ⟨h1, _⟩ | ⟨pre, a, post, c, old, _, _, _, h1⟩
    · rw [h1] at h
      exact h
    · rw [h1] at h
      simp only at h
      omega
  · intro h
    unfold GemmRewriterPass.relink
    rw [h, hk]
    exact h

theorem count_relink (prog : Program) (F : List String) (p : Nat) (hp : p < prog.heapTop)
    (hk : (finalPass (GemmRewriterPass.fresh.CollectInfo prog) F prog).origin2new_.lookup p = none)
    (l : List Variable) :
    ((l.map (finalPass (GemmRewriterPass.fresh.CollectInfo prog) F prog).relink).map
      (fun v => v.ptr)).count p = (l.map (fun v => v.ptr)).count p := by
  induction l with
  | nil => rfl
  | cons x xs ih =>
    simp only [List.map_cons, List.count_cons, ih, beq_iff_eq]
    have := relink_ptr_eq prog F p hp hk x
    by_cases h : x.ptr = p
    · rw [if_pos h, if_pos (this.2 h)]
    · rw [if_neg h, if_neg (fun e => h (this.1 e))]

theorem useCount_relink (prog : Program) (F : List String) (p : Nat) (hp : p < prog.heapTop)
    (hk : (finalPass (GemmRewriterPass.fresh.CollectInfo prog) F prog).origin2new_.lookup p = none)
    (l : List Instruction) :
    useCount (l.map (relinkInstr (finalPass (GemmRewriterPass.fresh.CollectInfo prog) F prog))) p =
      useCount l p := by
  induction l with
  | nil => rfl
  | cons x xs ih =>
    rw [List.map_cons, useCount_cons, useCount_cons, ih]
    simp only [relinkInstr]
    rw [count_relink prog F p hp hk]

theorem useCount_rewritten (prog : Program) (F : List String) (hv : prog.Valid)
    (p : Nat) (hp : p < prog.heapTop) (hd : ¬ Dead prog F p)
    (hk : (finalPass (GemmRewriterPass.fresh.CollectInfo prog) F prog).origin2new_.lookup p = none) :
    useCount (rewritten F prog).instrs p = useCount prog.instrs p := by
  have h1 := useCount_replaced prog F hv prog.heapTop p hd prog.instrs [] rfl
  rw [useCount_perm _ _ (absorbed_perm prog F hv) p,
    ← emitted_static prog F hv prog.heapTop prog.instrs [] rfl] at h1
  unfold rewritten
  simp only
  rw [useCount_relink prog F p hp hk]
  omega

theorem rewritten_add_origin (prog : Program) (F : List String)
    (hok : ∀ i ∈ prog.instrs, ∃ q,
      fusionOf (GemmRewriterPass.fresh.CollectInfo prog) F i = Except.ok q)
    (a : Instruction) (ha : a ∈ (rewritten F prog).instrs) (hop : a.op_type ≠ "cublas_gemm") :
    ∃ e ∈ prog.instrs,
      a = relinkInstr (finalPass (GemmRewriterPass.fresh.CollectInfo prog) F prog) e ∧
      fusionOf (GemmRewriterPass.fresh.CollectInfo prog) F e = Except.ok none := by
  obtain ⟨e, he, hae⟩ := (mem_rewritten prog F a).1 ha
  rcases emitted_cases prog F e he with ⟨hmem, hnf⟩ | ⟨pre, x, post, c, old, _, _, hg⟩
  · refine ⟨e, hmem, hae, ?_⟩
    obtain ⟨q, hq⟩ := hok e hmem
    cases q with
    | none => exact hq
    | some p => exact absurd hq (hnf p)
  · exfalso
    apply hop
    rw [hae, hg]
    rfl

theorem second_pass_not_eligible (prog : Program) (F : List String) (hv : prog.Valid)
    (hok : ∀ i ∈ prog.instrs, ∃ q,
      fusionOf (GemmRewriterPass.fresh.CollectInfo prog) F i = Except.ok q)
    (a : Instruction) (ha : a ∈ (rewritten F prog).instrs)
    (hadd : a.op_type = "elementwise_add") :
    a.inputs.length = 2 ∧ ∀ v ∈ a.inputs, ∀ m, ¬ Eligible (rewritten F prog) F v m := by
  obtain ⟨e, he, hae, hfe⟩ := rewritten_add_origin prog F hok a ha (by rw [hadd]; decide)
  have heop : e.op_type = "elementwise_add" := by rw [hae] at hadd; exact hadd
  constructor
  · rw [hae]
    simp only [relinkInstr, List.length_map]
    by_contra hne
    rw [fusionOf_arity _ F e heop hne] at hfe
    cases hfe
  · intro v2 hv2 m2 hel
    obtain ⟨hm2, hm2op, hout, hcount, hid⟩ := hel
    obtain ⟨e2, he2, hm2e, _⟩ := rewritten_add_origin prog F hok m2 hm2 (by rw [hm2op]; decide)
    have he2op : e2.op_type = "matmul" := by rw [hm2e] at hm2op; exact hm2op
    have hout2 : v2.ptr ∈ e2.outputs.map (fun o => o.ptr) := by rw [hm2e] at hout; exact hout
    have hlt : v2.ptr < prog.heapTop := by
      obtain ⟨o, ho, hoe⟩ := List.mem_map.1 hout2
      rw [← hoe]
      exact output_lt_heapTop prog e2 he2 o ho
    rw [hae] at hv2
    simp only [relinkInstr] at hv2
    obtain ⟨v, hvin, hvv⟩ := List.mem_map.1 hv2
    have hrel : v2 = v ∧ (finalPass (GemmRewriterPass.fresh.CollectInfo prog) F
        prog).origin2new_.lookup v.ptr = none := by
      rcases relink_ptr_cases prog F v with ⟨h1, h2⟩ | ⟨pre, x, post, c, old, _, _, _, h1⟩
      · exact ⟨by rw [← hvv, h1], h2⟩
      · rw [h1] at hvv
        rw [← hvv] at hlt
        simp only at hlt
        omega
    obtain ⟨hvv2, hkey⟩ := hrel
    subst hvv2
    have hprod : producerOf prog.instrs v2.ptr = some e2 :=
      producerOf_of_nodup prog.instrs hv.2.2.1.1 e2 he2 v2.ptr hout2
    have hnacc : ¬ Accepted (GemmRewriterPass.fresh.CollectInfo prog).output2instr_
        (GemmRewriterPass.fresh.CollectInfo prog).var_used_count_ F v2 e2 := by
      rcases fusionOf_none _ F e hfe with h | h
      · exact absurd heop h
      · exact h v2 hvin e2
    rw [accepted_iff] at hnacc
    have hpos := useCount_pos prog.instrs e he v2 hvin
    have hne1 : useCount prog.instrs v2.ptr ≠ 1 := fun h1 => hnacc ⟨hprod, he2op, h1, hid⟩
    have hnd : ¬ Dead prog F v2.ptr := by
      rintro ⟨x, hx, c, old, hf, hp⟩
      obtain ⟨_, _, _, _, _, _, _, _, _, hE, _⟩ := fused_shape prog F x c old hx hf
      have h1 : useCount prog.instrs c.var.ptr = 1 := hE.2.2.2.1
      rw [hp] at h1
      exact hne1 h1
    rw [useCount_rewritten prog F hv v2.ptr hlt hnd hkey] at hcount
    exact hne1 hcount

theorem second_pass (prog : Program) (F : List String) (target : Target) (hv : prog.Valid)
    (hok : ∀ i ∈ prog.instrs, ∃ q,
      fusionOf (GemmRewriterPass.fresh.CollectInfo prog) F i = Except.ok q) :
    (∀ i ∈ (rewritten F prog).instrs,
      fusionOf (GemmRewriterPass.fresh.CollectInfo (rewritten F prog)) F i = Except.ok none) ∧
    ∃ st, GemmRewriterPass.fresh.ApplyImpl (rewritten F prog) F target =
        Except.ok (rewritten F prog, st) ∧
      st.removed_instrs_ = [] ∧ st.origin2new_ = [] := by
  have hnone : ∀ i ∈ (rewritten F prog).instrs,
      fusionOf (GemmRewriterPass.fresh.CollectInfo (rewritten F prog)) F i = Except.ok none := by
    intro i hi
    apply fusionOf_ok_none (rewritten F prog) F i hi
    · intro hadd
      exact (second_pass_not_eligible prog F hv hok i hi hadd).1
    · intro hadd
      exact (second_pass_not_eligible prog F hv hok i hi hadd).2
  refine ⟨hnone, ?_⟩
  by_cases hskip : target.arch ≠ Arch.NVGPU ∨ (rewritten F prog).instrs = []
  · exact ⟨GemmRewriterPass.fresh, ApplyImpl_skip _ _ F target hskip, rfl, rfl⟩
  · have ht : target.arch = Arch.NVGPU := by
      by_contra h
      exact hskip (Or.inl h)
    have hne : (rewritten F prog).instrs ≠ [] := fun h => hskip (Or.inr h)
    refine ⟨finalPass (GemmRewriterPass.fresh.CollectInfo (rewritten F prog)) F
      (rewritten F prog), ?_, ?_, ?_⟩
    · rw [ApplyImpl_closed (rewritten F prog) F target ht hne (fun i hi => ⟨_, hnone i hi⟩),
        rewritten_no_fusion (rewritten F prog) F hnone]
    · have := (no_fusion_closed (GemmRewriterPass.fresh.CollectInfo (rewritten F prog)) F
        (rewritten F prog).heapTop [] (rewritten F prog).instrs hnone).2.1
      simp [finalPass, this, collect_fresh_removed]
    · have := (no_fusion_closed (GemmRewriterPass.fresh.CollectInfo (rewritten F prog)) F
        (rewritten F prog).heapTop [] (rewritten F prog).instrs hnone).2.2.1
      simp [finalPass, this, collect_fresh_origin]

end frontend

namespace poly

theorem lowerBound_sound (i : String) (c : Constraint) (env : String → Int) (a : Int)
    (h : c.lowerBound i = some a) (hc : c.holds env = true) : a ≤ env i := by
  cases c with
  | le x y =>
    cases x <;> cases y <;> simp [Constraint.lowerBound] at h
    obtain ⟨e, rfl⟩ := h
    subst e
    simpa [Constraint.holds, Term.eval] using hc
  | lt x y =>
    cases x <;> cases y <;> simp [Constraint.lowerBound] at h
    obtain ⟨e, rfl⟩ := h
    subst e
    simp only [Constraint.holds, Term.eval, decide_eq_true_eq] at hc
    omega
  | eq x y =>
    cases x <;> cases y <;> simp [Constraint.lowerBound] at h
    · obtain ⟨e, rfl⟩ := h
      subst e
      simp only [Constraint.holds, Term.eval, decide_eq_true_eq] at hc
      omega
    · obtain ⟨e, rfl⟩ := h
      subst e
      simp only [Constraint.holds, Term.eval, decide_eq_true_eq] at hc
      omega

theorem upperBound_sound (i : String) (c : Constraint) (env : String → Int) (b : Int)
    (h : c.upperBound i = some b) (hc : c.holds env = true) : env i ≤ b := by
  cases c with
  | le x y =>
    cases x <;> cases y <;> simp [Constraint.upperBound] at h
    obtain ⟨e, rfl⟩ := h
    subst e
    simpa [Constraint.holds, Term.eval] using hc
  | lt x y =>
    cases x <;> cases y <;> simp [Constraint.upperBound] at h
    obtain ⟨e, rfl⟩ := h
    subst e
    simp only [Constraint.holds, Term.eval, decide_eq_true_eq] at hc
    omega
  | eq x y =>
    cases x <;> cases y <;> simp [Constraint.upperBound] at h
    · obtain ⟨e, rfl⟩ := h
      subst e
      simp only [Constraint.holds, Term.eval, decide_eq_true_eq] at hc
      omega
    · obtain ⟨e, rfl⟩ := h
      subst e
      simp only [Constraint.holds, Term.eval, decide_eq_true_eq] at hc
      omega

theorem bound_holds (i : String) (c : Constraint) (env : String → Int)
    (hb : c.isBoundOf i = true)
    (hl : ∀ a, c.lowerBound i = some a → a ≤ env i)
    (hu : ∀ b, c.upperBound i = some b → env i ≤ b) : c.holds env = true := by
  cases c with
  | le x y =>
    cases x <;> cases y <;>
      simp [Constraint.isBoundOf, Constraint.lowerBound, Constraint.upperBound] at hb hl hu
    · subst hb
      simpa [Constraint.holds, Term.eval] using hl
    · subst hb
      simpa [Constraint.holds, Term.eval] using hu
  | lt x y =>
    cases x <;> cases y <;>
      simp [Constraint.isBoundOf, Constraint.lowerBound, Constraint.upperBound] at hb hl hu
    · subst hb
      simp only [Constraint.holds, Term.eval, decide_eq_true_eq]
      simp at hl
      omega
    · subst hb
      simp only [Constraint.holds, Term.eval, decide_eq_true_eq]
      simp at hu
      omega
  | eq x y =>
    cases x <;> cases y <;>
      simp [Constraint.isBoundOf, Constraint.lowerBound, Constraint.upperBound] at hb hl hu
    · subst hb
      simp only [Constraint.holds, Term.eval, decide_eq_true_eq]
      simp at hl hu
      omega
    · subst hb
      simp only [Constraint.holds, Term.eval, decide_eq_true_eq]
      simp at hl hu
      omega

theorem fixedValue_spec (S : IslSet) (i : String) (v : Int) (h : S.fixedValue i = some v) :
    v ∈ S.lowers i ∧ v ∈ S.uppers i ∧ (∀ a ∈ S.lowers i, a ≤ v) ∧ ∀ b ∈ S.uppers i, v ≤ b := by
  unfold IslSet.fixedValue at h
  have h1 := List.mem_of_find?_eq_some h
  have h2 := List.find?_some h
  simp only [Bool.and_eq_true, decide_eq_true_eq, List.all_eq_true] at h2
  exact ⟨h1, h2.1.1, h2.1.2, h2.2⟩

theorem mem_fixedDims (S : IslSet) (i : String) (v : Int) :
    (i, v) ∈ S.fixedDims ↔ i ∈ S.dims ∧ S.fixedValue i = some v := by
  unfold IslSet.fixedDims
  rw [List.mem_filterMap]
  constructor
  · rintro ⟨x, hx, h⟩
    cases hf : S.fixedValue x with
    | none => rw [hf] at h; simp at h
    | some w =>
      rw [hf] at h
      simp only [Option.map_some', Option.some.injEq, Prod.mk.injEq] at h
      rw [← h.1, ← h.2]
      exact ⟨hx, hf⟩
  · rintro ⟨hx, hf⟩
    exact ⟨i, hx, by rw [hf]; rfl⟩

theorem contains_iff (S : IslSet) (env : String → Int) :
    S.contains env = true ↔ ∀ c ∈ S.conds, c.holds env = true := by
  unfold IslSet.contains
  rw [List.all_eq_true]

theorem fixed_sound (S : IslSet) (i : String) (v : Int) (h : S.fixedValue i = some v)
    (env : String → Int) (hc : S.contains env = true) : env i = v := by
  obtain ⟨hl, hu, _, _⟩ := fixedValue_spec S i v h
  rw [contains_iff] at hc
  unfold IslSet.lowers at hl
  unfold IslSet.uppers at hu
  obtain ⟨c1, hc1, e1⟩ := List.mem_filterMap.1 hl
  obtain ⟨c2, hc2, e2⟩ := List.mem_filterMap.1 hu
  have := lowerBound_sound i c1 env v e1 (hc c1 hc1)
  have := upperBound_sound i c2 env v e2 (hc c2 hc2)
  omega

theorem rangeConds_hold (env : String → Int) (d : String × Int) :
    (∀ c ∈ rangeConds d, c.holds env = true) ↔
      d.2 ≤ env d.1 ∧ env d.1 ≤ env (constParamName d.2) ∧ env (constParamName d.2) < d.2 + 1 := by
  simp [rangeConds, Constraint.holds, Term.eval]

theorem trans_contains_iff (S : IslSet) (env : String → Int) :
    (TransIdentityExtentToContextId S).contains env = true ↔
      (∀ d ∈ S.fixedDims, d.2 ≤ env d.1 ∧ env d.1 ≤ env (constParamName d.2) ∧
        env (constParamName d.2) < d.2 + 1) ∧
      ∀ c ∈ S.conds, (∀ d ∈ S.fixedDims, c.isBoundOf d.1 = false) → c.holds env = true := by
  rw [contains_iff]
  unfold TransIdentityExtentToContextId
  simp only [List.mem_append, List.mem_flatMap, List.mem_filter, Bool.not_eq_true',
    List.any_eq_false]
  constructor
  · intro h
    constructor
    · intro d hd
      rw [← rangeConds_hold]
      intro c hc
      exact h c (Or.inl ⟨d, hd, hc⟩)
    · intro c hc hnb
      exact h c (Or.inr ⟨hc, fun d hd => by simpa using hnb d hd⟩)
  · rintro ⟨h1, h2⟩ c (⟨d, hd, hc⟩ | ⟨hc, hnb⟩)
    · exact (rangeConds_hold env d).2 (h1 d hd) c hc
    · exact h2 c hc (fun d hd => by simpa using hnb d hd)

theorem trans_equiv (S : IslSet) (env : String → Int)
    (hK : ∀ d ∈ S.fixedDims, env (constParamName d.2) = d.2) :
    (TransIdentityExtentToContextId S).contains env = true ↔ S.contains env = true := by
  rw [trans_contains_iff, contains_iff]
  constructor
  · rintro ⟨h1, h2⟩ c hc
    by_cases hb : ∀ d ∈ S.fixedDims, c.isBoundOf d.1 = false
    · exact h2 c hc hb
    · push_neg at hb
      obtain ⟨d, hd, hbd⟩ := hb
      have hbd2 : c.isBoundOf d.1 = true := by simpa using hbd
      obtain ⟨i, v⟩ := d
      have hfv := ((mem_fixedDims S i v).1 hd).2
      obtain ⟨_, _, hlo, hup⟩ := fixedValue_spec S i v hfv
      have hr := h1 (i, v) hd
      have hk := hK (i, v) hd
      simp only at hr hk hbd2
      apply bound_holds i c env hbd2
      · intro a ha
        have := hlo a (List.mem_filterMap.2 ⟨c, hc, ha⟩)
        omega
      · intro b hb2
        have := hup b (List.mem_filterMap.2 ⟨c, hc, hb2⟩)
        omega
  · intro h
    constructor
    · intro d hd
      obtain ⟨i, v⟩ := d
      have hfv := ((mem_fixedDims S i v).1 hd).2
      have := fixed_sound S i v hfv env ((contains_iff S env).2 h)
      have hk := hK (i, v) hd
      simp only at hk ⊢
      omega
    · intro c hc _
      exact h c hc

end poly

namespace frontend

end frontend

namespace poly

theorem trans_uppers_nil (S : IslSet) (i : String) (v : Int) (hi : i ∈ S.dims)
    (h : S.fixedValue i = some v) (hname : ∀ w, i ≠ constParamName w) :
    (TransIdentityExtentToContextId S).uppers i = [] := by
  unfold IslSet.uppers
  rw [List.filterMap_eq_nil_iff]
  intro c hc
  unfold TransIdentityExtentToContextId at hc
  simp only [List.mem_append, List.mem_flatMap, List.mem_filter, Bool.not_eq_true',
    List.any_eq_false] at hc
  rcases hc with ⟨d, _, hcd⟩ | ⟨_, hnb⟩
  · simp only [rangeConds, List.mem_cons, List.mem_singleton, List.not_mem_nil, or_false] at hcd
    rcases hcd with rfl | rfl | rfl
    · rfl
    · rfl
    · simp only [Constraint.upperBound]
      rw [if_neg (fun e => hname d.2 e.symm)]
  · have := hnb (i, v) ((mem_fixedDims S i v).2 ⟨hi, h⟩)
    simp only [Constraint.isBoundOf, Bool.or_eq_false_iff] at this
    cases hu : c.upperBound i with
    | none => rfl
    | some b =>
      rw [hu] at this
      simp at this

theorem trans_not_fixed (S : IslSet) (i : String) (v : Int) (hi : i ∈ S.dims)
    (h : S.fixedValue i = some v) (hname : ∀ w, i ≠ constParamName w) :
    (TransIdentityExtentToContextId S).fixedValue i = none := by
  unfold IslSet.fixedValue
  rw [trans_uppers_nil S i v hi h hname, List.find?_eq_none]
  intro x _
  simp

theorem eval_update (i : String) (t : Term) (env : String → Int) (z : Int)
    (h : t.mentions i = false) : t.eval (Function.update env i z) = t.eval env := by
  cases t with
  | num c => rfl
  | name x =>
    simp only [Term.mentions, decide_eq_false_iff_not] at h
    simp only [Term.eval]
    exact Function.update_noteq h z env

theorem holds_update (i : String) (c : Constraint) (env : String → Int) (z : Int)
    (h : c.mentions i = false) : c.holds (Function.update env i z) = c.holds env := by
  cases c with
  | le a b =>
    simp only [Constraint.mentions, Bool.or_eq_false_iff] at h
    simp only [Constraint.holds, eval_update i a env z h.1, eval_update i b env z h.2]
  | lt a b =>
    simp only [Constraint.mentions, Bool.or_eq_false_iff] at h
    simp only [Constraint.holds, eval_update i a env z h.1, eval_update i b env z h.2]
  | eq a b =>
    simp only [Constraint.mentions, Bool.or_eq_false_iff] at h
    simp only [Constraint.holds, eval_update i a env z h.1, eval_update i b env z h.2]

theorem contains_update (S : IslSet) (i : String) (env : String → Int) (z : Int)
    (hbox : ∀ c ∈ S.conds, c.mentions i = true → c.isBoundOf i = true)
    (h : S.contains env = true)
    (hl : ∀ a ∈ S.lowers i, a ≤ z) (hu : ∀ b ∈ S.uppers i, z ≤ b) :
    S.contains (Function.update env i z) = true := by
  rw [contains_iff] at h ⊢
  intro c hc
  by_cases hm : c.mentions i = true
  · apply bound_holds i c _ (hbox c hc hm)
    · intro a ha
      rw [Function.update_same]
      exact hl a (List.mem_filterMap.2 ⟨c, hc, ha⟩)
    · intro b hb
      rw [Function.update_same]
      exact hu b (List.mem_filterMap.2 ⟨c, hc, hb⟩)
  · rw [holds_update i c env z (by simpa using hm)]
    exact h c hc

theorem fixed_complete (S : IslSet) (i : String) (v : Int)
    (hbox : ∀ c ∈ S.conds, c.mentions i = true → c.isBoundOf i = true)
    (env0 : String → Int) (h0 : S.contains env0 = true)
    (hall : ∀ env, S.contains env = true → env i = v) :
    S.fixedValue i = some v := by
  have h0i := hall env0 h0
  have hlo : ∀ a ∈ S.lowers i, a ≤ v := by
    intro a ha
    obtain ⟨c, hc, e⟩ := List.mem_filterMap.1 ha
    have := lowerBound_sound i c env0 a e ((contains_iff S env0).1 h0 c hc)
    omega
  have hup : ∀ b ∈ S.uppers i, v ≤ b := by
    intro b hb
    obtain ⟨c, hc, e⟩ := List.mem_filterMap.1 hb
    have := upperBound_sound i c env0 b e ((contains_iff S env0).1 h0 c hc)
    omega
  have hvl : v ∈ S.lowers i := by
    by_contra hn
    have h1 := contains_update S i env0 (v - 1) hbox h0
      (fun a ha => by
        have := hlo a ha
        have hne : a ≠ v := fun e => hn (e ▸ ha)
        omega)
      (fun b hb => by
        have := hup b hb
        omega)
    have := hall _ h1
    rw [Function.update_same] at this
    omega
  have hvu : v ∈ S.uppers i := by
    by_contra hn
    have h1 := contains_update S i env0 (v + 1) hbox h0
      (fun a ha => by
        have := hlo a ha
        omega)
      (fun b hb => by
        have := hup b hb
        have hne : b ≠ v := fun e => hn (e ▸ hb)
        omega)
    have := hall _ h1
    rw [Function.update_same] at this
    omega
  cases hf : S.fixedValue i with
  | none =>
    unfold IslSet.fixedValue at hf
    rw [List.find?_eq_none] at hf
    have := hf v hvl
    simp only [Bool.and_eq_true, decide_eq_true_eq, List.all_eq_true, not_and] at this
    exact absurd hup (this ⟨hvu, hlo⟩)
  | some w =>
    obtain ⟨hwl, _, hwlo, _⟩ := fixedValue_spec S i w hf
    have h1 := hlo w hwl
    have h2 := hwlo v hvl
    have : w = v := by omega
    rw [this]

end poly

namespace frontend

/-! ## The claims -/

/-- C1 as stated fails on the dataflow of the repository test `GemmRwriter.Basic`:
the output `d` of a matmul is read by the elementwise_add `n` and by one further
Instruction, yet a fusion happens (the add `n` is fused with the other matmul `q`),
so the elementwise_add does not remain in the result. -/
theorem C1_counterexample :
    Example.testBasic.Valid ∧
    Example.matmulD ∈ Example.testBasic.instrs ∧ Example.matmulD.op_type = "matmul" ∧
    Example.matmulD.outputs = [Example.D] ∧
    Example.addN ∈ Example.testBasic.instrs ∧ Example.addN.op_type = "elementwise_add" ∧
    Example.D ∈ Example.addN.inputs ∧
    Example.subM ∈ Example.testBasic.instrs ∧ Example.D ∈ Example.subM.inputs ∧
    ∃ r, GemmRewriterPass.fresh.ApplyImpl Example.testBasic [] Example.nvgpu = Except.ok r ∧
      r.1.instrs.map (fun i => i.op_type) =
        ["matmul", "elementwise_mul", "substract", "cublas_gemm", "elementwise_add"] ∧
      Example.addN.ptr ∉ r.1.instrs.map (fun i => i.ptr) := by
  refine ⟨by decide, by decide, rfl, rfl, by decide, rfl, by decide, by decide, by decide,
    _, rfl, ?_, ?_⟩
  · decide
  · decide

/-- C1 (amended): on an NVGPU target, for a Program whose records are coherent,
`ApplyImpl` absorbs a matmul `m` (no Instruction with its address is left in the
result) only if an output of `m` is read by exactly one Instruction of the input
Program and its id is no fetch id. In particular a matmul whose sole output `v` is
read by an elementwise_add `i` and by one further Instruction `j` remains in the
result, and `i` remains too when none of its inputs other than `v` is an eligible
matmul output (otherwise `i` is fused with that other matmul). -/
theorem C1_absorb_only_if (prog : Program) (F : List String) (target : Target)
    (r : Program × GemmRewriterPass) (ht : target.arch = Arch.NVGPU) (hc : prog.Coherent)
    (h : GemmRewriterPass.fresh.ApplyImpl prog F target = Except.ok r) :
    (∀ m ∈ prog.instrs, m.op_type = "matmul" → m.ptr ∉ r.1.instrs.map (fun i => i.ptr) →
      ∃ v ∈ m.outputs, readers prog.instrs v.ptr = 1 ∧ v.id ∉ F) ∧
    (∀ m ∈ prog.instrs, ∀ i ∈ prog.instrs, ∀ j ∈ prog.instrs, ∀ v : Variable,
      m.op_type = "matmul" → m.outputs = [v] → i.op_type = "elementwise_add" →
      v.ptr ∈ i.inputs.map (fun x => x.ptr) → v.ptr ∈ j.inputs.map (fun x => x.ptr) → j ≠ i →
      m.ptr ∈ r.1.instrs.map (fun i => i.ptr) ∧
      ((∀ w ∈ i.inputs, w.ptr ≠ v.ptr → ∀ m2 ∈ prog.instrs, ¬ Eligible prog F w m2) →
        i.ptr ∈ r.1.instrs.map (fun i => i.ptr))) := by
  obtain ⟨hr, hall⟩ := ApplyImpl_ok prog F target r ht h
  subst hr
  simp only []
  constructor
  · intro m hm hop habs
    obtain ⟨v, hv, hcount, hid⟩ := absorbed_only_if prog F hc m hm hop habs
    exact ⟨v, hv, readers_eq_one _ _ hcount, hid⟩
  · intro m hm i hi j hj v hop hout hadd hvi hvj hji
    have htwo := useCount_two prog.instrs j i hj hi hji v.ptr hvj hvi
    constructor
    · by_contra habs
      obtain ⟨v2, hv2, hcount, _⟩ := absorbed_only_if prog F hc m hm hop habs
      rw [hout] at hv2
      simp only [List.mem_singleton] at hv2
      subst hv2
      omega
    · intro hother
      have hnf : ∀ p, fusionOf (GemmRewriterPass.fresh.CollectInfo prog) F i ≠
          Except.ok (some p) := by
        intro p hp
        obtain ⟨hvar, _, _, _⟩ := fused_var_mem prog F i p.1 p.2 hi hp
        obtain ⟨_, _, _, _, _, _, _, _, _, hel, _⟩ := fused_shape prog F i p.1 p.2 hi hp
        by_cases hpv : p.1.var.ptr = v.ptr
        · have := hel.2.2.2.1
          rw [hpv] at this
          omega
        · exact hother p.1.var hvar hpv p.1.matmul hel.1 hel
      rw [rewritten_ptrs]
      apply List.mem_map_of_mem
      apply kept_of_not_removed prog F i hi hnf
      intro hrem
      rcases removed_cases prog F hc prog.instrs (fun a ha => ha) i hi hrem with
        ⟨c, old, _, hf⟩ | ⟨a, ha, c, old, hf, hcm⟩
      · exact hnf (c, old) hf
      · have := (fused_matmul_mem prog F a c old ha hf).2.1
        rw [hcm, hadd] at this
        exact absurd this (by decide)

/-- C1 (amended) at the dataflow of the test `GemmRwriter.Basic`: the absorbed matmul
`q` has its output read once; the matmul `d`, read by the add `n` and by the
subtraction `m`, remains. -/
theorem C1_witness :
    ∃ r, GemmRewriterPass.fresh.ApplyImpl Example.testBasic [] Example.nvgpu = Except.ok r ∧
    (∃ v ∈ Example.matmulQ.outputs, readers Example.testBasic.instrs v.ptr = 1 ∧ v.id ∉ []) ∧
    Example.matmulD.ptr ∈ r.1.instrs.map (fun i => i.ptr) ∧
    ((∀ w ∈ Example.addN.inputs, w.ptr ≠ Example.D.ptr → ∀ m2 ∈ Example.testBasic.instrs,
        ¬ Eligible Example.testBasic [] w m2) →
      Example.addN.ptr ∈ r.1.instrs.map (fun i => i.ptr)) :=
  ⟨_, rfl,
    (C1_absorb_only_if Example.testBasic [] Example.nvgpu _ rfl (by decide) rfl).1
      Example.matmulQ (by decide) rfl (by decide),
    (C1_absorb_only_if Example.testBasic [] Example.nvgpu _ rfl (by decide) rfl).2
      Example.matmulD (by decide) Example.addN (by decide) Example.subM (by decide) Example.D
      rfl rfl rfl (by decide) (by decide) (by decide)⟩

/-- C2: on an NVGPU target (on any other target the Program is returned as it is),
for a Program whose records are coherent and whose matmul and elementwise_add
Instructions have one output each, whenever `ApplyImpl` succeeds every fetch id that
is the id of an output of some Instruction of the input Program is the id of an
output of some Instruction of the resulting Program. -/
theorem C2_fetch_ids_survive (prog : Program) (F : List String) (target : Target)
    (r : Program × GemmRewriterPass) (hc : prog.Coherent) (hs : prog.SingleOutput)
    (h : GemmRewriterPass.fresh.ApplyImpl prog F target = Except.ok r) :
    ∀ id ∈ F, (∃ i ∈ prog.instrs, ∃ o ∈ i.outputs, o.id = id) →
      ∃ j ∈ r.1.instrs, ∃ o ∈ j.outputs, o.id = id := by
  intro id hid hex
  by_cases ht : target.arch = Arch.NVGPU
  · obtain ⟨hr, _⟩ := ApplyImpl_ok prog F target r ht h
    subst hr
    obtain ⟨i, hi, o, ho, hoid⟩ := hex
    exact fetch_kept prog F hc hs id hid i hi o ho hoid
  · rw [ApplyImpl_skip _ prog F target (Or.inl ht)] at h
    injection h with h
    subst h
    exact hex

/-- C2 at Scenario A with the fetch ids Out and R: the add is fused and the fused
Instruction carries the id Out. -/
theorem C2_witness :
    ∃ r, GemmRewriterPass.fresh.ApplyImpl Example.scenarioA ["Out", "R"] Example.nvgpu =
        Except.ok r ∧
      ∀ id ∈ ["Out", "R"], (∃ i ∈ Example.scenarioA.instrs, ∃ o ∈ i.outputs, o.id = id) →
        ∃ j ∈ r.1.instrs, ∃ o ∈ j.outputs, o.id = id :=
  ⟨_, rfl, C2_fetch_ids_survive Example.scenarioA ["Out", "R"] Example.nvgpu _
    (by decide) (by decide) rfl⟩

/-- C3: for a valid Program (every Instruction's inputs are Program inputs or outputs
of a strictly earlier Instruction, single assignment, coherent records, one output per
matmul and elementwise_add), the Program that `ApplyImpl` leaves after the relinking
loop is again in topological order: each input of each Instruction is a Program input
or an output of a strictly earlier Instruction of the resulting Program. -/
theorem C3_topological_order_kept (prog : Program) (F : List String) (target : Target)
    (r : Program × GemmRewriterPass) (hv : prog.Valid)
    (h : GemmRewriterPass.fresh.ApplyImpl prog F target = Except.ok r) :
    r.1.Topological ∧
    ∀ pre j post, r.1.instrs = pre ++ j :: post →
      ∀ x ∈ j.inputs, x.ptr ∈ r.1.inputs.map (fun v => v.ptr) ∨
        ∃ k ∈ pre, x.ptr ∈ k.outputs.map (fun v => v.ptr) := by
  have htopo : r.1.Topological := by
    by_cases ht : target.arch = Arch.NVGPU
    · obtain ⟨hr, _⟩ := ApplyImpl_ok prog F target r ht h
      subst hr
      exact topo_emitted prog F hv prog.instrs [] _ rfl (known_init prog F hv.2.2.1)
    · rw [ApplyImpl_skip _ prog F target (Or.inl ht)] at h
      injection h with h
      subst h
      exact hv.2.2.2.1
  refine ⟨htopo, ?_⟩
  intro pre j post hsplit
  unfold Program.Topological at htopo
  rw [hsplit] at htopo
  exact topo_split _ pre post j htopo

/-- C3 at the dataflow of the test `GemmRwriter.Basic`: one add is fused, and its
reader is relinked to the output of the fused Instruction. -/
theorem C3_witness :
    ∃ r, GemmRewriterPass.fresh.ApplyImpl Example.testBasic [] Example.nvgpu = Except.ok r ∧
      r.1.Topological ∧
      ∀ pre j post, r.1.instrs = pre ++ j :: post →
        ∀ x ∈ j.inputs, x.ptr ∈ r.1.inputs.map (fun v => v.ptr) ∨
          ∃ k ∈ pre, x.ptr ∈ k.outputs.map (fun v => v.ptr) :=
  ⟨_, rfl, C3_topological_order_kept Example.testBasic [] Example.nvgpu _ (by decide) rfl⟩

/-- C4: on an NVGPU target, for a Program whose records are coherent, that is in
single-assignment form and whose matmul and elementwise_add Instructions have one
output each, whenever `ApplyImpl` fuses an elementwise_add `i` (marks it removed), the
result holds a `cublas_gemm` whose sole output `n` is a new Variable carrying the id of
the output `old` of `i`; every Instruction of the result that stems from an Instruction
`j` of the input Program has `n` at exactly the input positions where `j` had `old`, and
no input of any Instruction of the result refers to the object `old`. -/
theorem C4_fused_output_relinked (prog : Program) (F : List String) (target : Target)
    (r : Program × GemmRewriterPass) (ht : target.arch = Arch.NVGPU)
    (hc : prog.Coherent) (hssa : prog.SSA) (hs : prog.SingleOutput)
    (h : GemmRewriterPass.fresh.ApplyImpl prog F target = Except.ok r)
    (i : Instruction) (hi : i ∈ prog.instrs) (hadd : i.op_type = "elementwise_add")
    (hfused : i.ptr ∈ r.2.removed_instrs_) :
    ∃ old g n, i.outputs = [old] ∧ g ∈ r.1.instrs ∧ g.op_type = "cublas_gemm" ∧
      g.outputs = [n] ∧ n.id = old.id ∧ n.ptr ≠ old.ptr ∧
      (∀ j ∈ prog.instrs, ∀ j2 ∈ r.1.instrs, j2.ptr = j.ptr →
        j2.inputs.length = j.inputs.length ∧
        ∀ (k : Nat) (x : Variable), j.inputs[k]? = some x → (x.ptr = old.ptr ↔ j2.inputs[k]? = some n)) ∧
      (∀ j2 ∈ r.1.instrs, ∀ x ∈ j2.inputs, x.ptr ≠ old.ptr) := by
  obtain ⟨hr, hall⟩ := ApplyImpl_ok prog F target r ht h
  subst hr
  simp only [finalPass, collect_fresh_removed, List.append_nil] at hfused
  -- the add is fused
  have hfu : ∃ c old, Fused prog F i c old := by
    rcases removed_cases prog F hc prog.instrs (fun a ha => ha) i hi hfused with
      ⟨c, old, _, hf⟩ | ⟨a, ha, c, old, hf, hcm⟩
    · exact ⟨c, old, hf⟩
    · have := (fused_matmul_mem prog F a c old ha hf).2.1
      rw [hcm, hadd] at this
      exact absurd this (by decide)
  obtain ⟨c, old, hf⟩ := hfu
  obtain ⟨_, _, _, outs, _, hout, _⟩ := fused_shape prog F i c old hi hf
  obtain ⟨x0, hx0⟩ := length_one _ (hs i hi (Or.inr hadd))
  have hout1 : i.outputs = [old] := by
    rw [hx0] at hout ⊢
    simp only [List.cons.injEq] at hout
    rw [hout.1]
  obtain ⟨pre, post, hsplit⟩ := List.append_of_mem hi
  have hlook := origin_of_fused prog F hssa pre post i c old hsplit hf
  have hold_lt : old.ptr < prog.heapTop :=
    output_lt_heapTop prog i hi old (by rw [hout1]; simp)
  have hrel : ∀ x : Variable, x.ptr = old.ptr →
      (finalPass (GemmRewriterPass.fresh.CollectInfo prog) F prog).relink x =
        { ptr := prog.heapTop + numFused (GemmRewriterPass.fresh.CollectInfo prog) F post,
          id := old.id } := by
    intro x hx
    unfold GemmRewriterPass.relink
    rw [hx, hlook]
  have hrel_ne : ∀ x : Variable,
      ((finalPass (GemmRewriterPass.fresh.CollectInfo prog) F prog).relink x).ptr ≠ old.ptr := by
    intro x
    rcases relink_ptr_cases prog F x with ⟨e, hnone⟩ | ⟨_, _, post2, _, old2, _, _, _, e⟩
    · rw [e]
      intro hx
      rw [hx, hlook] at hnone
      simp at hnone
    · rw [e]
      simp only []
      omega
  refine ⟨old, relinkInstr (finalPass (GemmRewriterPass.fresh.CollectInfo prog) F prog)
      (gemmInstr (prog.heapTop + numFused (GemmRewriterPass.fresh.CollectInfo prog) F post) c old),
    { ptr := prog.heapTop + numFused (GemmRewriterPass.fresh.CollectInfo prog) F post,
      id := old.id }, hout1, ?_, rfl, rfl, rfl, ?_, ?_, ?_⟩
  · rw [mem_rewritten]
    refine ⟨_, ?_, rfl⟩
    rw [mem_emittedOf]
    exact Or.inr ⟨pre, i, post, c, old, hsplit, hf, rfl⟩
  · simp only []
    omega
  · intro j hj j2 hj2 hp
    obtain ⟨hj2eq, _⟩ := result_of_original prog F hc j hj j2 hj2 hp
    rw [hj2eq]
    simp only [relinkInstr, List.length_map, true_and]
    intro k x hk
    rw [List.getElem?_map, hk]
    simp only [Option.map_some', Option.some.injEq]
    constructor
    · exact hrel x
    · intro hx
      have hxlt : x.ptr < prog.heapTop :=
        input_lt_heapTop prog j hj x (List.getElem?_mem hk)
      rcases relink_ptr_cases prog F x with ⟨e, _⟩ | ⟨pre2, a, post2, c2, old2, hs2, hf2, hp2, e⟩
      · rw [e] at hx
        rw [hx] at hxlt
        simp only [] at hxlt
        omega
      · rw [e] at hx
        simp only [Variable.mk.injEq] at hx
        have hn : numFused (GemmRewriterPass.fresh.CollectInfo prog) F post2 =
            numFused (GemmRewriterPass.fresh.CollectInfo prog) F post := by omega
        have hsame := numFused_split_inj _ F pre2 post2 pre post a i (by rw [← hs2, ← hsplit])
          ⟨(c2, old2), hf2⟩ ⟨(c, old), hf⟩ hn
        obtain ⟨_, hai, _⟩ := hsame
        rw [hai] at hf2
        unfold Fused at hf hf2
        rw [hf] at hf2
        simp only [Except.ok.injEq, Option.some.injEq, Prod.mk.injEq] at hf2
        rw [← hp2, ← hf2.2]
  · intro j2 hj2 x hx
    obtain ⟨e, _, hje⟩ := (mem_rewritten prog F j2).mp hj2
    rw [hje] at hx
    simp only [relinkInstr, List.mem_map] at hx
    obtain ⟨y, _, hy⟩ := hx
    rw [← hy]
    exact hrel_ne y

/-- C4 at Scenario A: the add is fused, its reader `relu` is relinked to the output of
the fused Instruction. -/
theorem C4_witness :
    ∃ r, GemmRewriterPass.fresh.ApplyImpl Example.scenarioA ["R"] Example.nvgpu = Except.ok r ∧
    Example.addOut.ptr ∈ r.2.removed_instrs_ ∧
    ∃ old g n, Example.addOut.outputs = [old] ∧ g ∈ r.1.instrs ∧ g.op_type = "cublas_gemm" ∧
      g.outputs = [n] ∧ n.id = old.id ∧ n.ptr ≠ old.ptr ∧
      (∀ j ∈ Example.scenarioA.instrs, ∀ j2 ∈ r.1.instrs, j2.ptr = j.ptr →
        j2.inputs.length = j.inputs.length ∧
        ∀ (k : Nat) (x : Variable), j.inputs[k]? = some x → (x.ptr = old.ptr ↔ j2.inputs[k]? = some n)) ∧
      (∀ j2 ∈ r.1.instrs, ∀ x ∈ j2.inputs, x.ptr ≠ old.ptr) :=
  ⟨_, rfl, by decide,
    C4_fused_output_relinked Example.scenarioA ["R"] Example.nvgpu _ rfl (by decide) (by decide)
      (by decide) rfl Example.addOut (by decide) rfl (by decide)⟩

/-- C5 as stated fails: in `twoMatmuls` the elementwise_add reads `V2`, produced by the
matmul `matmulV2` with inputs (C, L), read by no other Instruction and no fetch id, yet
`matmulV2` stays in the result: the add is fused with the matmul of its first input. -/
theorem C5_counterexample :
    Example.twoMatmuls.Valid ∧ Example.twoMatmuls.WellTyped ∧
    Example.addBoth ∈ Example.twoMatmuls.instrs ∧
    Example.addBoth.op_type = "elementwise_add" ∧ Example.V2 ∈ Example.addBoth.inputs ∧
    Eligible Example.twoMatmuls [] Example.V2 Example.matmulV2 ∧
    readers Example.twoMatmuls.instrs Example.V2.ptr = 1 ∧
    ∃ r, GemmRewriterPass.fresh.ApplyImpl Example.twoMatmuls [] Example.nvgpu = Except.ok r ∧
      Example.matmulV2.ptr ∈ r.1.instrs.map (fun i => i.ptr) := by
  refine ⟨by decide, by decide, by decide, rfl, by decide, by decide, by decide, _, rfl, ?_⟩
  decide

/-- C5 (amended): on an NVGPU target, for a valid Program, if an elementwise_add `i`
reads a Variable `v` that is produced by a matmul `m` with inputs (a, b), occupies
exactly one input slot of the Program and is no fetch id, and `v` is the first input of
`i` or the first input of `i` is not itself such a Variable, then whenever `ApplyImpl`
does not fail fatally (it does not when every elementwise_add and every matmul of the
Program has two inputs and boolean `trans_a` / `trans_b` attributes), its result
contains neither `m` nor `i`, and contains a new Instruction of op type `cublas_gemm`
whose inputs are the relinked a, b, bias in this order (with the ids of a, b, bias),
where bias is the input of `i` other than `v`; exactly one Instruction of the result
has the output of that Instruction. -/
theorem C5_fusion_of_pair (prog : Program) (F : List String) (target : Target)
    (ht : target.arch = Arch.NVGPU) (hv : prog.Valid)
    (i m : Instruction) (v a b : Variable)
    (hi : i ∈ prog.instrs) (hadd : i.op_type = "elementwise_add") (hvin : v ∈ i.inputs)
    (hel : Eligible prog F v m) (hmin : m.inputs = [a, b])
    (hfirst : i.inputs.head? = some v ∨
      ∀ x0, i.inputs.head? = some x0 → ∀ m0 ∈ prog.instrs, ¬ Eligible prog F x0 m0) :
    (prog.WellTyped → ∃ r, GemmRewriterPass.fresh.ApplyImpl prog F target = Except.ok r) ∧
    ∀ r, GemmRewriterPass.fresh.ApplyImpl prog F target = Except.ok r →
      m.ptr ∉ r.1.instrs.map (fun j => j.ptr) ∧ i.ptr ∉ r.1.instrs.map (fun j => j.ptr) ∧
      ∃ g bias, (i.inputs = [v, bias] ∨ i.inputs = [bias, v]) ∧ g ∈ r.1.instrs ∧
        g.ptr ∉ prog.instrs.map (fun j => j.ptr) ∧ g.op_type = "cublas_gemm" ∧
        g.inputs = [r.2.relink a, r.2.relink b, r.2.relink bias] ∧
        g.inputs.map (fun x => x.id) = [a.id, b.id, bias.id] ∧
        (r.1.instrs.filter (fun g2 => decide (g2.outputs = g.outputs))).length = 1 := by
  have hne : prog.instrs ≠ [] := List.ne_nil_of_mem hi
  constructor
  · intro hw
    exact ⟨_, ApplyImpl_closed prog F target ht hne
      (fun j hj => fusionOf_ok prog F hw hv.2.2.2.2 j hj)⟩
  intro r hr
  obtain ⟨hreq, hall⟩ := ApplyImpl_ok prog F target r ht hr
  subst hreq
  simp only []
  obtain ⟨c, old, hf, hcv, hcm⟩ := fused_of_eligible prog F hv.2.2.1 i hi hadd (hall i hi) v m
    hvin hel (first_input_cond prog F i v hfirst)
  obtain ⟨habs_m, habs_i⟩ := fused_absent prog F hv i hi c old hf
  rw [hcm] at habs_m
  refine ⟨habs_m, habs_i, ?_⟩
  obtain ⟨pre, post, hsplit⟩ := List.append_of_mem hi
  obtain ⟨hg1, hg2, hg3⟩ := gemm_in_result prog F pre post i c old hsplit hf
  obtain ⟨_, in0, in1, outs, hin, _, hsel, _, _, _, _⟩ := fused_shape prog F i c old hi hf
  have hbias : i.inputs = [v, c.bias] ∨ i.inputs = [c.bias, v] := by
    rw [hin, ← hcv]
    rcases hsel with ⟨e1, e2⟩ | ⟨e1, e2, _⟩
    · left; rw [e1, e2]
    · right; rw [e1, e2]
  have hbm : c.bias ∈ i.inputs := (fused_var_mem prog F i c old hi hf).2.1
  refine ⟨_, c.bias, hbias, hg1, hg2, rfl, ?_, ?_, ?_⟩
  · simp [relinkInstr, gemmInstr, hcm, hmin]
  · simp only [relinkInstr, gemmInstr, hcm, hmin, List.cons_append, List.nil_append,
      List.map_cons, List.map_nil]
    rw [relink_id prog F hv.2.1 a (mem_vars_input prog m hel.1 a (by rw [hmin]; simp)),
      relink_id prog F hv.2.1 b (mem_vars_input prog m hel.1 b (by rw [hmin]; simp)),
      relink_id prog F hv.2.1 c.bias (mem_vars_input prog i hi c.bias hbm)]
  · exact gemm_count_one prog F pre post i c old hsplit hf

/-- C5 (amended) at Scenario A: `ApplyImpl` succeeds and the pair is fused. -/
theorem C5_witness :
    ∃ r, GemmRewriterPass.fresh.ApplyImpl Example.scenarioA ["R"] Example.nvgpu = Except.ok r ∧
      Example.matmulV.ptr ∉ r.1.instrs.map (fun j => j.ptr) ∧
      Example.addOut.ptr ∉ r.1.instrs.map (fun j => j.ptr) ∧
      ∃ g bias, (Example.addOut.inputs = [Example.V, bias] ∨
          Example.addOut.inputs = [bias, Example.V]) ∧ g ∈ r.1.instrs ∧
        g.ptr ∉ Example.scenarioA.instrs.map (fun j => j.ptr) ∧ g.op_type = "cublas_gemm" ∧
        g.inputs = [r.2.relink Example.A, r.2.relink Example.B, r.2.relink bias] ∧
        g.inputs.map (fun x => x.id) = [Example.A.id, Example.B.id, bias.id] ∧
        (r.1.instrs.filter (fun g2 => decide (g2.outputs = g.outputs))).length = 1 :=
  ⟨_, rfl,
    (C5_fusion_of_pair Example.scenarioA ["R"] Example.nvgpu rfl (by decide)
      Example.addOut Example.matmulV Example.V Example.A Example.B (by decide) rfl (by decide)
      (by decide) rfl (Or.inl rfl)).2 _ rfl⟩

/-- C6: for every Program, pass object and fetch-id set, if the target architecture
is not NVGPU or the Program has no Instructions, `ApplyImpl` returns without error
and leaves the Program (Instruction sequence, inputs of every Instruction, Program
inputs) and the pass object unchanged. -/
theorem C6_no_op_off_target (self : GemmRewriterPass) (prog : Program) (F : List String)
    (target : Target) (h : target.arch ≠ Arch.NVGPU ∨ prog.instrs = []) :
    self.ApplyImpl prog F target = Except.ok (prog, self) :=
  ApplyImpl_skip self prog F target h

/-- C6 at a Program that holds a fusable matmul + elementwise_add pair and a
malformed elementwise_add, on an X86 target. -/
theorem C6_witness :
    GemmRewriterPass.fresh.ApplyImpl Example.withMalformed [] Example.x86 =
      Except.ok (Example.withMalformed, GemmRewriterPass.fresh) :=
  C6_no_op_off_target GemmRewriterPass.fresh Example.withMalformed [] Example.x86
    (Or.inl (by decide))

/-- C7 as stated fails: the Program `onlyMalformed` has no elementwise_add with an
input that is produced by a matmul, yet on an NVGPU target `ApplyImpl` aborts on the
arity check instead of returning the Program. -/
theorem C7_counterexample :
    (∀ i ∈ Example.onlyMalformed.instrs, i.op_type = "elementwise_add" →
      ∀ v ∈ i.inputs, ∀ m ∈ Example.onlyMalformed.instrs,
        ¬ Eligible Example.onlyMalformed [] v m) ∧
    GemmRewriterPass.fresh.ApplyImpl Example.onlyMalformed [] Example.nvgpu =
      Except.error Fatal.elementwise_arity := by
  constructor
  · decide
  · rfl

/-- C7 (amended): on an NVGPU target, if every elementwise_add has exactly two
inputs and no elementwise_add has an input that is produced by a matmul, occupies
exactly one input slot of the Program and is no fetch id, then `ApplyImpl` succeeds
and returns the input Program itself: the same Instructions in the same order with
unchanged inputs and outputs, and the same Program inputs. -/
theorem C7_no_candidate_no_change (prog : Program) (F : List String) (target : Target)
    (ht : target.arch = Arch.NVGPU)
    (harity : ∀ i ∈ prog.instrs, i.op_type = "elementwise_add" → i.inputs.length = 2)
    (hne : ∀ i ∈ prog.instrs, i.op_type = "elementwise_add" →
      ∀ v ∈ i.inputs, ∀ m ∈ prog.instrs, ¬ Eligible prog F v m) :
    ∃ st, GemmRewriterPass.fresh.ApplyImpl prog F target = Except.ok (prog, st) := by
  by_cases hnil : prog.instrs = []
  · exact ⟨_, ApplyImpl_skip _ prog F target (Or.inr hnil)⟩
  · have hnone : ∀ i ∈ prog.instrs,
        fusionOf (GemmRewriterPass.fresh.CollectInfo prog) F i = Except.ok none := by
      intro i hi
      apply fusionOf_ok_none prog F i hi (harity i hi)
      intro ha v hv m hm
      exact hne i hi ha v hv m hm.1 hm
    refine ⟨finalPass (GemmRewriterPass.fresh.CollectInfo prog) F prog, ?_⟩
    rw [ApplyImpl_closed prog F target ht hnil (fun i hi => ⟨none, hnone i hi⟩),
      rewritten_no_fusion prog F hnone]

/-- C7 (amended) at Scenario B: the matmul output V is read by the add and by a
third Instruction, and all three Instructions remain in the original order. -/
theorem C7_witness :
    ∃ st, GemmRewriterPass.fresh.ApplyImpl Example.scenarioB ["R"] Example.nvgpu =
      Except.ok (Example.scenarioB, st) :=
  C7_no_candidate_no_change Example.scenarioB ["R"] Example.nvgpu rfl (by decide) (by decide)

/-- C8: on an NVGPU target, for a valid Program on which `ApplyImpl` succeeds and an
elementwise_add `i` with inputs (v0, v1): if both v0 and v1 are eligible (a matmul
output that occupies one input slot and is no fetch id), the matmul producing v0 is
absorbed, the fused Instruction has the inputs of that matmul followed by v1 as bias,
and the matmul producing v1 stays in the result; if v0 is not eligible but v1 is, the
matmul producing v1 is absorbed and the fused Instruction has its inputs followed by
v0 as bias. The inputs of the fused Instruction are stated after the relinking loop. -/
theorem C8_first_match_wins (prog : Program) (F : List String) (target : Target)
    (r : Program × GemmRewriterPass) (ht : target.arch = Arch.NVGPU) (hv : prog.Valid)
    (h : GemmRewriterPass.fresh.ApplyImpl prog F target = Except.ok r)
    (i : Instruction) (v0 v1 : Variable) (hi : i ∈ prog.instrs)
    (hadd : i.op_type = "elementwise_add") (hin : i.inputs = [v0, v1]) :
    (∀ m0 m1, Eligible prog F v0 m0 → Eligible prog F v1 m1 →
      m0.ptr ∉ r.1.instrs.map (fun j => j.ptr) ∧ m1.ptr ∈ r.1.instrs.map (fun j => j.ptr) ∧
      ∃ g ∈ r.1.instrs, g.op_type = "cublas_gemm" ∧
        g.inputs = (m0.inputs ++ [v1]).map r.2.relink) ∧
    (∀ m1, (∀ m0 ∈ prog.instrs, ¬ Eligible prog F v0 m0) → Eligible prog F v1 m1 →
      m1.ptr ∉ r.1.instrs.map (fun j => j.ptr) ∧
      ∃ g ∈ r.1.instrs, g.op_type = "cublas_gemm" ∧
        g.inputs = (m1.inputs ++ [v0]).map r.2.relink) := by
  obtain ⟨hr, hall⟩ := ApplyImpl_ok prog F target r ht h
  subst hr
  simp only []
  obtain ⟨pre, post, hsplit⟩ := List.append_of_mem hi
  constructor
  · intro m0 m1 hel0 hel1
    obtain ⟨c, old, hf, hcv, hcm⟩ := fused_of_eligible prog F hv.2.2.1 i hi hadd (hall i hi)
      v0 m0 (by rw [hin]; simp) hel0 (by
        intro x0 x1 hx
        rw [hin] at hx
        simp only [List.cons.injEq, and_true] at hx
        exact Or.inl hx.1)
    obtain ⟨habs, _⟩ := fused_absent prog F hv i hi c old hf
    obtain ⟨hg1, _, _⟩ := gemm_in_result prog F pre post i c old hsplit hf
    obtain ⟨_, in0, in1, outs, hin2, _, hsel, hne, _, _, _⟩ := fused_shape prog F i c old hi hf
    rw [hin] at hin2
    simp only [List.cons.injEq, and_true] at hin2
    obtain ⟨e0, e1⟩ := hin2
    subst e0 e1
    have hbias : c.bias = v1 := by
      rcases hsel with ⟨_, e2⟩ | ⟨e1, _, _⟩
      · exact e2
      · exfalso
        rw [hcv] at e1
        exact hne (by rw [e1])
    rw [hcm] at habs
    refine ⟨habs, ?_, _, hg1, rfl, ?_⟩
    · -- the matmul of the second input stays
      rw [rewritten_ptrs]
      apply List.mem_map_of_mem
      have hnf : ∀ p, fusionOf (GemmRewriterPass.fresh.CollectInfo prog) F m1 ≠
          Except.ok (some p) := by
        intro p hp
        have := (fusionOf_some _ F m1 p.1 p.2 hp).1
        rw [hel1.2.1] at this
        exact absurd this (by decide)
      apply kept_of_not_removed prog F m1 hel1.1 hnf
      intro hrem
      rcases removed_cases prog F hv.2.1 prog.instrs (fun a ha => ha) m1 hel1.1 hrem with
        ⟨c2, old2, _, hf2⟩ | ⟨a, ha, c2, old2, hf2, hcm2⟩
      · exact hnf (c2, old2) hf2
      · have hm2 := fused_matmul_mem prog F a c2 old2 ha hf2
        have hv2 := fused_var_mem prog F a c2 old2 ha hf2
        rw [hcm2] at hm2
        obtain ⟨o, ho⟩ := length_one _ (hv.2.2.2.2 m1 hel1.1 (Or.inl hel1.2.1))
        have hp1 := hel1.2.2.1
        have hp2 := hm2.2.2
        rw [ho] at hp1 hp2
        simp only [List.map_cons, List.map_nil, List.mem_singleton] at hp1 hp2
        have hsame : c2.var.ptr = v1.ptr := by rw [hp1, hp2]
        have hai : a = i := by
          by_contra hne2
          have := useCount_two prog.instrs a i ha hi hne2 v1.ptr
            (by rw [← hsame]; exact List.mem_map_of_mem _ hv2.1)
            (by rw [hin]; simp)
          have := hel1.2.2.2.1
          omega
        rw [hai] at hf2
        unfold Fused at hf hf2
        rw [hf] at hf2
        simp only [Except.ok.injEq, Option.some.injEq, Prod.mk.injEq] at hf2
        rw [← hf2.1, hcv] at hsame
        exact hne hsame
    · simp only [relinkInstr, gemmInstr, hcm, hbias]
  · intro m1 hne0 hel1
    obtain ⟨c, old, hf, hcv, hcm⟩ := fused_of_eligible prog F hv.2.2.1 i hi hadd (hall i hi)
      v1 m1 (by rw [hin]; simp) hel1 (by
        intro x0 x1 hx
        rw [hin] at hx
        simp only [List.cons.injEq, and_true] at hx
        right
        rw [← hx.1]
        exact hne0)
    obtain ⟨habs, _⟩ := fused_absent prog F hv i hi c old hf
    obtain ⟨hg1, _, _⟩ := gemm_in_result prog F pre post i c old hsplit hf
    obtain ⟨_, in0, in1, outs, hin2, _, hsel, hne, _, helc, _⟩ := fused_shape prog F i c old hi hf
    rw [hin] at hin2
    simp only [List.cons.injEq, and_true] at hin2
    obtain ⟨e0, e1⟩ := hin2
    subst e0 e1
    have hbias : c.bias = v0 := by
      rcases hsel with ⟨e1, _⟩ | ⟨_, e2, _⟩
      · exfalso
        rw [hcv] at e1
        exact hne (by rw [e1])
      · exact e2
    rw [hcm] at habs
    refine ⟨habs, _, hg1, rfl, ?_⟩
    simp only [relinkInstr, gemmInstr, hcm, hbias]

/-- C8 at the Program `twoMatmuls`: both inputs of the add are eligible; the matmul of
the first input is absorbed, the second input is the bias and its matmul stays. -/
theorem C8_witness :
    ∃ r, GemmRewriterPass.fresh.ApplyImpl Example.twoMatmuls [] Example.nvgpu = Except.ok r ∧
      Example.matmulV.ptr ∉ r.1.instrs.map (fun j => j.ptr) ∧
      Example.matmulV2.ptr ∈ r.1.instrs.map (fun j => j.ptr) ∧
      ∃ g ∈ r.1.instrs, g.op_type = "cublas_gemm" ∧
        g.inputs = (Example.matmulV.inputs ++ [Example.V2]).map r.2.relink :=
  ⟨_, rfl,
    (C8_first_match_wins Example.twoMatmuls [] Example.nvgpu _ rfl (by decide) rfl
      Example.addBoth Example.V Example.V2 (by decide) rfl rfl).1
      Example.matmulV Example.matmulV2 (by decide) (by decide)⟩

/-- C9: whenever `DoGemmFusion` fuses an elementwise_add with a matmul `m` (the
Instruction recorded as producer of one of its inputs, which it marks removed), the
fused Instruction it emits is a `cublas_gemm` with exactly the two attributes
`trans_a` and `trans_b`, both boolean; each equals the boolean attribute of that
name of `m` when `m` has one, and false when `m` has none. -/
theorem C9_fused_attributes (self : GemmRewriterPass) (b : CinnBuilder) (instr : Instruction)
    (F : List String) (self1 : GemmRewriterPass) (b1 : CinnBuilder)
    (h : self.DoGemmFusion b instr F = Except.ok (true, self1, b1)) :
    ∃ m v g ta tb, v ∈ instr.inputs ∧ self.output2instr_.lookup v.ptr = some m ∧
      m.op_type = "matmul" ∧
      self1.removed_instrs_ = instr.ptr :: m.ptr :: self.removed_instrs_ ∧
      b1.instrs_.getLast? = some g ∧ g.op_type = "cublas_gemm" ∧
      g.attrs = [("trans_a", AttrType.bool ta), ("trans_b", AttrType.bool tb)] ∧
      (m.attrs.lookup "trans_a" = some (AttrType.bool ta) ∨
        (m.attrs.lookup "trans_a" = none ∧ ta = false)) ∧
      (m.attrs.lookup "trans_b" = some (AttrType.bool tb) ∨
        (m.attrs.lookup "trans_b" = none ∧ tb = false)) := by
  rw [DoGemmFusion_eq] at h
  cases hp : planOf self.output2instr_ self.var_used_count_ F instr with
  | error e => rw [hp] at h; simp at h
  | ok r =>
    rw [hp] at h
    cases r with
    | none => simp at h
    | some p =>
      obtain ⟨c, old⟩ := p
      simp only [Except.ok.injEq, Prod.mk.injEq, true_and] at h
      obtain ⟨h1, h2⟩ := h
      unfold planOf at hp
      split at hp
      · rename_i in0 in1 hin
        cases hq : pickCandidate self.output2instr_ self.var_used_count_ F in0 in1 [in0, in1] with
        | error e => rw [hq] at hp; simp at hp
        | ok r2 =>
          rw [hq] at hp
          cases r2 with
          | none => simp at hp
          | some c2 =>
            simp only [] at hp
            have hc : c2 = c := by
              split at hp
              · split at hp
                · simp only [Except.ok.injEq, Option.some.injEq, Prod.mk.injEq] at hp
                  exact hp.1
                · simp at hp
              · simp at hp
            subst hc
            obtain ⟨l1, l2, e, _, hacc, _, hta, htb⟩ := pick_some _ _ _ _ _ _ _ hq
            refine ⟨c2.matmul, c2.var, ?_, c2.trans_a, c2.trans_b, ?_, hacc.1, hacc.2.1, ?_, ?_, ?_,
              ?_, hta, htb⟩
            · exact { ptr := b.next_obj, op_type := "cublas_gemm",
                      inputs := c2.matmul.inputs ++ [c2.bias],
                      outputs := [{ ptr := b.next_obj, id := old.id }],
                      attrs := [("trans_a", AttrType.bool c2.trans_a),
                                ("trans_b", AttrType.bool c2.trans_b)] }
            · rw [hin, e]; simp
            · rw [← h1]
            · rw [← h2]
              simp [CinnBuilder.CustomInstr, CinnBuilder.SetVarId, List.getLast?_append]
            · rfl
            · rfl
      · simp at hp

/-- C9 at Scenario A: the matmul carries `trans_a = true` and no `trans_b`. -/
theorem C9_witness :
    ∃ self1 b1,
      (GemmRewriterPass.fresh.CollectInfo Example.scenarioA).DoGemmFusion
        { name := "b", instrs_ := [], inputs_ := [], next_obj := 15 } Example.addOut [] =
        Except.ok (true, self1, b1) ∧
      ∃ m v g ta tb, v ∈ Example.addOut.inputs ∧
        (GemmRewriterPass.fresh.CollectInfo Example.scenarioA).output2instr_.lookup v.ptr =
          some m ∧
        m.op_type = "matmul" ∧
        self1.removed_instrs_ = Example.addOut.ptr :: m.ptr ::
          (GemmRewriterPass.fresh.CollectInfo Example.scenarioA).removed_instrs_ ∧
        b1.instrs_.getLast? = some g ∧ g.op_type = "cublas_gemm" ∧
        g.attrs = [("trans_a", AttrType.bool ta), ("trans_b", AttrType.bool tb)] ∧
        (m.attrs.lookup "trans_a" = some (AttrType.bool ta) ∨
          (m.attrs.lookup "trans_a" = none ∧ ta = false)) ∧
        (m.attrs.lookup "trans_b" = some (AttrType.bool tb) ∨
          (m.attrs.lookup "trans_b" = none ∧ tb = false)) :=
  ⟨_, _, rfl,
    C9_fused_attributes (GemmRewriterPass.fresh.CollectInfo Example.scenarioA)
      { name := "b", instrs_ := [], inputs_ := [], next_obj := 15 } Example.addOut [] _ _ rfl⟩

/-- C10: on an NVGPU target, a Program that contains, at any position, an
elementwise_add whose number of inputs is not 2 makes `ApplyImpl` fail fatally, so no
rewritten Program is produced, whatever its inputs are; the failure is the arity
check itself whenever the visit of no Instruction standing after it fails first. -/
theorem C10_malformed_add_is_fatal (prog : Program) (F : List String) (target : Target)
    (pre post : List Instruction) (i : Instruction)
    (ht : target.arch = Arch.NVGPU) (hs : prog.instrs = pre ++ i :: post)
    (ha : i.op_type = "elementwise_add") (hn : i.inputs.length ≠ 2) :
    (∃ e, GemmRewriterPass.fresh.ApplyImpl prog F target = Except.error e) ∧
    ((∀ j ∈ post, ∃ r, fusionOf (GemmRewriterPass.fresh.CollectInfo prog) F j = Except.ok r) →
      GemmRewriterPass.fresh.ApplyImpl prog F target = Except.error Fatal.elementwise_arity) := by
  have hf := fusionOf_arity (GemmRewriterPass.fresh.CollectInfo prog) F i ha hn
  constructor
  · apply ApplyImpl_error prog F target ht
    exact ⟨i, by rw [hs]; simp, _, hf⟩
  · intro hpost
    exact ApplyImpl_arity_error prog F target pre post i ht hs hf hpost

/-- C10 at the Program `matmul, add, three-input add`: the malformed add stands last
and none of its inputs is a matmul output. -/
theorem C10_witness :
    (∃ e, GemmRewriterPass.fresh.ApplyImpl Example.withMalformed [] Example.nvgpu =
      Except.error e) ∧
    ((∀ j ∈ ([] : List Instruction), ∃ r,
        fusionOf (GemmRewriterPass.fresh.CollectInfo Example.withMalformed) [] j = Except.ok r) →
      GemmRewriterPass.fresh.ApplyImpl Example.withMalformed [] Example.nvgpu =
        Except.error Fatal.elementwise_arity) :=
  C10_malformed_add_is_fatal Example.withMalformed [] Example.nvgpu
    [Example.matmulV, Example.addOut] [] Example.addThree rfl rfl rfl (by decide)

end frontend

namespace poly

/-- C11: let the dimension `i` of a set be fixed to the single value `v`: the set has
constant bounds of `i` whose largest lower and smallest upper bound are both `v`
(as in `{ s[i=0,j] : ... }` or `{ s[i,j] : 0 <= i and i <= 0 and ... }`), or `i` is
constrained by constant bounds only, the set is not empty and all its points have
`i = v`. Then every point of the set has `i = v`, and `TransIdentityExtentToContextId`
yields a set with the same tuple and dimensions and the additional parameter `K`,
named `_const_` followed by `v`, in which `i` carries the constraints `v <= i`,
`i <= K` and `K < v + 1` (`0 <= i <= K` and `K < 1` for `v = 0`) and, unless `i` itself
bears such a parameter name, no constant upper bound, so that `i` is no longer fixed
by constant bounds; every point of the corrected set has `i = v` and `K = v`, and for
the parameter values `K = v` the corrected set has exactly the points of the
original set. -/
theorem C11_fixed_dimension_gets_range (set : IslSet) (i : String) (v : Int)
    (hi : i ∈ set.dims)
    (hfix : set.fixedValue i = some v ∨
      ((∀ c ∈ set.conds, c.mentions i = true → c.isBoundOf i = true) ∧
        (∃ env0, set.contains env0 = true) ∧
        ∀ env, set.contains env = true → env i = v)) :
    set.fixedValue i = some v ∧
      (∀ env, set.contains env = true → env i = v) ∧
      constParamName v = kIslParamConstPrefix ++ toString v ∧
      constParamName v ∈ (TransIdentityExtentToContextId set).params ∧
      (TransIdentityExtentToContextId set).tuple = set.tuple ∧
      (TransIdentityExtentToContextId set).dims = set.dims ∧
      Constraint.le (Term.num v) (Term.name i) ∈ (TransIdentityExtentToContextId set).conds ∧
      Constraint.le (Term.name i) (Term.name (constParamName v)) ∈
        (TransIdentityExtentToContextId set).conds ∧
      Constraint.lt (Term.name (constParamName v)) (Term.num (v + 1)) ∈
        (TransIdentityExtentToContextId set).conds ∧
      ((∀ w, i ≠ constParamName w) →
        (TransIdentityExtentToContextId set).uppers i = [] ∧
          (TransIdentityExtentToContextId set).fixedValue i = none) ∧
      (∀ env, (TransIdentityExtentToContextId set).contains env = true →
        env i = v ∧ env (constParamName v) = v) ∧
      (∀ env, (∀ d ∈ set.fixedDims, env (constParamName d.2) = d.2) →
        ((TransIdentityExtentToContextId set).contains env = true ↔
          set.contains env = true)) := by
  have hfv : set.fixedValue i = some v := by
    rcases hfix with h | ⟨hbox, ⟨env0, h0⟩, hall⟩
    · exact h
    · exact fixed_complete set i v hbox env0 h0 hall
  have hf : (i, v) ∈ set.fixedDims := (mem_fixedDims set i v).2 ⟨hi, hfv⟩
  have hc : ∀ c ∈ rangeConds (i, v), c ∈ (TransIdentityExtentToContextId set).conds := by
    intro c hc
    unfold TransIdentityExtentToContextId
    exact List.mem_append_left _ (List.mem_flatMap.2 ⟨(i, v), hf, hc⟩)
  refine ⟨hfv, fun env h => fixed_sound set i v hfv env h, rfl, ?_, rfl, rfl, ?_, ?_, ?_, ?_,
    ?_, ?_⟩
  · unfold TransIdentityExtentToContextId
    exact List.mem_append_right _ (List.mem_map.2 ⟨(i, v), hf, rfl⟩)
  · exact hc _ (by simp [rangeConds])
  · exact hc _ (by simp [rangeConds])
  · exact hc _ (by simp [rangeConds])
  · intro hname
    exact ⟨trans_uppers_nil set i v hi hfv hname, trans_not_fixed set i v hi hfv hname⟩
  · intro env h
    have := ((trans_contains_iff set env).1 h).1 (i, v) hf
    simp only at this
    constructor <;> omega
  · intro env hK
    exact trans_equiv set env hK

/-- C11 at the set `{ s[i,j] : 0 <= i and i <= 0 and 0 <= j and j <= 9 }`: the corrected set
is `[_const_0] -> { s[i,j] : 0 <= i and i <= _const_0 and _const_0 < 1 and 0 <= j and
j <= 9 }`, the same as for `{ s[i=0,j] : 0 <= j and j <= 9 }`, and the point
`i = 0, j = 3` with `_const_0 = 0` lies in both sets. -/
theorem C11_witness :
    TransIdentityExtentToContextId Example.zeroRange =
        { params := ["_const_0"], tuple := "s", dims := ["i", "j"],
          conds := [Constraint.le (Term.num 0) (Term.name "i"),
                    Constraint.le (Term.name "i") (Term.name "_const_0"),
                    Constraint.lt (Term.name "_const_0") (Term.num 1),
                    Constraint.le (Term.num 0) (Term.name "j"),
                    Constraint.le (Term.name "j") (Term.num 9)] } ∧
      TransIdentityExtentToContextId Example.fixedI =
        TransIdentityExtentToContextId Example.zeroRange ∧
      "_const_0" ∈ (TransIdentityExtentToContextId Example.zeroRange).params ∧
      Example.zeroRange.contains Example.atZero = true ∧
      (TransIdentityExtentToContextId Example.zeroRange).contains Example.atZero = true :=
  ⟨by decide, by decide,
    (C11_fixed_dimension_gets_range Example.zeroRange "i" 0 (by decide)
      (Or.inl (by decide))).2.2.2.1,
    by decide,
    ((C11_fixed_dimension_gets_range Example.zeroRange "i" 0 (by decide)
      (Or.inl (by decide))).2.2.2.2.2.2.2.2.2.2.2
      Example.atZero (by decide)).2 (by decide)⟩

end poly

namespace frontend

/-- C12 as stated fails: in the valid Program `sameInputTwice` the matmul output `V` is
read by one Instruction only, `elementwise_add(V, V)`, yet `CollectInfo` leaves the use
counter of `V` at 2: the add counts twice, not once. -/
theorem C12_counterexample :
    Example.sameInputTwice.Valid ∧
      readers Example.sameInputTwice.instrs Example.V.ptr = 1 ∧
      (GemmRewriterPass.fresh.CollectInfo Example.sameInputTwice).var_used_count_.lookup
        Example.V.ptr = some 2 := by
  refine ⟨by decide, by decide, rfl⟩

/-- C12 (amended): after `CollectInfo` on a newly constructed pass object, the use
counter of every Variable object `p` equals the number of input slots of Instructions
of the Program that hold it (no entry when there is none), so an Instruction that
lists the Variable twice counts twice; it equals the number of Instructions that read
the Variable when no Instruction lists a Variable twice. The producer recorded for `p`
is the first Instruction that has `p` among its outputs, which for a Program in
single-assignment form is the Instruction that outputs it. -/
theorem C12_collect_info_tables (prog : Program) (p : Nat) :
    ((GemmRewriterPass.fresh.CollectInfo prog).var_used_count_.lookup p).getD 0 =
        useCount prog.instrs p ∧
      ((GemmRewriterPass.fresh.CollectInfo prog).var_used_count_.lookup p = none ↔
        useCount prog.instrs p = 0) ∧
      ((∀ i ∈ prog.instrs, (i.inputs.map (fun v => v.ptr)).Nodup) →
        ((GemmRewriterPass.fresh.CollectInfo prog).var_used_count_.lookup p).getD 0 =
          readers prog.instrs p) ∧
      (GemmRewriterPass.fresh.CollectInfo prog).output2instr_.lookup p =
        prog.instrs.find? (fun i => decide (p ∈ i.outputs.map (fun v => v.ptr))) ∧
      ((prog.instrs.flatMap (fun i => i.outputs.map (fun v => v.ptr))).Nodup →
        ∀ i ∈ prog.instrs, p ∈ i.outputs.map (fun v => v.ptr) →
          (GemmRewriterPass.fresh.CollectInfo prog).output2instr_.lookup p = some i) := by
  have hu := collect_fresh_used prog p
  have h1 : ((GemmRewriterPass.fresh.CollectInfo prog).var_used_count_.lookup p).getD 0 =
      useCount prog.instrs p := by
    rw [hu]
    by_cases h0 : useCount prog.instrs p = 0
    · rw [if_pos h0, h0]; rfl
    · rw [if_neg h0]; rfl
  refine ⟨h1, ?_, ?_, ?_, ?_⟩
  · rw [hu]
    by_cases h0 : useCount prog.instrs p = 0
    · rw [if_pos h0]; exact ⟨fun _ => h0, fun _ => rfl⟩
    · rw [if_neg h0]; exact ⟨fun h => Option.noConfusion h, fun h => absurd h h0⟩
  · intro hn
    rw [h1]
    exact useCount_eq_readers prog.instrs p hn
  · rw [collect_fresh_o2i]; rfl
  · intro hn i hi hp
    rw [collect_fresh_o2i]
    exact producerOf_of_nodup prog.instrs hn i hi p hp

/-- C12 (amended) at the dataflow of the test `GemmRwriter.Basic` and the matmul output
`d`, read by the subtraction and by one add: its use counter is 2, the number of its
readers, and its recorded producer is the matmul. -/
theorem C12_witness :
    ((GemmRewriterPass.fresh.CollectInfo Example.testBasic).var_used_count_.lookup
        Example.D.ptr).getD 0 = readers Example.testBasic.instrs Example.D.ptr ∧
      readers Example.testBasic.instrs Example.D.ptr = 2 ∧
      (GemmRewriterPass.fresh.CollectInfo Example.testBasic).output2instr_.lookup
        Example.D.ptr = some Example.matmulD :=
  ⟨(C12_collect_info_tables Example.testBasic Example.D.ptr).2.2.1 (by decide), by decide,
    (C12_collect_info_tables Example.testBasic Example.D.ptr).2.2.2.2 (by decide)
      Example.matmulD (by decide) (by decide)⟩

/-- C13: for a valid Program and an NVGPU target on which `ApplyImpl` succeeds, the
Instructions marked removed are exactly the fused elementwise_adds and the absorbed
matmuls; every other Instruction of the input Program occurs in the result (with its
inputs relinked) exactly once, the surviving Instructions form, in their input order,
a subsequence of the result, and so any two of them stand in the result in the same
relative order as in the input. -/
theorem C13_survivors_once_in_order (prog : Program) (F : List String) (target : Target)
    (r : Program × GemmRewriterPass) (hv : prog.Valid) (ht : target.arch = Arch.NVGPU)
    (h : GemmRewriterPass.fresh.ApplyImpl prog F target = Except.ok r) :
    (∀ i ∈ prog.instrs, (i.ptr ∈ r.2.removed_instrs_ ↔
      ((∃ c old, Fused prog F i c old) ∨
        ∃ a ∈ prog.instrs, ∃ c old, Fused prog F a c old ∧ c.matmul = i))) ∧
    (∀ i ∈ prog.instrs, i.ptr ∉ r.2.removed_instrs_ →
      relinkInstr r.2 i ∈ r.1.instrs ∧ (r.1.instrs.map (fun j => j.ptr)).count i.ptr = 1) ∧
    ((prog.instrs.filter (fun i => decide (i.ptr ∉ r.2.removed_instrs_))).map
      (relinkInstr r.2)).Sublist r.1.instrs ∧
    (∀ pre i mid j post, prog.instrs = pre ++ i :: (mid ++ j :: post) →
      i.ptr ∉ r.2.removed_instrs_ → j.ptr ∉ r.2.removed_instrs_ →
      ∃ x y z, r.1.instrs = x ++ relinkInstr r.2 i :: (y ++ relinkInstr r.2 j :: z)) := by
  obtain ⟨hr, _⟩ := ApplyImpl_ok prog F target r ht h
  subst hr
  simp only [final_removed]
  have hsub : ((prog.instrs.filter (fun i => decide (i.ptr ∉
      removedOf (GemmRewriterPass.fresh.CollectInfo prog) F prog.instrs))).map
      (relinkInstr (finalPass (GemmRewriterPass.fresh.CollectInfo prog) F prog))).Sublist
      (rewritten F prog).instrs := by
    unfold rewritten
    exact List.Sublist.map _ (survivors_sublist _ F prog.heapTop [] _ prog.instrs
      (fun p hp => by simpa using hp))
  refine ⟨fun i hi => removed_iff prog F hv.2.1 i hi, ?_, hsub, ?_⟩
  · intro i hi hnr
    have hnf : ∀ p, fusionOf (GemmRewriterPass.fresh.CollectInfo prog) F i ≠
        Except.ok (some p) := by
      intro p hp
      exact hnr ((mem_removedOf _ F prog.instrs i.ptr).2 ⟨i, hi, p.1, p.2, hp, Or.inl rfl⟩)
    have hmem := kept_of_not_removed prog F i hi hnf hnr
    have hin : relinkInstr (finalPass (GemmRewriterPass.fresh.CollectInfo prog) F prog) i ∈
        (rewritten F prog).instrs := (mem_rewritten prog F _).2 ⟨i, hmem, rfl⟩
    refine ⟨hin, ?_⟩
    apply List.count_eq_one_of_mem
    · rw [rewritten_ptrs]
      exact emitted_nodup _ F prog.heapTop [] prog.instrs hv.1 (instr_lt_heapTop prog)
    · exact List.mem_map.2 ⟨_, hin, rfl⟩
  · intro pre i mid j post hs hi hj
    generalize removedOf (GemmRewriterPass.fresh.CollectInfo prog) F prog.instrs = R at hsub hi hj
    apply sublist_pair_split (rewritten F prog).instrs
      ((pre.filter (fun i => decide (i.ptr ∉ R))).map
        (relinkInstr (finalPass (GemmRewriterPass.fresh.CollectInfo prog) F prog)))
      ((mid.filter (fun i => decide (i.ptr ∉ R))).map
        (relinkInstr (finalPass (GemmRewriterPass.fresh.CollectInfo prog) F prog)))
      ((post.filter (fun i => decide (i.ptr ∉ R))).map
        (relinkInstr (finalPass (GemmRewriterPass.fresh.CollectInfo prog) F prog)))
    rw [hs, List.filter_append, List.filter_cons_of_pos (by simpa using hi),
      List.filter_append, List.filter_cons_of_pos (by simpa using hj)] at hsub
    simpa using hsub

/-- C13 at the dataflow of the test `GemmRwriter.Basic`, where one add is fused with
one matmul and four Instructions survive. -/
theorem C13_witness :
    ∃ r, GemmRewriterPass.fresh.ApplyImpl Example.testBasic [] Example.nvgpu = Except.ok r ∧
      (∀ i ∈ Example.testBasic.instrs, i.ptr ∉ r.2.removed_instrs_ →
        relinkInstr r.2 i ∈ r.1.instrs ∧
          (r.1.instrs.map (fun j => j.ptr)).count i.ptr = 1) ∧
      ((Example.testBasic.instrs.filter (fun i => decide (i.ptr ∉ r.2.removed_instrs_))).map
        (relinkInstr r.2)).Sublist r.1.instrs :=
  ⟨_, rfl,
    (C13_survivors_once_in_order Example.testBasic [] Example.nvgpu _ (by decide) rfl rfl).2.1,
    (C13_survivors_once_in_order Example.testBasic [] Example.nvgpu _ (by decide) rfl rfl).2.2.1⟩

/-- C14: for a valid Program of n Instructions and an NVGPU target on which `ApplyImpl`
succeeds with k fusions, the Instructions of the result are exactly the input
sequence with each absorbed matmul deleted (an Instruction that is not a fused add is
marked removed exactly when it is the matmul of a fused add) and each fused
elementwise_add replaced where it stands by its `cublas_gemm`, inputs relinked; the
result has n - k Instructions; and a fused elementwise_add that splits the input into
`pre` and `post` gives a `cublas_gemm` with three inputs that splits the result into
the images of `pre` and `post`, each of its inputs being a Program input or an output
of an Instruction standing before it. -/
theorem C14_result_in_place (prog : Program) (F : List String) (target : Target)
    (r : Program × GemmRewriterPass) (hv : prog.Valid) (ht : target.arch = Arch.NVGPU)
    (h : GemmRewriterPass.fresh.ApplyImpl prog F target = Except.ok r) :
    r.1.instrs =
        (replacedInPlace (GemmRewriterPass.fresh.CollectInfo prog) F prog.heapTop
          r.2.removed_instrs_ prog.instrs).map (relinkInstr r.2) ∧
      (∀ i ∈ prog.instrs, (∀ c old, ¬ Fused prog F i c old) →
        (i.ptr ∈ r.2.removed_instrs_ ↔
          ∃ a ∈ prog.instrs, ∃ c old, Fused prog F a c old ∧ c.matmul = i)) ∧
      r.1.instrs.length + numFused (GemmRewriterPass.fresh.CollectInfo prog) F prog.instrs =
        prog.instrs.length ∧
      r.1.instrs.length =
        prog.instrs.length - numFused (GemmRewriterPass.fresh.CollectInfo prog) F prog.instrs ∧
      ∀ pre a post c old, prog.instrs = pre ++ a :: post → Fused prog F a c old →
        ∃ pre2 g post2, r.1.instrs = pre2 ++ g :: post2 ∧
          pre2 = (replacedInPlace (GemmRewriterPass.fresh.CollectInfo prog) F
            (prog.heapTop + numFused (GemmRewriterPass.fresh.CollectInfo prog) F post + 1)
            r.2.removed_instrs_ pre).map (relinkInstr r.2) ∧
          post2 = (replacedInPlace (GemmRewriterPass.fresh.CollectInfo prog) F prog.heapTop
            r.2.removed_instrs_ post).map (relinkInstr r.2) ∧
          g = relinkInstr r.2 (gemmInstr
            (prog.heapTop + numFused (GemmRewriterPass.fresh.CollectInfo prog) F post) c old) ∧
          g.op_type = "cublas_gemm" ∧ g.inputs.length = 3 ∧
          ∀ x ∈ g.inputs, x.ptr ∈ r.1.inputs.map (fun v => v.ptr) ∨
            ∃ k ∈ pre2, x.ptr ∈ k.outputs.map (fun v => v.ptr) := by
  obtain ⟨hr, _⟩ := ApplyImpl_ok prog F target r ht h
  subst hr
  simp only [final_removed]
  have hclosed : (rewritten F prog).instrs =
      (replacedInPlace (GemmRewriterPass.fresh.CollectInfo prog) F prog.heapTop
        (removedOf (GemmRewriterPass.fresh.CollectInfo prog) F prog.instrs) prog.instrs).map
        (relinkInstr (finalPass (GemmRewriterPass.fresh.CollectInfo prog) F prog)) := by
    rw [← emitted_static prog F hv prog.heapTop prog.instrs [] rfl]
    rfl
  have hlen := rewritten_length prog F hv
  refine ⟨hclosed, ?_, hlen, by omega, ?_⟩
  · intro i hi hnf
    rw [removed_iff prog F hv.2.1 i hi]
    constructor
    · rintro (⟨c, old, hf⟩ | h2)
      · exact absurd hf (hnf c old)
      · exact h2
    · exact fun h2 => Or.inr h2
  intro pre a post c old hs hf
  have hsplit : (rewritten F prog).instrs =
      (replacedInPlace (GemmRewriterPass.fresh.CollectInfo prog) F
        (prog.heapTop + numFused (GemmRewriterPass.fresh.CollectInfo prog) F post + 1)
        (removedOf (GemmRewriterPass.fresh.CollectInfo prog) F prog.instrs) pre).map
        (relinkInstr (finalPass (GemmRewriterPass.fresh.CollectInfo prog) F prog)) ++
      relinkInstr (finalPass (GemmRewriterPass.fresh.CollectInfo prog) F prog) (gemmInstr
        (prog.heapTop + numFused (GemmRewriterPass.fresh.CollectInfo prog) F post) c old) ::
      (replacedInPlace (GemmRewriterPass.fresh.CollectInfo prog) F prog.heapTop
        (removedOf (GemmRewriterPass.fresh.CollectInfo prog) F prog.instrs) post).map
        (relinkInstr (finalPass (GemmRewriterPass.fresh.CollectInfo prog) F prog)) := by
    rw [hclosed]
    generalize removedOf (GemmRewriterPass.fresh.CollectInfo prog) F prog.instrs = R
    rw [hs, replacedInPlace_append, replacedInPlace_cons_some _ F _ R a post c old hf,
      numFused_cons_some _ F a post c old hf, List.map_append, List.map_cons]
    rfl
  refine ⟨_, _, _, hsplit, rfl, rfl, rfl, rfl, ?_, ?_⟩
  · have h2 := (fused_shape prog F a c old (by rw [hs]; simp) hf).2
    obtain ⟨_, _, _, _, _, _, _, _, _, hl, _⟩ := h2
    simp only [relinkInstr, gemmInstr, List.length_map, List.length_append, List.length_cons,
      List.length_nil]
    omega
  · have htopo : (rewritten F prog).Topological :=
      topo_emitted prog F hv prog.instrs [] _ rfl (known_init prog F hv.2.2.1)
    unfold Program.Topological at htopo
    rw [hsplit] at htopo
    exact topo_split _ _ _ _ htopo

/-- C14 at the dataflow of the test `GemmRwriter.Basic`: six Instructions, one fusion,
five Instructions in the result. -/
theorem C14_witness :
    ∃ r, GemmRewriterPass.fresh.ApplyImpl Example.testBasic [] Example.nvgpu = Except.ok r ∧
      r.1.instrs =
        (replacedInPlace (GemmRewriterPass.fresh.CollectInfo Example.testBasic) []
          Example.testBasic.heapTop r.2.removed_instrs_ Example.testBasic.instrs).map
          (relinkInstr r.2) ∧
      r.1.instrs.length = 5 ∧
      numFused (GemmRewriterPass.fresh.CollectInfo Example.testBasic) []
        Example.testBasic.instrs = 1 :=
  ⟨_, rfl,
    (C14_result_in_place Example.testBasic [] Example.nvgpu _ (by decide) rfl rfl).1,
    rfl, rfl⟩

/-- C15: for a valid Program, a fetch-id set and an NVGPU target on which `ApplyImpl`
succeeds, applying `ApplyImpl` with a newly constructed pass object to the Program it
produced succeeds, fuses nothing (marks no Instruction removed, records no
substitution) and returns that Program unchanged. The reason holds as well: every
object of the input Program that is neither the accepted input of a fusion nor the
replaced output of a fused add occupies in the result as many input slots as before,
and no input of an elementwise_add of the result passes the test of `DoGemmFusion`. -/
theorem C15_idempotent (prog : Program) (F : List String) (target : Target)
    (r : Program × GemmRewriterPass) (hv : prog.Valid) (ht : target.arch = Arch.NVGPU)
    (h : GemmRewriterPass.fresh.ApplyImpl prog F target = Except.ok r) :
    (∃ st, GemmRewriterPass.fresh.ApplyImpl r.1 F target = Except.ok (r.1, st) ∧
      st.removed_instrs_ = [] ∧ st.origin2new_ = []) ∧
    numFused (GemmRewriterPass.fresh.CollectInfo r.1) F r.1.instrs = 0 ∧
    (∀ p, p < prog.heapTop → ¬ Dead prog F p → r.2.origin2new_.lookup p = none →
      useCount r.1.instrs p = useCount prog.instrs p) ∧
    (∀ a ∈ r.1.instrs, a.op_type = "elementwise_add" →
      ∀ v ∈ a.inputs, ∀ m, ¬ Eligible r.1 F v m) := by
  obtain ⟨hr, hok⟩ := ApplyImpl_ok prog F target r ht h
  subst hr
  obtain ⟨hnone, hst⟩ := second_pass prog F target hv hok
  refine ⟨hst, ?_, ?_, ?_⟩
  · exact (no_fusion_closed (GemmRewriterPass.fresh.CollectInfo (rewritten F prog)) F 0 []
      (rewritten F prog).instrs hnone).1
  · intro p hp hd hk
    exact useCount_rewritten prog F hv p hp hd hk
  · intro a ha hadd
    exact (second_pass_not_eligible prog F hv hok a ha hadd).2

/-- C15 at the dataflow of the test `GemmRwriter.Basic`: the first application fuses
one add, the second application returns its argument. -/
theorem C15_witness :
    ∃ r, GemmRewriterPass.fresh.ApplyImpl Example.testBasic [] Example.nvgpu = Except.ok r ∧
      r.2.removed_instrs_ ≠ [] ∧
      (∃ st, GemmRewriterPass.fresh.ApplyImpl r.1 [] Example.nvgpu = Except.ok (r.1, st) ∧
        st.removed_instrs_ = [] ∧ st.origin2new_ = []) :=
  ⟨_, rfl, by decide,
    (C15_idempotent Example.testBasic [] Example.nvgpu _ (by decide) rfl rfl).1⟩

/-- C16: every `cublas_gemm` that `DoGemmFusion` emits has exactly three inputs. When
`DoGemmFusion` returns true it has appended one Instruction to the builder, a
`cublas_gemm` with three inputs. When the input loop selects a candidate (the first
input that passes the test, produced by the matmul `m`) and `m` does not have exactly
two inputs, `DoGemmFusion` fails fatally: it neither emits an Instruction nor reports
no match, and the failure is the final size check whenever the loop reaches its end,
that is when the inputs visited before have a use counter and the transpose
attributes of `m` are readable as booleans. When the elementwise_add has two inputs
and no input passes the test, the collected input list is empty and `DoGemmFusion`
returns false, leaving pass object and builder as they were. -/
theorem C16_gemm_has_three_inputs (self : GemmRewriterPass) (b : CinnBuilder)
    (instr : Instruction) (F : List String) :
    (∀ self1 b1, self.DoGemmFusion b instr F = Except.ok (true, self1, b1) →
      ∃ g, b1.instrs_.getLast? = some g ∧ b1.instrs_.length = b.instrs_.length + 1 ∧
        g.op_type = "cublas_gemm" ∧ g.inputs.length = 3) ∧
    (∀ (l1 l2 : List Variable) (v : Variable) (m : Instruction),
      instr.inputs.length = 2 → instr.inputs = l1 ++ v :: l2 →
      (∀ u ∈ l1, ∀ m0, ¬ Accepted self.output2instr_ self.var_used_count_ F u m0) →
      Accepted self.output2instr_ self.var_used_count_ F v m → m.inputs.length ≠ 2 →
      (∃ e, self.DoGemmFusion b instr F = Except.error e) ∧
      ((∀ u ∈ l1, (self.var_used_count_.lookup u.ptr).isSome) →
        BoolOrAbsent (m.attrs.lookup "trans_a") → BoolOrAbsent (m.attrs.lookup "trans_b") →
        self.DoGemmFusion b instr F = Except.error Fatal.gemm_arity)) ∧
    (instr.inputs.length = 2 →
      (∀ v ∈ instr.inputs, (self.var_used_count_.lookup v.ptr).isSome) →
      (∀ v ∈ instr.inputs, ∀ m, ¬ Accepted self.output2instr_ self.var_used_count_ F v m) →
      (∀ in0 in1, GemmRewriterPass.DoGemmFusion.forInputs self instr F in0 in1
          { inputs := [], trans_a := false, trans_b := false } instr.inputs =
        Except.ok (self, { inputs := [], trans_a := false, trans_b := false })) ∧
      self.DoGemmFusion b instr F = Except.ok (false, self, b)) := by
  refine ⟨?_, ?_, ?_⟩
  · intro self1 b1 h
    rw [DoGemmFusion_eq] at h
    cases hp : planOf self.output2instr_ self.var_used_count_ F instr with
    | error e => rw [hp] at h; simp at h
    | ok r =>
      rw [hp] at h
      cases r with
      | none => simp at h
      | some p =>
        obtain ⟨c, old⟩ := p
        simp only [Except.ok.injEq, Prod.mk.injEq, true_and] at h
        obtain ⟨_, h2⟩ := h
        obtain ⟨_, _, _, _, _, hlen⟩ := planOf_some _ _ _ _ _ _ hp
        refine ⟨{ ptr := b.next_obj, op_type := "cublas_gemm",
                  inputs := c.matmul.inputs ++ [c.bias],
                  outputs := [{ ptr := b.next_obj, id := old.id }],
                  attrs := [("trans_a", AttrType.bool c.trans_a),
                            ("trans_b", AttrType.bool c.trans_b)] }, ?_, ?_, rfl, ?_⟩
        · rw [← h2]
          simp [CinnBuilder.CustomInstr, CinnBuilder.SetVarId, List.getLast?_append]
        · rw [← h2]
          simp [CinnBuilder.CustomInstr, CinnBuilder.SetVarId]
        · simp only [List.length_append, List.length_cons, List.length_nil]
          omega
  · intro l1 l2 v m h2 hs hn ha hm
    constructor
    · rw [DoGemmFusion_eq]
      cases hp : planOf self.output2instr_ self.var_used_count_ F instr with
      | error e => exact ⟨e, rfl⟩
      | ok r =>
        exfalso
        cases r with
        | none =>
          exact planOf_none _ _ _ _ hp v (by rw [hs]; simp) m ha
        | some p =>
          obtain ⟨c, old⟩ := p
          obtain ⟨k1, k2, hk, hkn, hacc, hlen⟩ := planOf_some _ _ _ _ _ _ hp
          have := first_accepted_unique _ _ F l1 l2 k1 k2 v c.var m c.matmul
            (by rw [← hs, hk]) hn hkn ha hacc
          rw [this.2] at hm
          exact hm hlen
    · intro hc hta htb
      obtain ⟨ta, hta⟩ := transOf_of_boolOrAbsent m "trans_a" hta
      obtain ⟨tb, htb⟩ := transOf_of_boolOrAbsent m "trans_b" htb
      rw [DoGemmFusion_eq, planOf_bad_candidate _ _ F instr l1 l2 v m ta tb h2 hs hc hn ha hta htb hm]
  · intro h2 hc hn
    constructor
    · intro in0 in1
      rw [forInputs_eq, pick_none _ _ F in0 in1 instr.inputs hc hn]
    · rw [DoGemmFusion_eq, planOf_no_candidate _ _ F instr h2 hc hn]

/-- C16 at the Program `unaryMatmul`: the add reads the output of a one-input matmul,
which is selected as candidate, and `DoGemmFusion` fails on its final size check. -/
theorem C16_witness :
    (∃ e, (GemmRewriterPass.fresh.CollectInfo Example.unaryMatmul).DoGemmFusion
        { name := "b", instrs_ := [], inputs_ := [], next_obj := 51 } Example.addOut3 [] =
      Except.error e) ∧
    (GemmRewriterPass.fresh.CollectInfo Example.unaryMatmul).DoGemmFusion
        { name := "b", instrs_ := [], inputs_ := [], next_obj := 51 } Example.addOut3 [] =
      Except.error Fatal.gemm_arity :=
  ⟨((C16_gemm_has_three_inputs (GemmRewriterPass.fresh.CollectInfo Example.unaryMatmul)
      { name := "b", instrs_ := [], inputs_ := [], next_obj := 51 } Example.addOut3 []).2.1
      [] [Example.bias] Example.V3 Example.matmulOne rfl rfl (by simp)
      ⟨rfl, rfl, ⟨1, rfl, by decide⟩, by simp⟩ (by decide)).1,
   ((C16_gemm_has_three_inputs (GemmRewriterPass.fresh.CollectInfo Example.unaryMatmul)
      { name := "b", instrs_ := [], inputs_ := [], next_obj := 51 } Example.addOut3 []).2.1
      [] [Example.bias] Example.V3 Example.matmulOne rfl rfl (by simp)
      ⟨rfl, rfl, ⟨1, rfl, by decide⟩, by simp⟩ (by decide)).2 (by simp) trivial trivial⟩

end frontend
end cinn
